import Mathlib

/-!
# Sutherland–Hodgman polygon clipping

A shallow embedding of the clipping core of `main.cpp` (`inside`, `intersect`,
`clipAgainstBoundary`, `SutherlandHodgeman`) and the properties of it that the
specification states.

Coordinates are taken in an arbitrary linearly ordered field `α` (exact
arithmetic): every theorem therefore holds over the reals, and every definition
can be evaluated over the rationals.
-/

set_option linter.unusedSectionVars false
set_option linter.unnecessarySeqFocus false

namespace Clip

/-! ## Data model -/

/-- A vertex: `struct Vertex { float x, y; }`. -/
structure Vertex (α : Type) where
  x : α
  y : α
deriving DecidableEq

variable {α : Type} [LinearOrderedField α]

instance : Inhabited (Vertex α) := ⟨⟨0, 0⟩⟩

/-! ## The program -/

/-- Boundary test (`inside`, lines 19-27): `0` Left, `1` Right, `2` Bottom, `3` Top;
any other boundary code falls out of the `switch` and yields `false`. -/
def inside (v : Vertex α) (boundary : Int) (xmin ymin xmax ymax : α) : Bool :=
  match boundary with
  | 0 => decide (v.x ≥ xmin)
  | 1 => decide (v.x ≤ xmax)
  | 2 => decide (v.y ≥ ymin)
  | 3 => decide (v.y ≤ ymax)
  | _ => false

/-- Edge intersector (`intersect`, lines 29-53). The division is the field
division, so a zero divisor yields `0` for the quotient; `clipAgainstBoundary`
never calls it with a zero divisor (see `straddle_divisor_ne_zero`). For a
boundary code outside `0..3` the source returns `res` uninitialised; no caller
reaches that case and the model returns the origin there. -/
def intersect (v1 v2 : Vertex α) (boundary : Int) (xmin ymin xmax ymax : α) : Vertex α :=
  let dx := v2.x - v1.x
  let dy := v2.y - v1.y
  match boundary with
  | 0 => ⟨xmin, v1.y + dy * (xmin - v1.x) / dx⟩
  | 1 => ⟨xmax, v1.y + dy * (xmax - v1.x) / dx⟩
  | 2 => ⟨v1.x + dx * (ymin - v1.y) / dy, ymin⟩
  | 3 => ⟨v1.x + dx * (ymax - v1.y) / dy, ymax⟩
  | _ => ⟨0, 0⟩

/-- One iteration of the loop of `clipAgainstBoundary` (lines 63-78), at index `i`,
with `output` the vector built so far. Indices are `size_t`; `i + size - 1` does
not wrap for any vector that fits in memory, so they are natural numbers here. -/
def clipBody (input : List (Vertex α)) (boundary : Int) (xmin ymin xmax ymax : α)
    (output : List (Vertex α)) (i : Nat) : List (Vertex α) :=
  let current := input.getD i default
  let prev := input.getD ((i + input.length - 1) % input.length) default
  let currInside := inside current boundary xmin ymin xmax ymax
  let prevInside := inside prev boundary xmin ymin xmax ymax
  if prevInside && currInside then
    output ++ [current]
  else if prevInside && !currInside then
    output ++ [intersect prev current boundary xmin ymin xmax ymax]
  else if !prevInside && currInside then
    output ++ [intersect prev current boundary xmin ymin xmax ymax, current]
  else
    output

/-- One clipping pass (`clipAgainstBoundary`, lines 55-81): the loop
`for (i = 0; i < input.size(); i++)` starting from the empty output. -/
def clipAgainstBoundary (input : List (Vertex α)) (boundary : Int)
    (xmin ymin xmax ymax : α) : List (Vertex α) :=
  (List.range input.length).foldl (clipBody input boundary xmin ymin xmax ymax) []

/-- The passes `poly = clipAgainstBoundary(poly, b, ...)` run for the boundaries
of `bs` in turn. -/
def clipSeq (bs : List Int) (poly : List (Vertex α)) (xmin ymin xmax ymax : α) :
    List (Vertex α) :=
  bs.foldl (fun p b => clipAgainstBoundary p b xmin ymin xmax ymax) poly

/-- The four-pass clip of `SutherlandHodgeman` (lines 95-98):
`for (int b = 0; b < 4; b++) poly = clipAgainstBoundary(poly, b, ...)`. -/
def fourPassClip (poly : List (Vertex α)) (xmin ymin xmax ymax : α) : List (Vertex α) :=
  clipSeq [0, 1, 2, 3] poly xmin ymin xmax ymax

/-- The flat array `x0,y0,x1,y1,...` read as a vertex list (lines 90-93). On an
array of odd length the source reads `polygon[i + 1]` past the end; the model
returns `none` there. -/
def toVertices : List α → Option (List (Vertex α))
  | [] => some []
  | [_] => none
  | x :: y :: rest => (toVertices rest).map (fun vs => ⟨x, y⟩ :: vs)

/-- The value `ndcX = (2.0f * v.x) / width - 1.0f` of line 103. -/
def ndcX (v : Vertex α) (width : Int) : α := (2 * v.x) / (width : α) - 1

/-- The value `ndcY = (2.0f * v.y) / height - 1.0f` of line 104. -/
def ndcY (v : Vertex α) (height : Int) : α := (2 * v.y) / (height : α) - 1

/-- The conversion back to normalised device coordinates (lines 101-107). -/
def toNDC (width height : Int) : List (Vertex α) → List α
  | [] => []
  | v :: vs => ndcX v width :: ndcY v height :: toNDC width height vs

/-- The entry point `SutherlandHodgeman` (lines 84-109). -/
def SutherlandHodgeman (polygon : List α) (xmin ymin xmax ymax : α)
    (width height : Int) : Option (List α) :=
  (toVertices polygon).map
    (fun poly => toNDC width height (fourPassClip poly xmin ymin xmax ymax))

/-- The flat array of a vertex list, as the caller builds it. -/
def flatten : List (Vertex α) → List α
  | [] => []
  | v :: vs => v.x :: v.y :: flatten vs

/-- The polygon of `main` (lines 240-245). -/
def diamond : List (Vertex ℚ) := [⟨400, 500⟩, ⟨150, 300⟩, ⟨400, 100⟩, ⟨650, 300⟩]

/-! ## The program, with its undefined operations made explicit

The source raises no error of its own. The definitions below follow the same
lines of `main.cpp`, and stop with a `Fault` at each operation that has no
meaning in exact arithmetic or in C++: a vector read past the end, a modulo by
zero, a division by zero, a value returned without having been assigned. They
also record every call made to `intersect`. -/

/-- An operation of the source that is undefined, or has no exact value. -/
inductive Fault where
  | indexOutOfBounds
  | moduloByZero
  | divisionByZero
  | uninitialised
deriving DecidableEq

/-- The working state of an instrumented pass: the output vector, and the
arguments `(v1, v2)` of the calls made to `intersect`, in order. -/
structure Trace (α : Type) where
  output : List (Vertex α)
  calls : List (Vertex α × Vertex α)

/-- The read `input[i]` of a `std::vector`. -/
def readAt (input : List (Vertex α)) (i : Nat) : Except Fault (Vertex α) :=
  match input[i]? with
  | some v => .ok v
  | none => .error .indexOutOfBounds

/-- The function `intersect` (lines 29-53) with its division guarded: a zero
divisor is a fault, and so is the return of the unassigned `res` for a boundary
code outside `0..3`. -/
def intersectChecked (v1 v2 : Vertex α) (boundary : Int) (xmin ymin xmax ymax : α) :
    Except Fault (Vertex α) :=
  let dx := v2.x - v1.x
  let dy := v2.y - v1.y
  match boundary with
  | 0 => if dx = 0 then .error .divisionByZero
         else .ok ⟨xmin, v1.y + dy * (xmin - v1.x) / dx⟩
  | 1 => if dx = 0 then .error .divisionByZero
         else .ok ⟨xmax, v1.y + dy * (xmax - v1.x) / dx⟩
  | 2 => if dy = 0 then .error .divisionByZero
         else .ok ⟨v1.x + dx * (ymin - v1.y) / dy, ymin⟩
  | 3 => if dy = 0 then .error .divisionByZero
         else .ok ⟨v1.x + dx * (ymax - v1.y) / dy, ymax⟩
  | _ => .error .uninitialised

/-- One iteration of the loop of `clipAgainstBoundary` (lines 63-78), with the
reads, the modulo and the calls to `intersect` checked and recorded. -/
def clipBodyChecked (input : List (Vertex α)) (boundary : Int) (xmin ymin xmax ymax : α)
    (st : Trace α) (i : Nat) : Except Fault (Trace α) := do
  let current ← readAt input i
  if input.length = 0 then
    throw Fault.moduloByZero
  let prev ← readAt input ((i + input.length - 1) % input.length)
  let currInside := inside current boundary xmin ymin xmax ymax
  let prevInside := inside prev boundary xmin ymin xmax ymax
  if prevInside && currInside then
    pure { st with output := st.output ++ [current] }
  else if prevInside && !currInside then do
    let r ← intersectChecked prev current boundary xmin ymin xmax ymax
    pure { output := st.output ++ [r], calls := st.calls ++ [(prev, current)] }
  else if !prevInside && currInside then do
    let r ← intersectChecked prev current boundary xmin ymin xmax ymax
    pure { output := st.output ++ [r, current], calls := st.calls ++ [(prev, current)] }
  else
    pure st

/-- The pass `clipAgainstBoundary` (lines 55-81), instrumented. -/
def clipAgainstBoundaryChecked (input : List (Vertex α)) (boundary : Int)
    (xmin ymin xmax ymax : α) : Except Fault (Trace α) :=
  (List.range input.length).foldlM (clipBodyChecked input boundary xmin ymin xmax ymax)
    ⟨[], []⟩

/-- One step of the loop over the boundaries (line 97), instrumented: the pass
replaces the working polygon and its calls are added to the record. -/
def passChecked (xmin ymin xmax ymax : α) (st : Trace α) (b : Int) :
    Except Fault (Trace α) := do
  let r ← clipAgainstBoundaryChecked st.output b xmin ymin xmax ymax
  pure { output := r.output, calls := st.calls ++ r.calls }

/-- The passes for the boundaries of `bs` in turn, instrumented. -/
def clipSeqChecked (bs : List Int) (poly : List (Vertex α)) (xmin ymin xmax ymax : α) :
    Except Fault (Trace α) :=
  bs.foldlM (passChecked xmin ymin xmax ymax) ⟨poly, []⟩

/-- The four-pass clip of `SutherlandHodgeman` (lines 95-98), instrumented. -/
def fourPassClipChecked (poly : List (Vertex α)) (xmin ymin xmax ymax : α) :
    Except Fault (Trace α) :=
  clipSeqChecked [0, 1, 2, 3] poly xmin ymin xmax ymax

/-- The conversion of the flat array (lines 90-93), with the read of
`polygon[i + 1]` checked. -/
def toVerticesChecked : List α → Except Fault (List (Vertex α))
  | [] => .ok []
  | [_] => .error .indexOutOfBounds
  | x :: y :: rest => do
    let vs ← toVerticesChecked rest
    pure (⟨x, y⟩ :: vs)

/-- The conversion to normalised device coordinates (lines 101-107), with the
two divisions by `width` and `height` guarded. -/
def toNDCChecked (width height : Int) : List (Vertex α) → Except Fault (List α)
  | [] => .ok []
  | v :: vs =>
    if width = 0 then .error .divisionByZero
    else if height = 0 then .error .divisionByZero
    else do
      let rest ← toNDCChecked width height vs
      pure (ndcX v width :: ndcY v height :: rest)

/-- The entry point `SutherlandHodgeman` (lines 84-109), instrumented. -/
def SutherlandHodgemanChecked (polygon : List α) (xmin ymin xmax ymax : α)
    (width height : Int) : Except Fault (List α) := do
  let poly ← toVerticesChecked polygon
  let tr ← fourPassClipChecked poly xmin ymin xmax ymax
  toNDCChecked width height tr.output

/-- The divisor of the interpolation of `intersect`: `dx` for Left and Right,
`dy` for Bottom and Top. -/
def divisor (v1 v2 : Vertex α) (boundary : Int) : α :=
  match boundary with
  | 0 => v2.x - v1.x
  | 1 => v2.x - v1.x
  | 2 => v2.y - v1.y
  | 3 => v2.y - v1.y
  | _ => 1

/-- The pair is on opposite sides of the boundary: exactly one of the two
points is inside. -/
def straddles (b : Int) (xmin ymin xmax ymax : α) (e : Vertex α × Vertex α) : Bool :=
  inside e.1 b xmin ymin xmax ymax != inside e.2 b xmin ymin xmax ymax

/-! ## The specification's vocabulary -/

/-- The vertices emitted for one pair `(prev, current)`, following the case rule
of the specification (section 4.3). -/
def emit (prev current : Vertex α) (boundary : Int) (xmin ymin xmax ymax : α) :
    List (Vertex α) :=
  match inside prev boundary xmin ymin xmax ymax,
        inside current boundary xmin ymin xmax ymax with
  | true, true => [current]
  | true, false => [intersect prev current boundary xmin ymin xmax ymax]
  | false, true => [intersect prev current boundary xmin ymin xmax ymax, current]
  | false, false => []

/-- The pairs `(prev, current)` met when walking `l` with `prev` the vertex that
precedes the head of `l`. -/
def pairsFrom (prev : Vertex α) : List (Vertex α) → List (Vertex α × Vertex α)
  | [] => []
  | cur :: rest => (prev, cur) :: pairsFrom cur rest

/-- Every vertex of the cyclic sequence paired with its predecessor, the first
vertex with the last. -/
def cyclicPairs (P : List (Vertex α)) : List (Vertex α × Vertex α) :=
  match P.getLast? with
  | none => []
  | some l => pairsFrom l P

/-- The emissions for the pairs of `ps`, concatenated in order. -/
def emitAll (boundary : Int) (xmin ymin xmax ymax : α) :
    List (Vertex α × Vertex α) → List (Vertex α)
  | [] => []
  | e :: es => emit e.1 e.2 boundary xmin ymin xmax ymax
      ++ emitAll boundary xmin ymin xmax ymax es

/-- The single pass as the specification words it: walk every consecutive pair
around the cyclic sequence and concatenate what each pair emits. -/
def clipSpec (input : List (Vertex α)) (boundary : Int) (xmin ymin xmax ymax : α) :
    List (Vertex α) :=
  emitAll boundary xmin ymin xmax ymax (cyclicPairs input)

/-- The point passes all four inside tests of the rectangle. -/
def insideAll (v : Vertex α) (xmin ymin xmax ymax : α) : Prop :=
  inside v 0 xmin ymin xmax ymax = true ∧ inside v 1 xmin ymin xmax ymax = true ∧
  inside v 2 xmin ymin xmax ymax = true ∧ inside v 3 xmin ymin xmax ymax = true

/-- The four boundary codes of the `switch` statements. -/
def IsBoundary (b : Int) : Prop := b = 0 ∨ b = 1 ∨ b = 2 ∨ b = 3

/-- The point `u + t (v - u)` of the line through `u` and `v`. -/
def lerp (u v : Vertex α) (t : α) : Vertex α :=
  ⟨u.x + t * (v.x - u.x), u.y + t * (v.y - u.y)⟩

/-- Signed slack of `v` with respect to the boundary: non-negative exactly when
`v` is inside, zero exactly on the boundary line. -/
def bdist (b : Int) (xmin ymin xmax ymax : α) (v : Vertex α) : α :=
  match b with
  | 0 => v.x - xmin
  | 1 => xmax - v.x
  | 2 => v.y - ymin
  | 3 => ymax - v.y
  | _ => -1

/-- Coordinate of `v` along the boundary line, oriented so that
`(bdist, balong)` is a rotation of `(x, y)`. -/
def balong (b : Int) (v : Vertex α) : α :=
  match b with
  | 0 => v.y
  | 1 => -v.y
  | 2 => -v.x
  | 3 => v.x
  | _ => 0

/-- Twice the signed area of the triangle `a b c`; positive when `c` is to the
left of the directed line from `a` to `b`. -/
def cross (a b c : Vertex α) : α :=
  (b.x - a.x) * (c.y - a.y) - (b.y - a.y) * (c.x - a.x)

/-- A set of points that contains the whole segment between any two of its
points. -/
def SegClosed (S : Set (Vertex α)) : Prop :=
  ∀ u v t, u ∈ S → v ∈ S → 0 ≤ t → t ≤ 1 → lerp u v t ∈ S

/-- The convex hull of the vertices of `P`: the points that belong to every
segment-closed set containing the vertices. It is Mathlib's `convexHull` of the
same points (`mem_hull_iff_convexHull`). -/
def hull (P : List (Vertex α)) : Set (Vertex α) :=
  {q | ∀ S : Set (Vertex α), SegClosed S → (∀ v ∈ P, v ∈ S) → q ∈ S}

/-- A vertex as a point of the plane `α × α`. -/
def toPoint (v : Vertex α) : α × α := (v.x, v.y)

/-- The vertices of `P` as a set of points of the plane. -/
def pointSet (P : List (Vertex α)) : Set (α × α) := {p | ∃ v ∈ P, toPoint v = p}

/-- Every vertex of `P` lies on the side `ε` of every edge of `P`, the edges
being the cyclically consecutive pairs: on the left (or on the edge's line) for
`ε = 1`, on the right for `ε = -1`. -/
def ConvexWith (ε : α) (P : List (Vertex α)) : Prop :=
  ∀ e ∈ cyclicPairs P, ∀ w ∈ P, 0 ≤ ε * cross e.1 e.2 w

/-- A convex polygon whose vertices are listed in cyclic boundary order,
counter-clockwise or clockwise. Repeated and collinear vertices are allowed. -/
def IsConvexPolygon (P : List (Vertex α)) : Prop :=
  ConvexWith 1 P ∨ ConvexWith (-1) P

/-- The last vertex of `l`, or `p` when `l` is empty. -/
def lastFrom (p : Vertex α) : List (Vertex α) → Vertex α
  | [] => p
  | c :: rest => lastFrom c rest

/-- The point `a` is where some edge of `P` leaves the inside of the boundary. -/
def IsExitPoint (P : List (Vertex α)) (b : Int) (xmin ymin xmax ymax : α) (a : Vertex α) :
    Prop :=
  ∃ e ∈ cyclicPairs P, inside e.1 b xmin ymin xmax ymax = true
    ∧ inside e.2 b xmin ymin xmax ymax = false ∧ a = intersect e.1 e.2 b xmin ymin xmax ymax

/-- The vertex `z` is where the output of the pass stands once the walk has
reached the vertex `p`: at `p` itself when `p` is inside, at an exit point when
`p` is outside. -/
def Pen (P : List (Vertex α)) (b : Int) (xmin ymin xmax ymax : α) (z p : Vertex α) : Prop :=
  (inside p b xmin ymin xmax ymax = true ∧ z = p)
  ∨ (inside p b xmin ymin xmax ymax = false ∧ IsExitPoint P b xmin ymin xmax ymax z)

/-- The directed segment from `u` to `v` has, on its side `ε`, every point of
the hull of `P` that is inside the boundary. -/
def GoodEdge (ε : α) (P : List (Vertex α)) (b : Int) (xmin ymin xmax ymax : α)
    (u v : Vertex α) : Prop :=
  ∀ w ∈ hull P, inside w b xmin ymin xmax ymax = true → 0 ≤ ε * cross u v w

/-! ## Closed walks up to rotation and repetition -/

/-- Two vertex lists that describe the same closed walk: one is obtained from
the other by rotating the list, by repeating a vertex next to itself or removing
such a repetition, and by inserting or removing a vertex `x` between consecutive
vertices `u`, `v` when `ins u x v` allows it. -/
inductive CycRel (ins : Vertex α → Vertex α → Vertex α → Prop) :
    List (Vertex α) → List (Vertex α) → Prop
  | refl (l : List (Vertex α)) : CycRel ins l l
  | symm {l m : List (Vertex α)} : CycRel ins l m → CycRel ins m l
  | trans {l m n : List (Vertex α)} : CycRel ins l m → CycRel ins m n → CycRel ins l n
  | rot (l1 l2 : List (Vertex α)) : CycRel ins (l1 ++ l2) (l2 ++ l1)
  | dup (l1 l2 : List (Vertex α)) (x : Vertex α) :
      CycRel ins (l1 ++ x :: l2) (l1 ++ x :: x :: l2)
  | cut (l1 l2 : List (Vertex α)) (u x v : Vertex α) : ins u x v →
      CycRel ins (l1 ++ u :: v :: l2) (l1 ++ u :: x :: v :: l2)

/-- No insertion is allowed. -/
def NoCut : Vertex α → Vertex α → Vertex α → Prop := fun _ _ _ => False

/-- The two lists are equal up to rotation and up to repetitions of a vertex
next to itself. -/
def SameCycle (A B : List (Vertex α)) : Prop := CycRel NoCut A B

/-- The vertex `x` is the intersection of the edge from `u` to `v` with the
boundary `b`, and the edge crosses that boundary. -/
def CutAt (b : Int) (xmin ymin xmax ymax : α) : Vertex α → Vertex α → Vertex α → Prop :=
  fun u x v => inside u b xmin ymin xmax ymax ≠ inside v b xmin ymin xmax ymax
    ∧ x = intersect u v b xmin ymin xmax ymax

/-- The emissions of one pass along `l`, entered from the vertex `p`. -/
def run (b : Int) (xmin ymin xmax ymax : α) (p : Vertex α) (l : List (Vertex α)) :
    List (Vertex α) :=
  emitAll b xmin ymin xmax ymax (pairsFrom p l)

/-- The walk along `l` entered from `p`, with the intersection point added on
every edge that crosses the boundary. -/
def cuts (b : Int) (xmin ymin xmax ymax : α) (p : Vertex α) :
    List (Vertex α) → List (Vertex α)
  | [] => []
  | c :: rest =>
    (if inside p b xmin ymin xmax ymax ≠ inside c b xmin ymin xmax ymax
      then [intersect p c b xmin ymin xmax ymax, c] else [c])
      ++ cuts b xmin ymin xmax ymax c rest

/-- The closed walk `P` with the intersection point added on every edge that
crosses the boundary. -/
def subdivide (P : List (Vertex α)) (b : Int) (xmin ymin xmax ymax : α) : List (Vertex α) :=
  match P.getLast? with
  | none => []
  | some a => cuts b xmin ymin xmax ymax a P

/-- No edge of the closed walk has its end points strictly on opposite sides of
the boundary. -/
def Fine (b : Int) (xmin ymin xmax ymax : α) (N : List (Vertex α)) : Prop :=
  ∀ e ∈ cyclicPairs N, 0 ≤ bdist b xmin ymin xmax ymax e.1 * bdist b xmin ymin xmax ymax e.2

/-- The vertex `u` of the closed walk `N` is inside the boundary and is followed
by a vertex outside. -/
def ExitAt (N : List (Vertex α)) (b : Int) (xmin ymin xmax ymax : α) (u : Vertex α) : Prop :=
  ∃ o, (u, o) ∈ cyclicPairs N ∧ inside u b xmin ymin xmax ymax = true
    ∧ inside o b xmin ymin xmax ymax = false

/-- The vertex `d` of the closed walk `N` is inside the boundary and is preceded
by a vertex outside. -/
def EntryAt (N : List (Vertex α)) (b : Int) (xmin ymin xmax ymax : α) (d : Vertex α) : Prop :=
  ∃ o, (o, d) ∈ cyclicPairs N ∧ inside o b xmin ymin xmax ymax = false
    ∧ inside d b xmin ymin xmax ymax = true

/-- The two lists are equal up to repetitions of a vertex next to itself, in
every context. -/
def Stut (A B : List (Vertex α)) : Prop :=
  ∀ pre suf : List (Vertex α), SameCycle (pre ++ A ++ suf) (pre ++ B ++ suf)

/-- The vertex passes the inside tests of both boundaries. -/
def inBoth (b c : Int) (xmin ymin xmax ymax : α) (v : Vertex α) : Bool :=
  inside v b xmin ymin xmax ymax && inside v c xmin ymin xmax ymax

/-- The pass against `c` along the vertices of `l` that are inside `b`, entered
from the vertex `u`. -/
def passF (b c : Int) (xmin ymin xmax ymax : α) (u : Vertex α) (l : List (Vertex α)) :
    List (Vertex α) :=
  run c xmin ymin xmax ymax u (l.filter (fun v => inside v b xmin ymin xmax ymax))

/-- The vertices of `l` inside both boundaries, in order; when `ins` is set, the
point `q` is added in front of every such vertex whose predecessor in the walk
is not inside both. The walk is entered from the vertex `p`. -/
def keep (b c : Int) (xmin ymin xmax ymax : α) (q : Vertex α) (ins : Bool) (p : Vertex α) :
    List (Vertex α) → List (Vertex α)
  | [] => []
  | d :: rest =>
    (if inBoth b c xmin ymin xmax ymax d = true then
      (if (ins && !inBoth b c xmin ymin xmax ymax p) = true then [q, d] else [d])
     else [])
      ++ keep b c xmin ymin xmax ymax q ins d rest

/-- The bridge of `b`, from the vertex where the closed walk `N` leaves the
inside of `b` to the vertex where it comes back, crosses the boundary `c`. -/
def BridgeCrosses (N : List (Vertex α)) (b c : Int) (xmin ymin xmax ymax : α)
    (u d : Vertex α) : Prop :=
  ExitAt N b xmin ymin xmax ymax u ∧ EntryAt N b xmin ymin xmax ymax d
    ∧ inside u c xmin ymin xmax ymax ≠ inside d c xmin ymin xmax ymax

/-- The vertices of `l` that differ from their predecessor, in the walk along
`l` entered from `p`. -/
def dropRepeats (p : Vertex α) : List (Vertex α) → List (Vertex α)
  | [] => []
  | c :: rest => (if c = p then [] else [c]) ++ dropRepeats c rest

/-- The closed walk `l` with repeated vertices collapsed: every vertex equal to
its predecessor is dropped, the predecessor of the first vertex being the last
one; a walk that stays on one vertex collapses to that vertex. -/
def collapse (l : List (Vertex α)) : List (Vertex α) :=
  match l.getLast? with
  | none => []
  | some z => if dropRepeats z l = [] then [z] else dropRepeats z l

/-! ## The loop and the list definition agree -/

section Refinement

variable (b : Int) (xmin ymin xmax ymax : α)

theorem clipBody_eq_append (input out : List (Vertex α)) (i : Nat) :
    clipBody input b xmin ymin xmax ymax out i
      = out ++ emit (input.getD ((i + input.length - 1) % input.length) default)
          (input.getD i default) b xmin ymin xmax ymax := by
  simp only [clipBody, emit]
  cases inside (input.getD ((i + input.length - 1) % input.length) default) b xmin ymin xmax ymax <;>
    cases inside (input.getD i default) b xmin ymin xmax ymax <;> simp

theorem foldl_append_eq_flatMap {β γ : Type} (g : β → List γ) (f : List γ → β → List γ)
    (hf : ∀ out i, f out i = out ++ g i) (l : List β) (acc : List γ) :
    l.foldl f acc = acc ++ l.flatMap g := by
  induction l generalizing acc with
  | nil => simp
  | cons a l ih => simp [List.foldl_cons, ih, hf, List.flatMap_cons]

theorem clipAgainstBoundary_eq_flatMap (input : List (Vertex α)) :
    clipAgainstBoundary input b xmin ymin xmax ymax
      = (List.range input.length).flatMap (fun i =>
          emit (input.getD ((i + input.length - 1) % input.length) default)
            (input.getD i default) b xmin ymin xmax ymax) := by
  unfold clipAgainstBoundary
  rw [foldl_append_eq_flatMap _ _ (clipBody_eq_append b xmin ymin xmax ymax input)]
  simp

theorem emitAll_pairsFrom (l : List (Vertex α)) (p : Vertex α) :
    emitAll b xmin ymin xmax ymax (pairsFrom p l)
      = (List.range l.length).flatMap (fun i =>
          emit (if i = 0 then p else l.getD (i - 1) default) (l.getD i default)
            b xmin ymin xmax ymax) := by
  induction l generalizing p with
  | nil => simp [pairsFrom, emitAll]
  | cons c rest ih =>
    simp only [pairsFrom, emitAll, List.length_cons, List.range_succ_eq_map,
      List.flatMap_cons, List.flatMap_map]
    rw [ih c]
    simp only [if_true, List.getD_cons_zero]
    congr 1
    apply List.flatMap_congr
    intro i _
    cases i with
    | zero => simp
    | succ k => simp

theorem prev_index (n i : Nat) (hi : i < n) :
    (i + n - 1) % n = if i = 0 then n - 1 else i - 1 := by
  split
  · next h => subst h; simp
  · next h =>
    have : i + n - 1 = (i - 1) + n := by omega
    rw [this, Nat.add_mod_right]
    exact Nat.mod_eq_of_lt (by omega)

theorem clipAgainstBoundary_eq_clipSpec (input : List (Vertex α)) :
    clipAgainstBoundary input b xmin ymin xmax ymax
      = clipSpec input b xmin ymin xmax ymax := by
  rw [clipAgainstBoundary_eq_flatMap]
  unfold clipSpec cyclicPairs
  rcases List.eq_nil_or_concat input with h | ⟨l, a, h⟩
  · subst h; simp [emitAll]
  · have hlast : input.getLast? = some a := by rw [h]; simp
    rw [hlast]
    simp only
    rw [emitAll_pairsFrom]
    apply List.flatMap_congr
    intro i hi
    have hi2 : i < input.length := List.mem_range.mp hi
    rw [prev_index _ _ hi2]
    split
    · have : input.getD (input.length - 1) default = a := by
        rw [h]; simp [List.getD_eq_getElem?_getD]
      rw [this]
    · rfl

end Refinement

/-! ## Passes that keep everything -/

section Basic

variable (b : Int) (xmin ymin xmax ymax : α)

theorem getLast?_mem {β : Type} {l : List β} {a : β} (h : l.getLast? = some a) : a ∈ l := by
  rcases List.eq_nil_or_concat l with h0 | ⟨l0, a0, h0⟩
  · subst h0; simp at h
  · subst h0; simp at h; subst h; simp

theorem emitAll_pairsFrom_of_all_inside (l : List (Vertex α)) (p : Vertex α)
    (hp : inside p b xmin ymin xmax ymax = true)
    (hl : ∀ v ∈ l, inside v b xmin ymin xmax ymax = true) :
    emitAll b xmin ymin xmax ymax (pairsFrom p l) = l := by
  induction l generalizing p with
  | nil => rfl
  | cons c rest ih =>
    have hc : inside c b xmin ymin xmax ymax = true := hl c (by simp)
    simp only [pairsFrom, emitAll, emit, hp, hc]
    rw [ih c hc (fun v hv => hl v (List.mem_cons_of_mem _ hv))]
    rfl

theorem clipAgainstBoundary_of_all_inside (P : List (Vertex α))
    (h : ∀ v ∈ P, inside v b xmin ymin xmax ymax = true) :
    clipAgainstBoundary P b xmin ymin xmax ymax = P := by
  rw [clipAgainstBoundary_eq_clipSpec]
  unfold clipSpec cyclicPairs
  cases hl : P.getLast? with
  | none => simp at hl; subst hl; rfl
  | some a => exact emitAll_pairsFrom_of_all_inside b xmin ymin xmax ymax P a (h a (getLast?_mem hl)) h

theorem fourPassClip_of_all_inside (P : List (Vertex α))
    (h : ∀ v ∈ P, insideAll v xmin ymin xmax ymax) :
    fourPassClip P xmin ymin xmax ymax = P := by
  simp only [fourPassClip, clipSeq, List.foldl_cons, List.foldl_nil]
  rw [clipAgainstBoundary_of_all_inside 0 xmin ymin xmax ymax P (fun v hv => (h v hv).1),
    clipAgainstBoundary_of_all_inside 1 xmin ymin xmax ymax P (fun v hv => (h v hv).2.1),
    clipAgainstBoundary_of_all_inside 2 xmin ymin xmax ymax P (fun v hv => (h v hv).2.2.1),
    clipAgainstBoundary_of_all_inside 3 xmin ymin xmax ymax P (fun v hv => (h v hv).2.2.2)]

end Basic

/-! ## The boundary test and the intersector in boundary coordinates -/

section Local

variable (b : Int) (xmin ymin xmax ymax : α)

theorem inside_eq_false_of_not_boundary (hb : ¬ IsBoundary b) (v : Vertex α) :
    inside v b xmin ymin xmax ymax = false := by
  unfold IsBoundary at hb
  unfold inside
  split <;> simp_all

theorem inside_iff_bdist (v : Vertex α) :
    inside v b xmin ymin xmax ymax = true ↔ 0 ≤ bdist b xmin ymin xmax ymax v := by
  unfold inside bdist
  split <;> simp

theorem inside_false_iff_bdist (v : Vertex α) :
    inside v b xmin ymin xmax ymax = false ↔ bdist b xmin ymin xmax ymax v < 0 := by
  rw [← not_le, ← inside_iff_bdist]; simp

theorem bdist_lerp (u v : Vertex α) (t : α) :
    bdist b xmin ymin xmax ymax (lerp u v t)
      = bdist b xmin ymin xmax ymax u
        + t * (bdist b xmin ymin xmax ymax v - bdist b xmin ymin xmax ymax u) := by
  unfold bdist lerp
  split <;> simp <;> ring

theorem balong_lerp (u v : Vertex α) (t : α) :
    balong b (lerp u v t) = balong b u + t * (balong b v - balong b u) := by
  unfold balong lerp
  split <;> simp <;> ring

theorem cross_eq_local (hb : IsBoundary b) (u v w : Vertex α) :
    cross u v w
      = (bdist b xmin ymin xmax ymax v - bdist b xmin ymin xmax ymax u)
          * (balong b w - balong b u)
        - (balong b v - balong b u)
          * (bdist b xmin ymin xmax ymax w - bdist b xmin ymin xmax ymax u) := by
  rcases hb with rfl | rfl | rfl | rfl <;> simp [cross, bdist, balong] <;> ring

theorem eq_of_local_eq (hb : IsBoundary b) (u v : Vertex α)
    (h1 : bdist b xmin ymin xmax ymax u = bdist b xmin ymin xmax ymax v)
    (h2 : balong b u = balong b v) : u = v := by
  cases u; cases v
  rcases hb with rfl | rfl | rfl | rfl <;> simp_all [bdist, balong]

theorem straddle_bdist_ne (u v : Vertex α)
    (h : inside u b xmin ymin xmax ymax ≠ inside v b xmin ymin xmax ymax) :
    bdist b xmin ymin xmax ymax u - bdist b xmin ymin xmax ymax v ≠ 0 := by
  intro h0
  apply h
  have : bdist b xmin ymin xmax ymax u = bdist b xmin ymin xmax ymax v := by linarith
  cases hv : inside v b xmin ymin xmax ymax
  · rw [inside_false_iff_bdist] at hv ⊢; rw [this]; exact hv
  · rw [inside_iff_bdist] at hv ⊢; rw [this]; exact hv

theorem straddle_isBoundary (u v : Vertex α)
    (h : inside u b xmin ymin xmax ymax ≠ inside v b xmin ymin xmax ymax) : IsBoundary b := by
  by_contra hb
  apply h
  rw [inside_eq_false_of_not_boundary b xmin ymin xmax ymax hb,
    inside_eq_false_of_not_boundary b xmin ymin xmax ymax hb]

/-- The divisor of the interpolation is non-zero whenever the two points are on
opposite sides of the boundary, which is the only way `clipAgainstBoundary`
calls `intersect`. -/
theorem straddle_divisor_ne_zero (u v : Vertex α)
    (h : inside u b xmin ymin xmax ymax ≠ inside v b xmin ymin xmax ymax) :
    ((b = 0 ∨ b = 1) → v.x - u.x ≠ 0) ∧ ((b = 2 ∨ b = 3) → v.y - u.y ≠ 0) := by
  have hne := straddle_bdist_ne b xmin ymin xmax ymax u v h
  constructor
  · rintro (rfl | rfl) h0 <;> apply hne <;> simp only [bdist] <;> linarith
  · rintro (rfl | rfl) h0 <;> apply hne <;> simp only [bdist] <;> linarith

theorem intersect_eq_lerp (u v : Vertex α)
    (h : inside u b xmin ymin xmax ymax ≠ inside v b xmin ymin xmax ymax) :
    intersect u v b xmin ymin xmax ymax
      = lerp u v (bdist b xmin ymin xmax ymax u
          / (bdist b xmin ymin xmax ymax u - bdist b xmin ymin xmax ymax v)) := by
  have hne := straddle_bdist_ne b xmin ymin xmax ymax u v h
  have hb := straddle_isBoundary b xmin ymin xmax ymax u v h
  rcases hb with rfl | rfl | rfl | rfl <;>
    simp only [bdist, intersect, lerp, Vertex.mk.injEq] at hne ⊢
  · have h1 : u.x - v.x ≠ 0 := by intro h0; apply hne; linarith
    have h2 : v.x - u.x ≠ 0 := by intro h0; apply hne; linarith
    have h3 : u.x - xmin - (v.x - xmin) ≠ 0 := hne
    constructor <;> field_simp <;> ring
  · have h1 : u.x - v.x ≠ 0 := by intro h0; apply hne; linarith
    have h2 : v.x - u.x ≠ 0 := by intro h0; apply hne; linarith
    have h3 : xmax - u.x - (xmax - v.x) ≠ 0 := hne
    constructor <;> field_simp <;> ring
  · have h1 : u.y - v.y ≠ 0 := by intro h0; apply hne; linarith
    have h2 : v.y - u.y ≠ 0 := by intro h0; apply hne; linarith
    have h3 : u.y - ymin - (v.y - ymin) ≠ 0 := hne
    constructor <;> field_simp <;> ring
  · have h1 : u.y - v.y ≠ 0 := by intro h0; apply hne; linarith
    have h2 : v.y - u.y ≠ 0 := by intro h0; apply hne; linarith
    have h3 : ymax - u.y - (ymax - v.y) ≠ 0 := hne
    constructor <;> field_simp <;> ring

theorem straddle_param_mem (u v : Vertex α)
    (h : inside u b xmin ymin xmax ymax ≠ inside v b xmin ymin xmax ymax) :
    0 ≤ bdist b xmin ymin xmax ymax u
          / (bdist b xmin ymin xmax ymax u - bdist b xmin ymin xmax ymax v)
    ∧ bdist b xmin ymin xmax ymax u
          / (bdist b xmin ymin xmax ymax u - bdist b xmin ymin xmax ymax v) ≤ 1 := by
  cases hu : inside u b xmin ymin xmax ymax <;> cases hv : inside v b xmin ymin xmax ymax
  · rw [hu, hv] at h; exact absurd rfl h
  · rw [inside_false_iff_bdist] at hu
    rw [inside_iff_bdist] at hv
    have hd : bdist b xmin ymin xmax ymax u - bdist b xmin ymin xmax ymax v < 0 := by linarith
    constructor
    · exact div_nonneg_of_nonpos hu.le hd.le
    · rw [div_le_one_of_neg hd]; linarith
  · rw [inside_iff_bdist] at hu
    rw [inside_false_iff_bdist] at hv
    have hd : 0 < bdist b xmin ymin xmax ymax u - bdist b xmin ymin xmax ymax v := by linarith
    constructor
    · exact div_nonneg hu hd.le
    · rw [div_le_one hd]; linarith
  · rw [hu, hv] at h; exact absurd rfl h

theorem bdist_intersect (u v : Vertex α)
    (h : inside u b xmin ymin xmax ymax ≠ inside v b xmin ymin xmax ymax) :
    bdist b xmin ymin xmax ymax (intersect u v b xmin ymin xmax ymax) = 0 := by
  have hne := straddle_bdist_ne b xmin ymin xmax ymax u v h
  rw [intersect_eq_lerp b xmin ymin xmax ymax u v h, bdist_lerp]
  field_simp
  ring

end Local

/-! ## Where the emitted vertices come from -/

section Membership

variable (b : Int) (xmin ymin xmax ymax : α)

theorem mem_emit {p c v : Vertex α} (h : v ∈ emit p c b xmin ymin xmax ymax) :
    (v = c ∧ inside c b xmin ymin xmax ymax = true)
    ∨ (v = intersect p c b xmin ymin xmax ymax
        ∧ inside p b xmin ymin xmax ymax ≠ inside c b xmin ymin xmax ymax) := by
  unfold emit at h
  cases hp : inside p b xmin ymin xmax ymax <;> cases hc : inside c b xmin ymin xmax ymax <;>
    simp [hp, hc] at h ⊢
  · rcases h with h | h
    · exact Or.inr h
    · exact Or.inl h
  · exact h
  · exact h

theorem mem_emitAll {ps : List (Vertex α × Vertex α)} {v : Vertex α}
    (h : v ∈ emitAll b xmin ymin xmax ymax ps) :
    ∃ e ∈ ps, v ∈ emit e.1 e.2 b xmin ymin xmax ymax := by
  induction ps with
  | nil => simp [emitAll] at h
  | cons e es ih =>
    simp only [emitAll, List.mem_append] at h
    rcases h with h | h
    · exact ⟨e, by simp, h⟩
    · obtain ⟨e', he', hv⟩ := ih h
      exact ⟨e', List.mem_cons_of_mem _ he', hv⟩

theorem emitAll_append (ps qs : List (Vertex α × Vertex α)) :
    emitAll b xmin ymin xmax ymax (ps ++ qs)
      = emitAll b xmin ymin xmax ymax ps ++ emitAll b xmin ymin xmax ymax qs := by
  induction ps with
  | nil => rfl
  | cons e es ih => simp [emitAll, ih]

theorem emit_subset_emitAll {ps : List (Vertex α × Vertex α)} {e : Vertex α × Vertex α}
    (he : e ∈ ps) {v : Vertex α} (hv : v ∈ emit e.1 e.2 b xmin ymin xmax ymax) :
    v ∈ emitAll b xmin ymin xmax ymax ps := by
  induction ps with
  | nil => simp at he
  | cons e' es ih =>
    simp only [emitAll, List.mem_append]
    rcases List.mem_cons.mp he with h | h
    · subst h; exact Or.inl hv
    · exact Or.inr (ih h)

theorem mem_pairsFrom {p : Vertex α} {l : List (Vertex α)} {e : Vertex α × Vertex α}
    (h : e ∈ pairsFrom p l) : (e.1 = p ∨ e.1 ∈ l) ∧ e.2 ∈ l := by
  induction l generalizing p with
  | nil => simp [pairsFrom] at h
  | cons c rest ih =>
    simp only [pairsFrom, List.mem_cons] at h
    rcases h with h | h
    · subst h; simp
    · obtain ⟨h1, h2⟩ := ih h
      refine ⟨Or.inr ?_, List.mem_cons_of_mem _ h2⟩
      rcases h1 with h1 | h1
      · rw [h1]; simp
      · exact List.mem_cons_of_mem _ h1

theorem mem_cyclicPairs {P : List (Vertex α)} {e : Vertex α × Vertex α}
    (h : e ∈ cyclicPairs P) : e.1 ∈ P ∧ e.2 ∈ P := by
  unfold cyclicPairs at h
  cases hl : P.getLast? with
  | none => rw [hl] at h; simp at h
  | some a =>
    rw [hl] at h
    obtain ⟨h1, h2⟩ := mem_pairsFrom h
    refine ⟨?_, h2⟩
    rcases h1 with h1 | h1
    · rw [h1]; exact getLast?_mem hl
    · exact h1

theorem mem_clipAgainstBoundary {P : List (Vertex α)} {v : Vertex α}
    (h : v ∈ clipAgainstBoundary P b xmin ymin xmax ymax) :
    (v ∈ P ∧ inside v b xmin ymin xmax ymax = true)
    ∨ ∃ e ∈ cyclicPairs P,
        inside e.1 b xmin ymin xmax ymax ≠ inside e.2 b xmin ymin xmax ymax
        ∧ v = intersect e.1 e.2 b xmin ymin xmax ymax := by
  rw [clipAgainstBoundary_eq_clipSpec] at h
  obtain ⟨e, he, hv⟩ := mem_emitAll b xmin ymin xmax ymax h
  rcases mem_emit b xmin ymin xmax ymax hv with ⟨h1, h2⟩ | ⟨h1, h2⟩
  · subst h1; exact Or.inl ⟨(mem_cyclicPairs he).2, h2⟩
  · exact Or.inr ⟨e, he, h2, h1⟩

/-- A property of points that is kept along segments is kept by a clipping pass. -/
theorem clipAgainstBoundary_preserves (Q : Vertex α → Prop)
    (hQ : ∀ u v t, Q u → Q v → 0 ≤ t → t ≤ 1 → Q (lerp u v t))
    (P : List (Vertex α)) (hP : ∀ v ∈ P, Q v) :
    ∀ v ∈ clipAgainstBoundary P b xmin ymin xmax ymax, Q v := by
  intro v hv
  rcases mem_clipAgainstBoundary b xmin ymin xmax ymax hv with ⟨h1, _⟩ | ⟨e, he, hne, rfl⟩
  · exact hP v h1
  · obtain ⟨t0, t1⟩ := straddle_param_mem b xmin ymin xmax ymax e.1 e.2 hne
    rw [intersect_eq_lerp b xmin ymin xmax ymax e.1 e.2 hne]
    exact hQ _ _ _ (hP _ (mem_cyclicPairs he).1) (hP _ (mem_cyclicPairs he).2) t0 t1

theorem inside_of_mem_clipAgainstBoundary {P : List (Vertex α)} {v : Vertex α}
    (h : v ∈ clipAgainstBoundary P b xmin ymin xmax ymax) :
    inside v b xmin ymin xmax ymax = true := by
  rcases mem_clipAgainstBoundary b xmin ymin xmax ymax h with ⟨_, h2⟩ | ⟨e, _, hne, rfl⟩
  · exact h2
  · rw [inside_iff_bdist, bdist_intersect b xmin ymin xmax ymax e.1 e.2 hne]

theorem inside_lerp (c : Int) (u v : Vertex α) (t : α)
    (hu : inside u c xmin ymin xmax ymax = true) (hv : inside v c xmin ymin xmax ymax = true)
    (t0 : 0 ≤ t) (t1 : t ≤ 1) : inside (lerp u v t) c xmin ymin xmax ymax = true := by
  rw [inside_iff_bdist] at hu hv ⊢
  rw [bdist_lerp]
  nlinarith [mul_nonneg t0 hv, mul_nonneg (sub_nonneg.mpr t1) hu]

theorem clipSeq_cons (c : Int) (bs : List Int) (P : List (Vertex α)) :
    clipSeq (c :: bs) P xmin ymin xmax ymax
      = clipSeq bs (clipAgainstBoundary P c xmin ymin xmax ymax) xmin ymin xmax ymax := rfl

theorem clipSeq_preserves (Q : Vertex α → Prop)
    (hQ : ∀ u v t, Q u → Q v → 0 ≤ t → t ≤ 1 → Q (lerp u v t))
    (bs : List Int) (P : List (Vertex α)) (hP : ∀ v ∈ P, Q v) :
    ∀ v ∈ clipSeq bs P xmin ymin xmax ymax, Q v := by
  induction bs generalizing P with
  | nil => exact hP
  | cons c bs ih =>
    rw [clipSeq_cons]
    exact ih _ (clipAgainstBoundary_preserves c xmin ymin xmax ymax Q hQ P hP)

theorem inside_of_mem_clipSeq (bs : List Int) (P : List (Vertex α)) (c : Int) (hc : c ∈ bs) :
    ∀ v ∈ clipSeq bs P xmin ymin xmax ymax, inside v c xmin ymin xmax ymax = true := by
  induction bs generalizing P with
  | nil => simp at hc
  | cons d bs ih =>
    rw [clipSeq_cons]
    rcases List.mem_cons.mp hc with h | h
    · subst h
      exact clipSeq_preserves xmin ymin xmax ymax
        (fun v => inside v c xmin ymin xmax ymax = true)
        (fun u v t hu hv t0 t1 => inside_lerp xmin ymin xmax ymax c u v t hu hv t0 t1) bs _
        (fun v hv => inside_of_mem_clipAgainstBoundary c xmin ymin xmax ymax hv)
    · exact ih _ h

theorem insideAll_of_mem_fourPassClip (P : List (Vertex α)) :
    ∀ v ∈ fourPassClip P xmin ymin xmax ymax, insideAll v xmin ymin xmax ymax := by
  intro v hv
  exact ⟨inside_of_mem_clipSeq xmin ymin xmax ymax _ P 0 (by simp) v hv,
    inside_of_mem_clipSeq xmin ymin xmax ymax _ P 1 (by simp) v hv,
    inside_of_mem_clipSeq xmin ymin xmax ymax _ P 2 (by simp) v hv,
    inside_of_mem_clipSeq xmin ymin xmax ymax _ P 3 (by simp) v hv⟩

theorem insideAll_iff (v : Vertex α) :
    insideAll v xmin ymin xmax ymax ↔ xmin ≤ v.x ∧ v.x ≤ xmax ∧ ymin ≤ v.y ∧ v.y ≤ ymax := by
  simp [insideAll, inside]

end Membership

/-! ## Convex hulls -/

section Hull

theorem lerp_zero (u v : Vertex α) : lerp u v 0 = u := by
  cases u; simp [lerp]

theorem lerp_one (u v : Vertex α) : lerp u v 1 = v := by
  cases v; simp [lerp]

theorem lerp_symm (u v : Vertex α) (t : α) : lerp u v t = lerp v u (1 - t) := by
  simp only [lerp, Vertex.mk.injEq]
  constructor <;> ring

theorem lerp_lerp_left (u v : Vertex α) (s t : α) :
    lerp u (lerp u v s) t = lerp u v (t * s) := by
  simp only [lerp, Vertex.mk.injEq]
  constructor <;> ring

theorem subset_hull (P : List (Vertex α)) : ∀ v ∈ P, v ∈ hull P :=
  fun v hv _ _ hS => hS v hv

theorem segClosed_hull (P : List (Vertex α)) : SegClosed (hull P) :=
  fun u v t hu hv t0 t1 S hS hP => hS u v t (hu S hS hP) (hv S hS hP) t0 t1

theorem hull_min (P : List (Vertex α)) (S : Set (Vertex α)) (hS : SegClosed S)
    (hP : ∀ v ∈ P, v ∈ S) : hull P ⊆ S :=
  fun _ hq => hq S hS hP

theorem hull_mono {P Q : List (Vertex α)} (h : ∀ v ∈ P, v ∈ hull Q) : hull P ⊆ hull Q :=
  hull_min P _ (segClosed_hull Q) h

theorem hull_nil : hull ([] : List (Vertex α)) = ∅ := by
  apply Set.eq_empty_of_subset_empty
  exact hull_min _ ∅ (fun u v t hu _ _ _ => hu.elim) (by simp)

theorem toPoint_lerp (u v : Vertex α) (t : α) :
    toPoint (lerp u v t) = (1 - t) • toPoint u + t • toPoint v := by
  simp only [toPoint, lerp, Prod.smul_mk, Prod.mk_add_mk, smul_eq_mul, Prod.mk.injEq]
  constructor <;> ring

/-- The hull of the model is the convex hull of Mathlib. -/
theorem mem_hull_iff_convexHull (P : List (Vertex α)) (q : Vertex α) :
    q ∈ hull P ↔ toPoint q ∈ convexHull α (pointSet P) := by
  constructor
  · intro hq
    apply hq {v | toPoint v ∈ convexHull α (pointSet P)}
    · intro u v t hu hv t0 t1
      show toPoint (lerp u v t) ∈ convexHull α (pointSet P)
      rw [toPoint_lerp]
      exact convex_convexHull α _ hu hv (by linarith) t0 (by ring)
    · intro v hv
      exact subset_convexHull α _ ⟨v, hv, rfl⟩
  · intro hq
    have key : convexHull α (pointSet P) ⊆ {p | (⟨p.1, p.2⟩ : Vertex α) ∈ hull P} := by
      apply convexHull_min
      · rintro p ⟨v, hv, rfl⟩
        exact subset_hull P v hv
      · intro x hx y hy a c ha hc hac
        have e : (⟨(a • x + c • y).1, (a • x + c • y).2⟩ : Vertex α)
            = lerp ⟨x.1, x.2⟩ ⟨y.1, y.2⟩ c := by
          have ha' : a = 1 - c := by linarith
          subst ha'
          simp only [lerp, Prod.fst_add, Prod.snd_add, Prod.smul_fst, Prod.smul_snd,
            smul_eq_mul, Vertex.mk.injEq]
          constructor <;> ring
        show (⟨(a • x + c • y).1, (a • x + c • y).2⟩ : Vertex α) ∈ hull P
        rw [e]
        exact segClosed_hull P _ _ _ hx hy hc (by linarith)
    exact key hq

theorem cross_lerp (u v w1 w2 : Vertex α) (t : α) :
    cross u v (lerp w1 w2 t) = (1 - t) * cross u v w1 + t * cross u v w2 := by
  simp only [cross, lerp]; ring

theorem segClosed_side (ε : α) (u v : Vertex α) :
    SegClosed {w : Vertex α | 0 ≤ ε * cross u v w} := by
  intro w1 w2 t h1 h2 t0 t1
  simp only [Set.mem_setOf_eq] at h1 h2 ⊢
  rw [cross_lerp]
  nlinarith [mul_nonneg t0 h2, mul_nonneg (sub_nonneg.mpr t1) h1]

theorem segClosed_inside (b : Int) (xmin ymin xmax ymax : α) :
    SegClosed {w : Vertex α | inside w b xmin ymin xmax ymax = true} :=
  fun u v t hu hv t0 t1 => inside_lerp xmin ymin xmax ymax b u v t hu hv t0 t1

theorem segClosed_outside (b : Int) (xmin ymin xmax ymax : α) :
    SegClosed {w : Vertex α | inside w b xmin ymin xmax ymax = false} := by
  intro u v t hu hv t0 t1
  simp only [Set.mem_setOf_eq, inside_false_iff_bdist] at hu hv ⊢
  rw [bdist_lerp]
  rcases eq_or_lt_of_le t0 with h | h
  · subst h; simpa using hu
  · nlinarith [mul_pos h (neg_pos.mpr hv), mul_nonneg (sub_nonneg.mpr t1) (neg_pos.mpr hu).le]

theorem segClosed_inter {S T : Set (Vertex α)} (hS : SegClosed S) (hT : SegClosed T) :
    SegClosed (S ∩ T) :=
  fun u v t hu hv t0 t1 => ⟨hS u v t hu.1 hv.1 t0 t1, hT u v t hu.2 hv.2 t0 t1⟩

end Hull

/-! ## The output stays inside the subject and the window -/

section Enclosure

variable (xmin ymin xmax ymax : α)

theorem clipSeq_subset_hull (bs : List Int) (P : List (Vertex α)) :
    ∀ v ∈ clipSeq bs P xmin ymin xmax ymax, v ∈ hull P :=
  clipSeq_preserves xmin ymin xmax ymax (fun v => v ∈ hull P) (segClosed_hull P) bs P
    (subset_hull P)

theorem clipAgainstBoundary_subset_hull (b : Int) (P : List (Vertex α)) :
    ∀ v ∈ clipAgainstBoundary P b xmin ymin xmax ymax, v ∈ hull P :=
  clipAgainstBoundary_preserves b xmin ymin xmax ymax (fun v => v ∈ hull P)
    (segClosed_hull P) P (subset_hull P)

theorem fourPassClip_eq_nil_of_forall_not (P : List (Vertex α))
    (h : ∀ q ∈ hull P, ¬ insideAll q xmin ymin xmax ymax) :
    fourPassClip P xmin ymin xmax ymax = [] := by
  rw [List.eq_nil_iff_forall_not_mem]
  intro v hv
  exact h v (clipSeq_subset_hull xmin ymin xmax ymax _ P v hv)
    (insideAll_of_mem_fourPassClip xmin ymin xmax ymax P v hv)

end Enclosure

/-! ## Walking around the polygon -/

section Walk

theorem lastFrom_append (p : Vertex α) (l1 l2 : List (Vertex α)) :
    lastFrom p (l1 ++ l2) = lastFrom (lastFrom p l1) l2 := by
  induction l1 generalizing p with
  | nil => rfl
  | cons c rest ih => simp [lastFrom, ih]

theorem getLast?_eq_lastFrom (c : Vertex α) (rest : List (Vertex α)) :
    (c :: rest).getLast? = some (lastFrom c rest) := by
  induction rest generalizing c with
  | nil => rfl
  | cons d rest ih =>
    rw [List.getLast?_cons_cons, ih]
    rfl

theorem lastFrom_of_getLast? {l : List (Vertex α)} {a : Vertex α} (h : l.getLast? = some a)
    (p : Vertex α) : lastFrom p l = a := by
  cases l with
  | nil => simp at h
  | cons c rest =>
    rw [getLast?_eq_lastFrom] at h
    simpa [lastFrom] using h

theorem pairsFrom_append (p : Vertex α) (l1 l2 : List (Vertex α)) :
    pairsFrom p (l1 ++ l2) = pairsFrom p l1 ++ pairsFrom (lastFrom p l1) l2 := by
  induction l1 generalizing p with
  | nil => rfl
  | cons c rest ih => simp [pairsFrom, lastFrom, ih]

theorem cyclicPairs_eq_pairsFrom {P : List (Vertex α)} {a : Vertex α}
    (h : P.getLast? = some a) : cyclicPairs P = pairsFrom a P := by
  simp [cyclicPairs, h]

theorem cyclicPairs_eq_nil {P : List (Vertex α)} (h : P.getLast? = none) :
    cyclicPairs P = [] := by
  simp [cyclicPairs, h]

/-- Walking from a vertex on one side of a test to one on the other side meets a
pair of consecutive vertices that changes side. -/
theorem exists_crossing_pairsFrom (g : Vertex α → Bool) (β : Bool) (l : List (Vertex α))
    (p : Vertex α) (hp : g p = β) (hl : ∃ v ∈ l, g v = !β) :
    ∃ e ∈ pairsFrom p l, g e.1 = β ∧ g e.2 = !β := by
  induction l generalizing p with
  | nil => simp at hl
  | cons c rest ih =>
    by_cases hc : g c = β
    · obtain ⟨v, hv, hgv⟩ := hl
      have hv' : v ∈ rest := by
        rcases List.mem_cons.mp hv with h | h
        · subst h; rw [hc] at hgv; cases β <;> simp at hgv
        · exact h
      obtain ⟨e, he, h1, h2⟩ := ih c hc ⟨v, hv', hgv⟩
      exact ⟨e, by simp [pairsFrom, he], h1, h2⟩
    · refine ⟨(p, c), by simp [pairsFrom], hp, ?_⟩
      cases β <;> cases hgc : g c <;> simp_all

theorem exists_crossing_cyclicPairs (g : Vertex α → Bool) (β : Bool) (P : List (Vertex α))
    (h1 : ∃ u ∈ P, g u = β) (h2 : ∃ v ∈ P, g v = !β) :
    ∃ e ∈ cyclicPairs P, g e.1 = β ∧ g e.2 = !β := by
  cases hl : P.getLast? with
  | none =>
    obtain ⟨u, hu, _⟩ := h1
    simp at hl; subst hl; simp at hu
  | some a =>
    rw [cyclicPairs_eq_pairsFrom hl]
    by_cases ha : g a = β
    · exact exists_crossing_pairsFrom g β P a ha h2
    · obtain ⟨u, hu, hgu⟩ := h1
      obtain ⟨l1, l2, rfl⟩ := List.append_of_mem hu
      have hne : l2 ≠ [] := by
        intro h0
        subst h0
        simp at hl
        subst hl
        exact ha hgu
      have hl2 : l2.getLast? = some a := by
        rw [List.getLast?_append_of_ne_nil _ (List.cons_ne_nil u l2)] at hl
        cases l2 with
        | nil => exact absurd rfl hne
        | cons d l3 => rwa [List.getLast?_cons_cons] at hl
      have hga : g a = !β := by
        cases β <;> cases hga : g a <;> simp_all
      obtain ⟨e, he, h3, h4⟩ :=
        exists_crossing_pairsFrom g β l2 u hgu ⟨a, getLast?_mem hl2, hga⟩
      refine ⟨e, ?_, h3, h4⟩
      rw [pairsFrom_append]
      simp only [pairsFrom, List.mem_append, List.mem_cons]
      exact Or.inr (Or.inr he)

end Walk

/-! ## One pass on a convex polygon: the hull is cut by the half-plane -/

section OnePass

variable (b : Int) (xmin ymin xmax ymax : α)

theorem cross_of_on_line (hb : IsBoundary b) (u v x : Vertex α)
    (h : inside u b xmin ymin xmax ymax ≠ inside v b xmin ymin xmax ymax)
    (hx : bdist b xmin ymin xmax ymax x = 0) :
    cross u v x
      = (bdist b xmin ymin xmax ymax v - bdist b xmin ymin xmax ymax u)
        * (balong b x - balong b (intersect u v b xmin ymin xmax ymax)) := by
  have hne := straddle_bdist_ne b xmin ymin xmax ymax u v h
  rw [intersect_eq_lerp b xmin ymin xmax ymax u v h, balong_lerp,
    cross_eq_local b xmin ymin xmax ymax hb, hx]
  field_simp
  ring

theorem between_on_line (hb : IsBoundary b) (a c x : Vertex α)
    (ha : bdist b xmin ymin xmax ymax a = 0) (hc : bdist b xmin ymin xmax ymax c = 0)
    (hx : bdist b xmin ymin xmax ymax x = 0)
    (h1 : balong b c ≤ balong b x) (h2 : balong b x ≤ balong b a) :
    ∃ τ : α, 0 ≤ τ ∧ τ ≤ 1 ∧ x = lerp a c τ := by
  by_cases h : balong b a = balong b c
  · refine ⟨0, le_refl _, zero_le_one, ?_⟩
    rw [lerp_zero]
    exact eq_of_local_eq b xmin ymin xmax ymax hb x a (by rw [hx, ha]) (by linarith)
  · have hd : 0 < balong b a - balong b c := by
      rcases lt_or_eq_of_le (le_trans h1 h2) with h3 | h3
      · linarith
      · exact absurd h3.symm h
    refine ⟨(balong b a - balong b x) / (balong b a - balong b c),
      div_nonneg (by linarith) hd.le, by rw [div_le_one hd]; linarith, ?_⟩
    apply eq_of_local_eq b xmin ymin xmax ymax hb
    · rw [bdist_lerp, hx, ha, hc]; ring
    · rw [balong_lerp]
      field_simp
      ring

theorem intersect_mem_clip {P : List (Vertex α)} {e : Vertex α × Vertex α}
    (he : e ∈ cyclicPairs P)
    (h : inside e.1 b xmin ymin xmax ymax ≠ inside e.2 b xmin ymin xmax ymax) :
    intersect e.1 e.2 b xmin ymin xmax ymax ∈ clipAgainstBoundary P b xmin ymin xmax ymax := by
  rw [clipAgainstBoundary_eq_clipSpec]
  apply emit_subset_emitAll b xmin ymin xmax ymax he
  unfold emit
  cases h1 : inside e.1 b xmin ymin xmax ymax <;> cases h2 : inside e.2 b xmin ymin xmax ymax <;>
    simp_all

theorem inside_mem_clip {P : List (Vertex α)} {v : Vertex α} (hv : v ∈ P)
    (h : inside v b xmin ymin xmax ymax = true) :
    v ∈ clipAgainstBoundary P b xmin ymin xmax ymax := by
  rw [clipAgainstBoundary_eq_clipSpec]
  have key : ∀ (l : List (Vertex α)) (p : Vertex α), v ∈ l →
      v ∈ emitAll b xmin ymin xmax ymax (pairsFrom p l) := by
    intro l
    induction l with
    | nil => intro p hv; simp at hv
    | cons c rest ih =>
      intro p hv
      simp only [pairsFrom, emitAll, List.mem_append]
      rcases List.mem_cons.mp hv with h0 | h0
      · subst h0
        left
        unfold emit
        cases inside p b xmin ymin xmax ymax <;> simp [h]
      · exact Or.inr (ih c h0)
  unfold clipSpec
  cases hl : P.getLast? with
  | none => simp at hl; subst hl; simp at hv
  | some a => rw [cyclicPairs_eq_pairsFrom hl]; exact key P a hv

/-- The sides of the edges extend from the vertices to the whole hull. -/
theorem ConvexWith.on_hull {ε : α} {P : List (Vertex α)} (h : ConvexWith ε P) :
    ∀ e ∈ cyclicPairs P, ∀ w ∈ hull P, 0 ≤ ε * cross e.1 e.2 w :=
  fun e he _ hw => hull_min P _ (segClosed_side ε e.1 e.2) (h e he) hw

/-- A point of the hull on the boundary line lies between an exit point and an
entry point of the polygon, both of which the pass emits. -/
theorem on_line_mem_hull_clip (hb : IsBoundary b) (ε : α) (hε : ε = 1 ∨ ε = -1)
    (P : List (Vertex α)) (hconv : ConvexWith ε P)
    (e e' : Vertex α × Vertex α) (he : e ∈ cyclicPairs P) (he' : e' ∈ cyclicPairs P)
    (h1 : inside e.1 b xmin ymin xmax ymax = true)
    (h2 : inside e.2 b xmin ymin xmax ymax = false)
    (h1' : inside e'.1 b xmin ymin xmax ymax = false)
    (h2' : inside e'.2 b xmin ymin xmax ymax = true)
    (x : Vertex α) (hx : x ∈ hull P) (hx0 : bdist b xmin ymin xmax ymax x = 0) :
    x ∈ hull (clipAgainstBoundary P b xmin ymin xmax ymax) := by
  have hne : inside e.1 b xmin ymin xmax ymax ≠ inside e.2 b xmin ymin xmax ymax := by
    rw [h1, h2]; simp
  have hne' : inside e'.1 b xmin ymin xmax ymax ≠ inside e'.2 b xmin ymin xmax ymax := by
    rw [h1', h2']; simp
  have ha := subset_hull _ _ (intersect_mem_clip b xmin ymin xmax ymax he hne)
  have hc := subset_hull _ _ (intersect_mem_clip b xmin ymin xmax ymax he' hne')
  have fa := bdist_intersect b xmin ymin xmax ymax e.1 e.2 hne
  have fc := bdist_intersect b xmin ymin xmax ymax e'.1 e'.2 hne'
  have k1 := hconv.on_hull e he x hx
  have k2 := hconv.on_hull e' he' x hx
  rw [cross_of_on_line b xmin ymin xmax ymax hb _ _ x hne hx0] at k1
  rw [cross_of_on_line b xmin ymin xmax ymax hb _ _ x hne' hx0] at k2
  rw [inside_iff_bdist] at h1 h2'
  rw [inside_false_iff_bdist] at h2 h1'
  have d1 : bdist b xmin ymin xmax ymax e.2 - bdist b xmin ymin xmax ymax e.1 < 0 := by linarith
  have d2 : 0 < bdist b xmin ymin xmax ymax e'.2 - bdist b xmin ymin xmax ymax e'.1 := by
    linarith
  rcases hε with rfl | rfl
  · rw [one_mul] at k1 k2
    have s1 : balong b x ≤ balong b (intersect e.1 e.2 b xmin ymin xmax ymax) := by
      by_contra hcon
      push_neg at hcon
      nlinarith [mul_pos (neg_pos.mpr d1) (sub_pos.mpr hcon)]
    have s2 : balong b (intersect e'.1 e'.2 b xmin ymin xmax ymax) ≤ balong b x := by
      by_contra hcon
      push_neg at hcon
      nlinarith [mul_pos d2 (sub_pos.mpr hcon)]
    obtain ⟨τ, t0, t1, rfl⟩ := between_on_line b xmin ymin xmax ymax hb _ _ x fa fc hx0 s2 s1
    exact segClosed_hull _ _ _ _ ha hc t0 t1
  · have s1 : balong b (intersect e.1 e.2 b xmin ymin xmax ymax) ≤ balong b x := by
      by_contra hcon
      push_neg at hcon
      nlinarith [mul_pos (neg_pos.mpr d1) (sub_pos.mpr hcon)]
    have s2 : balong b x ≤ balong b (intersect e'.1 e'.2 b xmin ymin xmax ymax) := by
      by_contra hcon
      push_neg at hcon
      nlinarith [mul_pos d2 (sub_pos.mpr hcon)]
    obtain ⟨τ, t0, t1, rfl⟩ := between_on_line b xmin ymin xmax ymax hb _ _ x fc fa hx0 s1 s2
    exact segClosed_hull _ _ _ _ hc ha t0 t1

theorem seg_case (out : List (Vertex α)) (u v : Vertex α) (hu : u ∈ hull out)
    (hfu : 0 ≤ bdist b xmin ymin xmax ymax u) (hfv : bdist b xmin ymin xmax ymax v < 0)
    (hc : lerp u v (bdist b xmin ymin xmax ymax u
        / (bdist b xmin ymin xmax ymax u - bdist b xmin ymin xmax ymax v)) ∈ hull out)
    (t : α) (t0 : 0 ≤ t) (hz : 0 ≤ bdist b xmin ymin xmax ymax (lerp u v t)) :
    lerp u v t ∈ hull out := by
  rw [bdist_lerp] at hz
  have hd : 0 < bdist b xmin ymin xmax ymax u - bdist b xmin ymin xmax ymax v := by linarith
  rcases eq_or_lt_of_le hfu with h0 | h0
  · have ht : t = 0 := by
      rcases eq_or_lt_of_le t0 with h | h
      · exact h.symm
      · nlinarith [mul_pos h hd]
    rw [ht, lerp_zero]; exact hu
  · have hpos : 0 < bdist b xmin ymin xmax ymax u
        / (bdist b xmin ymin xmax ymax u - bdist b xmin ymin xmax ymax v) := div_pos h0 hd
    have hle : t ≤ bdist b xmin ymin xmax ymax u
        / (bdist b xmin ymin xmax ymax u - bdist b xmin ymin xmax ymax v) := by
      rw [le_div_iff₀ hd]; linarith
    have e : lerp u v t = lerp u (lerp u v (bdist b xmin ymin xmax ymax u
        / (bdist b xmin ymin xmax ymax u - bdist b xmin ymin xmax ymax v)))
        (t / (bdist b xmin ymin xmax ymax u
        / (bdist b xmin ymin xmax ymax u - bdist b xmin ymin xmax ymax v))) := by
      rw [lerp_lerp_left, div_mul_cancel₀ _ hpos.ne']
    rw [e]
    exact segClosed_hull _ _ _ _ hu hc (div_nonneg t0 hpos.le) (by rw [div_le_one hpos]; exact hle)

/-- The part of the hull inside the boundary is generated by the inside
vertices and the points of the hull on the boundary line. -/
theorem hull_inside_subset (P out : List (Vertex α))
    (hin : ∀ v ∈ P, inside v b xmin ymin xmax ymax = true → v ∈ hull out)
    (hL : ∀ x ∈ hull P, bdist b xmin ymin xmax ymax x = 0 → x ∈ hull out) :
    ∀ x ∈ hull P, inside x b xmin ymin xmax ymax = true → x ∈ hull out := by
  have key : hull P ⊆ {x | x ∈ hull P ∧ (inside x b xmin ymin xmax ymax = true → x ∈ hull out)} := by
    apply hull_min
    · intro u v t ⟨hu, hu'⟩ ⟨hv, hv'⟩ t0 t1
      have hz : lerp u v t ∈ hull P := segClosed_hull P u v t hu hv t0 t1
      refine ⟨hz, fun hzin => ?_⟩
      rw [inside_iff_bdist] at hzin
      cases hiu : inside u b xmin ymin xmax ymax <;> cases hiv : inside v b xmin ymin xmax ymax
      · exfalso
        have := segClosed_outside b xmin ymin xmax ymax u v t hiu hiv t0 t1
        simp only [Set.mem_setOf_eq, inside_false_iff_bdist] at this
        linarith
      · -- `u` outside, `v` inside: swap the roles of the end points
        have hne : inside v b xmin ymin xmax ymax ≠ inside u b xmin ymin xmax ymax := by
          rw [hiu, hiv]; simp
        obtain ⟨c0, c1⟩ := straddle_param_mem b xmin ymin xmax ymax v u hne
        have hc : lerp v u (bdist b xmin ymin xmax ymax v
            / (bdist b xmin ymin xmax ymax v - bdist b xmin ymin xmax ymax u)) ∈ hull out := by
          apply hL
          · exact segClosed_hull P _ _ _ hv hu c0 c1
          · rw [← intersect_eq_lerp b xmin ymin xmax ymax v u hne]
            exact bdist_intersect b xmin ymin xmax ymax v u hne
        rw [lerp_symm] at hzin ⊢
        exact seg_case b xmin ymin xmax ymax out v u (hv' hiv)
          ((inside_iff_bdist b xmin ymin xmax ymax v).mp hiv)
          ((inside_false_iff_bdist b xmin ymin xmax ymax u).mp hiu) hc (1 - t) (by linarith) hzin
      · have hne : inside u b xmin ymin xmax ymax ≠ inside v b xmin ymin xmax ymax := by
          rw [hiu, hiv]; simp
        obtain ⟨c0, c1⟩ := straddle_param_mem b xmin ymin xmax ymax u v hne
        have hc : lerp u v (bdist b xmin ymin xmax ymax u
            / (bdist b xmin ymin xmax ymax u - bdist b xmin ymin xmax ymax v)) ∈ hull out := by
          apply hL
          · exact segClosed_hull P _ _ _ hu hv c0 c1
          · rw [← intersect_eq_lerp b xmin ymin xmax ymax u v hne]
            exact bdist_intersect b xmin ymin xmax ymax u v hne
        exact seg_case b xmin ymin xmax ymax out u v (hu' hiu)
          ((inside_iff_bdist b xmin ymin xmax ymax u).mp hiu)
          ((inside_false_iff_bdist b xmin ymin xmax ymax v).mp hiv) hc t t0 hzin
      · exact segClosed_hull out u v t (hu' hiu) (hv' hiv) t0 t1
    · intro v hv
      exact ⟨subset_hull P v hv, hin v hv⟩
  intro x hx hxin
  exact (key hx).2 hxin

/-- One pass on a convex polygon cuts the hull by the half-plane of the
boundary. -/
theorem hull_clipAgainstBoundary (hb : IsBoundary b) (ε : α) (hε : ε = 1 ∨ ε = -1)
    (P : List (Vertex α)) (hconv : ConvexWith ε P) (x : Vertex α) :
    x ∈ hull (clipAgainstBoundary P b xmin ymin xmax ymax)
      ↔ x ∈ hull P ∧ inside x b xmin ymin xmax ymax = true := by
  constructor
  · intro hx
    have h1 : hull (clipAgainstBoundary P b xmin ymin xmax ymax)
        ⊆ hull P ∩ {w | inside w b xmin ymin xmax ymax = true} := by
      apply hull_min _ _ (segClosed_inter (segClosed_hull P) (segClosed_inside b xmin ymin xmax ymax))
      intro v hv
      exact ⟨clipAgainstBoundary_subset_hull xmin ymin xmax ymax b P v hv,
        inside_of_mem_clipAgainstBoundary b xmin ymin xmax ymax hv⟩
    exact h1 hx
  · rintro ⟨hx, hxin⟩
    by_cases hall : ∀ v ∈ P, inside v b xmin ymin xmax ymax = true
    · rw [clipAgainstBoundary_of_all_inside b xmin ymin xmax ymax P hall]; exact hx
    · by_cases hnone : ∀ v ∈ P, inside v b xmin ymin xmax ymax = false
      · exfalso
        have := hull_min P _ (segClosed_outside b xmin ymin xmax ymax) hnone hx
        simp only [Set.mem_setOf_eq] at this
        rw [hxin] at this
        exact absurd this (by simp)
      · push_neg at hall hnone
        obtain ⟨vo, hvo, hvo'⟩ := hall
        obtain ⟨vi, hvi, hvi'⟩ := hnone
        simp only [Bool.not_eq_true] at hvo'
        simp only [Bool.not_eq_false] at hvi'
        obtain ⟨e, he, e1, e2⟩ := exists_crossing_cyclicPairs
          (fun v => inside v b xmin ymin xmax ymax) true P ⟨vi, hvi, hvi'⟩ ⟨vo, hvo, by simpa using hvo'⟩
        obtain ⟨e', he', e1', e2'⟩ := exists_crossing_cyclicPairs
          (fun v => inside v b xmin ymin xmax ymax) false P ⟨vo, hvo, hvo'⟩ ⟨vi, hvi, by simpa using hvi'⟩
        simp only [Bool.not_true, Bool.not_false] at e2 e2'
        apply hull_inside_subset b xmin ymin xmax ymax P _ _ _ x hx hxin
        · intro v hv hvin
          exact subset_hull _ _ (inside_mem_clip b xmin ymin xmax ymax hv hvin)
        · intro y hy hy0
          exact on_line_mem_hull_clip b xmin ymin xmax ymax hb ε hε P hconv e e' he he'
            e1 e2 e1' e2' y hy hy0

end OnePass

/-! ## One pass on a convex polygon: the output is convex, in the same order -/

section Convexity

variable (b : Int) (xmin ymin xmax ymax : α)

theorem cross_lerp_lerp (u v w : Vertex α) (t1 t2 : α) :
    cross (lerp u v t1) (lerp u v t2) w = (t2 - t1) * cross u v w := by
  simp only [cross, lerp]; ring

theorem goodEdge_sub {ε : α} {P : List (Vertex α)} (hconv : ConvexWith ε P)
    {e : Vertex α × Vertex α} (he : e ∈ cyclicPairs P) (t1 t2 : α) (h : t1 ≤ t2) :
    GoodEdge ε P b xmin ymin xmax ymax (lerp e.1 e.2 t1) (lerp e.1 e.2 t2) := by
  intro w hw _
  rw [cross_lerp_lerp]
  have k := hconv.on_hull e he w hw
  have : ε * ((t2 - t1) * cross e.1 e.2 w) = (t2 - t1) * (ε * cross e.1 e.2 w) := by ring
  rw [this]
  exact mul_nonneg (sub_nonneg.mpr h) k

theorem goodEdge_exit (hb : IsBoundary b) {ε : α} (hε : ε = 1 ∨ ε = -1)
    {P : List (Vertex α)} (hconv : ConvexWith ε P) {a : Vertex α}
    (ha : IsExitPoint P b xmin ymin xmax ymax a) {c : Vertex α} (hc : c ∈ hull P)
    (hc0 : bdist b xmin ymin xmax ymax c = 0) :
    GoodEdge ε P b xmin ymin xmax ymax a c := by
  obtain ⟨e, he, h1, h2, rfl⟩ := ha
  have hne : inside e.1 b xmin ymin xmax ymax ≠ inside e.2 b xmin ymin xmax ymax := by
    rw [h1, h2]; simp
  intro w _ hwin
  have fa := bdist_intersect b xmin ymin xmax ymax e.1 e.2 hne
  have k := hconv.on_hull e he c hc
  rw [cross_of_on_line b xmin ymin xmax ymax hb _ _ c hne hc0] at k
  rw [cross_eq_local b xmin ymin xmax ymax hb, fa, hc0]
  rw [inside_iff_bdist] at h1 hwin
  rw [inside_false_iff_bdist] at h2
  have d1 : 0 < bdist b xmin ymin xmax ymax e.1 - bdist b xmin ymin xmax ymax e.2 := by linarith
  rcases hε with rfl | rfl
  · have s1 : balong b c ≤ balong b (intersect e.1 e.2 b xmin ymin xmax ymax) := by
      by_contra hcon
      push_neg at hcon
      nlinarith [mul_pos d1 (sub_pos.mpr hcon)]
    nlinarith [mul_nonneg (sub_nonneg.mpr s1) hwin]
  · have s1 : balong b (intersect e.1 e.2 b xmin ymin xmax ymax) ≤ balong b c := by
      by_contra hcon
      push_neg at hcon
      nlinarith [mul_pos d1 (sub_pos.mpr hcon)]
    nlinarith [mul_nonneg (sub_nonneg.mpr s1) hwin]

theorem chain_step (hb : IsBoundary b) {ε : α} (hε : ε = 1 ∨ ε = -1)
    {P : List (Vertex α)} (hconv : ConvexWith ε P) {p c z : Vertex α}
    (hpc : (p, c) ∈ cyclicPairs P) (hpen : Pen P b xmin ymin xmax ymax z p) :
    ∀ e' ∈ pairsFrom z (emit p c b xmin ymin xmax ymax),
      GoodEdge ε P b xmin ymin xmax ymax e'.1 e'.2 := by
  have full := goodEdge_sub b xmin ymin xmax ymax hconv hpc 0 1 zero_le_one
  simp only [lerp_zero, lerp_one] at full
  intro e' he'
  unfold emit at he'
  cases hp : inside p b xmin ymin xmax ymax <;> cases hc : inside c b xmin ymin xmax ymax <;>
    simp only [hp, hc, pairsFrom, List.mem_cons, List.not_mem_nil, or_false] at he'
  · -- entering: the pen is at an exit point
    have hne : inside p b xmin ymin xmax ymax ≠ inside c b xmin ymin xmax ymax := by
      rw [hp, hc]; simp
    obtain ⟨t0, t1⟩ := straddle_param_mem b xmin ymin xmax ymax p c hne
    rcases hpen with ⟨h, _⟩ | ⟨_, hz⟩
    · rw [hp] at h; exact absurd h (by simp)
    rcases he' with rfl | rfl
    · apply goodEdge_exit b xmin ymin xmax ymax hb hε hconv hz
      · rw [intersect_eq_lerp b xmin ymin xmax ymax p c hne]
        exact segClosed_hull P _ _ _ (subset_hull P _ (mem_cyclicPairs hpc).1)
          (subset_hull P _ (mem_cyclicPairs hpc).2) t0 t1
      · exact bdist_intersect b xmin ymin xmax ymax p c hne
    · have := goodEdge_sub b xmin ymin xmax ymax hconv hpc _ 1 t1
      simp only [lerp_one] at this
      show GoodEdge ε P b xmin ymin xmax ymax (intersect p c b xmin ymin xmax ymax) c
      rw [intersect_eq_lerp b xmin ymin xmax ymax p c hne]
      exact this
  · -- leaving: the pen is at `p`
    have hne : inside p b xmin ymin xmax ymax ≠ inside c b xmin ymin xmax ymax := by
      rw [hp, hc]; simp
    obtain ⟨t0, t1⟩ := straddle_param_mem b xmin ymin xmax ymax p c hne
    rcases hpen with ⟨_, hz⟩ | ⟨h, _⟩
    · subst hz
      subst he'
      have := goodEdge_sub b xmin ymin xmax ymax hconv hpc 0 _ t0
      simp only [lerp_zero] at this
      show GoodEdge ε P b xmin ymin xmax ymax z (intersect z c b xmin ymin xmax ymax)
      rw [intersect_eq_lerp b xmin ymin xmax ymax z c hne]
      exact this
    · rw [hp] at h; exact absurd h (by simp)
  · rcases hpen with ⟨_, hz⟩ | ⟨h, _⟩
    · subst hz; subst he'; exact full
    · rw [hp] at h; exact absurd h (by simp)

theorem pen_step {P : List (Vertex α)} {p c z : Vertex α} (hpc : (p, c) ∈ cyclicPairs P)
    (h : Pen P b xmin ymin xmax ymax z p ∨ emit p c b xmin ymin xmax ymax ≠ []) :
    Pen P b xmin ymin xmax ymax (lastFrom z (emit p c b xmin ymin xmax ymax)) c := by
  unfold emit at h ⊢
  cases hp : inside p b xmin ymin xmax ymax <;> cases hc : inside c b xmin ymin xmax ymax <;>
    simp only [hp, hc, lastFrom] at h ⊢
  · rcases h with h | h
    · rcases h with ⟨h, _⟩ | ⟨_, hz⟩
      · rw [hp] at h; exact absurd h (by simp)
      · exact Or.inr ⟨hc, hz⟩
    · exact absurd rfl h
  · exact Or.inl ⟨hc, rfl⟩
  · exact Or.inr ⟨hc, (p, c), hpc, hp, hc, rfl⟩
  · exact Or.inl ⟨hc, rfl⟩

theorem chain_good (hb : IsBoundary b) {ε : α} (hε : ε = 1 ∨ ε = -1)
    {P : List (Vertex α)} (hconv : ConvexWith ε P) (l : List (Vertex α)) :
    ∀ p z : Vertex α, (∀ e ∈ pairsFrom p l, e ∈ cyclicPairs P) →
      Pen P b xmin ymin xmax ymax z p →
      ∀ e' ∈ pairsFrom z (emitAll b xmin ymin xmax ymax (pairsFrom p l)),
        GoodEdge ε P b xmin ymin xmax ymax e'.1 e'.2 := by
  induction l with
  | nil => intro p z _ _ e' he'; simp [pairsFrom, emitAll] at he'
  | cons c rest ih =>
    intro p z hsub hpen e' he'
    have hpc : (p, c) ∈ cyclicPairs P := hsub _ (by simp [pairsFrom])
    simp only [pairsFrom, emitAll] at he'
    rw [pairsFrom_append, List.mem_append] at he'
    rcases he' with h | h
    · exact chain_step b xmin ymin xmax ymax hb hε hconv hpc hpen e' h
    · exact ih c _ (fun e he => hsub e (by simp [pairsFrom, he]))
        (pen_step b xmin ymin xmax ymax hpc (Or.inl hpen)) e' h

theorem pen_final {P : List (Vertex α)} (l : List (Vertex α)) :
    ∀ p z : Vertex α, (∀ e ∈ pairsFrom p l, e ∈ cyclicPairs P) →
      (Pen P b xmin ymin xmax ymax z p ∨ emitAll b xmin ymin xmax ymax (pairsFrom p l) ≠ []) →
      Pen P b xmin ymin xmax ymax
        (lastFrom z (emitAll b xmin ymin xmax ymax (pairsFrom p l))) (lastFrom p l) := by
  induction l with
  | nil =>
    intro p z _ h
    rcases h with h | h
    · exact h
    · exact absurd rfl h
  | cons c rest ih =>
    intro p z hsub h
    have hpc : (p, c) ∈ cyclicPairs P := hsub _ (by simp [pairsFrom])
    simp only [pairsFrom, emitAll, lastFrom]
    rw [lastFrom_append]
    apply ih c _ (fun e he => hsub e (by simp [pairsFrom, he]))
    by_cases hstep : Pen P b xmin ymin xmax ymax z p ∨ emit p c b xmin ymin xmax ymax ≠ []
    · exact Or.inl (pen_step b xmin ymin xmax ymax hpc hstep)
    · push_neg at hstep
      right
      rcases h with h | h
      · exact absurd h hstep.1
      · simpa [pairsFrom, emitAll, hstep.2] using h

/-- One pass on a convex polygon returns a convex polygon listed in the same
orientation. -/
theorem convexWith_clipAgainstBoundary (hb : IsBoundary b) {ε : α} (hε : ε = 1 ∨ ε = -1)
    {P : List (Vertex α)} (hconv : ConvexWith ε P) :
    ConvexWith ε (clipAgainstBoundary P b xmin ymin xmax ymax) := by
  intro e' he' w hw
  have hwP := clipAgainstBoundary_subset_hull xmin ymin xmax ymax b P w hw
  have hwin := inside_of_mem_clipAgainstBoundary b xmin ymin xmax ymax hw
  rw [clipAgainstBoundary_eq_clipSpec] at he'
  unfold clipSpec at he'
  cases hl : P.getLast? with
  | none => rw [cyclicPairs_eq_nil hl] at he'; simp [emitAll, cyclicPairs] at he'
  | some a =>
    rw [cyclicPairs_eq_pairsFrom hl] at he'
    have hsub : ∀ e ∈ pairsFrom a P, e ∈ cyclicPairs P := by
      intro e he; rw [cyclicPairs_eq_pairsFrom hl]; exact he
    cases hz : (emitAll b xmin ymin xmax ymax (pairsFrom a P)).getLast? with
    | none => rw [cyclicPairs_eq_nil hz] at he'; simp at he'
    | some z =>
      rw [cyclicPairs_eq_pairsFrom hz] at he'
      have hnil : emitAll b xmin ymin xmax ymax (pairsFrom a P) ≠ [] := by
        intro h0; rw [h0] at hz; simp at hz
      have hpen := pen_final b xmin ymin xmax ymax P a z hsub (Or.inr hnil)
      rw [lastFrom_of_getLast? hz, lastFrom_of_getLast? hl] at hpen
      exact chain_good b xmin ymin xmax ymax hb hε hconv P a z hsub hpen e' he' w hwP hwin

end Convexity

/-! ## Several passes on a convex polygon -/

section Passes

variable (xmin ymin xmax ymax : α)

theorem convexWith_clipSeq {ε : α} (hε : ε = 1 ∨ ε = -1) (bs : List Int)
    (hbs : ∀ c ∈ bs, IsBoundary c) (P : List (Vertex α)) (hconv : ConvexWith ε P) :
    ConvexWith ε (clipSeq bs P xmin ymin xmax ymax) := by
  induction bs generalizing P with
  | nil => exact hconv
  | cons c bs ih =>
    rw [clipSeq_cons]
    exact ih (fun d hd => hbs d (List.mem_cons_of_mem _ hd)) _
      (convexWith_clipAgainstBoundary c xmin ymin xmax ymax (hbs c (by simp)) hε hconv)

/-- The passes for the boundaries of `bs` cut the hull of a convex polygon by
the half-planes of these boundaries. -/
theorem hull_clipSeq {ε : α} (hε : ε = 1 ∨ ε = -1) (bs : List Int)
    (hbs : ∀ c ∈ bs, IsBoundary c) (P : List (Vertex α)) (hconv : ConvexWith ε P)
    (x : Vertex α) :
    x ∈ hull (clipSeq bs P xmin ymin xmax ymax)
      ↔ x ∈ hull P ∧ ∀ c ∈ bs, inside x c xmin ymin xmax ymax = true := by
  induction bs generalizing P with
  | nil => simp [clipSeq]
  | cons c bs ih =>
    rw [clipSeq_cons,
      ih (fun d hd => hbs d (List.mem_cons_of_mem _ hd)) _
        (convexWith_clipAgainstBoundary c xmin ymin xmax ymax (hbs c (by simp)) hε hconv),
      hull_clipAgainstBoundary c xmin ymin xmax ymax (hbs c (by simp)) ε hε P hconv]
    simp only [List.mem_cons, forall_eq_or_imp, and_assoc]

theorem hull_clipSeq_of_isConvexPolygon (bs : List Int) (hbs : ∀ c ∈ bs, IsBoundary c)
    (P : List (Vertex α)) (hP : IsConvexPolygon P) (x : Vertex α) :
    x ∈ hull (clipSeq bs P xmin ymin xmax ymax)
      ↔ x ∈ hull P ∧ ∀ c ∈ bs, inside x c xmin ymin xmax ymax = true := by
  rcases hP with h | h
  · exact hull_clipSeq xmin ymin xmax ymax (Or.inl rfl) bs hbs P h x
  · exact hull_clipSeq xmin ymin xmax ymax (Or.inr rfl) bs hbs P h x

theorem isBoundary_of_mem : ∀ c ∈ ([0, 1, 2, 3] : List Int), IsBoundary c := by
  intro c hc
  simpa [IsBoundary] using hc

theorem hull_fourPassClip (P : List (Vertex α)) (hP : IsConvexPolygon P) (x : Vertex α) :
    x ∈ hull (fourPassClip P xmin ymin xmax ymax)
      ↔ x ∈ hull P ∧ insideAll x xmin ymin xmax ymax := by
  unfold fourPassClip
  rw [hull_clipSeq_of_isConvexPolygon xmin ymin xmax ymax _ isBoundary_of_mem P hP]
  simp [insideAll]

end Passes

/-! ## Concrete run -/

theorem diamond_pass0 :
    clipAgainstBoundary diamond 0 200 150 600 450
      = [⟨400, 500⟩, ⟨200, 340⟩, ⟨200, 260⟩, ⟨400, 100⟩, ⟨650, 300⟩] := by
  rw [clipAgainstBoundary_eq_clipSpec]
  norm_num [clipSpec, cyclicPairs, pairsFrom, emitAll, emit, inside, intersect, diamond]

theorem diamond_pass1 :
    clipAgainstBoundary
        ([⟨400, 500⟩, ⟨200, 340⟩, ⟨200, 260⟩, ⟨400, 100⟩, ⟨650, 300⟩] : List (Vertex ℚ))
        1 200 150 600 450
      = [⟨600, 340⟩, ⟨400, 500⟩, ⟨200, 340⟩, ⟨200, 260⟩, ⟨400, 100⟩, ⟨600, 260⟩] := by
  rw [clipAgainstBoundary_eq_clipSpec]
  norm_num [clipSpec, cyclicPairs, pairsFrom, emitAll, emit, inside, intersect]

theorem diamond_pass2 :
    clipAgainstBoundary
        ([⟨600, 340⟩, ⟨400, 500⟩, ⟨200, 340⟩, ⟨200, 260⟩, ⟨400, 100⟩, ⟨600, 260⟩] :
          List (Vertex ℚ)) 2 200 150 600 450
      = [⟨600, 340⟩, ⟨400, 500⟩, ⟨200, 340⟩, ⟨200, 260⟩, ⟨675 / 2, 150⟩, ⟨925 / 2, 150⟩,
          ⟨600, 260⟩] := by
  rw [clipAgainstBoundary_eq_clipSpec]
  norm_num [clipSpec, cyclicPairs, pairsFrom, emitAll, emit, inside, intersect]

theorem diamond_pass3 :
    clipAgainstBoundary
        ([⟨600, 340⟩, ⟨400, 500⟩, ⟨200, 340⟩, ⟨200, 260⟩, ⟨675 / 2, 150⟩, ⟨925 / 2, 150⟩,
          ⟨600, 260⟩] : List (Vertex ℚ)) 3 200 150 600 450
      = [⟨600, 340⟩, ⟨925 / 2, 450⟩, ⟨675 / 2, 450⟩, ⟨200, 340⟩, ⟨200, 260⟩, ⟨675 / 2, 150⟩,
          ⟨925 / 2, 150⟩, ⟨600, 260⟩] := by
  rw [clipAgainstBoundary_eq_clipSpec]
  norm_num [clipSpec, cyclicPairs, pairsFrom, emitAll, emit, inside, intersect]

theorem diamond_fourPassClip :
    fourPassClip diamond 200 150 600 450
      = [⟨600, 340⟩, ⟨925 / 2, 450⟩, ⟨675 / 2, 450⟩, ⟨200, 340⟩, ⟨200, 260⟩, ⟨675 / 2, 150⟩,
          ⟨925 / 2, 150⟩, ⟨600, 260⟩] := by
  simp only [fourPassClip, clipSeq, List.foldl_cons, List.foldl_nil]
  rw [diamond_pass0, diamond_pass1, diamond_pass2, diamond_pass3]

/-- C6. Clipping the diamond of `main` against the rectangle `(200,150)-(600,450)`
yields exactly eight vertices, in this traversal order, and each of them is the
intersection of a diamond edge (a cyclic pair of diamond vertices) with one of
the four boundary lines. -/
theorem diamond_clip_is_octagon :
    fourPassClip diamond 200 150 600 450
      = [⟨600, 340⟩, ⟨925 / 2, 450⟩, ⟨675 / 2, 450⟩, ⟨200, 340⟩, ⟨200, 260⟩, ⟨675 / 2, 150⟩,
          ⟨925 / 2, 150⟩, ⟨600, 260⟩]
    ∧ (925 / 2 : ℚ) = 462.5 ∧ (675 / 2 : ℚ) = 337.5
    ∧ (fourPassClip diamond 200 150 600 450).length = 8
    ∧ ∀ v ∈ fourPassClip diamond 200 150 600 450,
        ∃ e ∈ cyclicPairs diamond, ∃ b ∈ ([0, 1, 2, 3] : List Int),
          v = intersect e.1 e.2 b 200 150 600 450 := by
  refine ⟨diamond_fourPassClip, by norm_num, by norm_num, ?_, ?_⟩
  · rw [diamond_fourPassClip]; rfl
  · rw [diamond_fourPassClip]
    intro v hv
    simp only [List.mem_cons, List.mem_singleton, List.not_mem_nil, or_false] at hv
    have hp : cyclicPairs diamond
        = [(⟨650, 300⟩, ⟨400, 500⟩), (⟨400, 500⟩, ⟨150, 300⟩), (⟨150, 300⟩, ⟨400, 100⟩),
            (⟨400, 100⟩, ⟨650, 300⟩)] := by
      simp [cyclicPairs, pairsFrom, diamond]
    rw [hp]
    rcases hv with h | h | h | h | h | h | h | h <;> subst h
    · exact ⟨(⟨650, 300⟩, ⟨400, 500⟩), by simp, 1, by simp, by norm_num [intersect]⟩
    · exact ⟨(⟨650, 300⟩, ⟨400, 500⟩), by simp, 3, by simp, by norm_num [intersect]⟩
    · exact ⟨(⟨400, 500⟩, ⟨150, 300⟩), by simp, 3, by simp, by norm_num [intersect]⟩
    · exact ⟨(⟨400, 500⟩, ⟨150, 300⟩), by simp, 0, by simp, by norm_num [intersect]⟩
    · exact ⟨(⟨150, 300⟩, ⟨400, 100⟩), by simp, 0, by simp, by norm_num [intersect]⟩
    · exact ⟨(⟨150, 300⟩, ⟨400, 100⟩), by simp, 2, by simp, by norm_num [intersect]⟩
    · exact ⟨(⟨400, 100⟩, ⟨650, 300⟩), by simp, 2, by simp, by norm_num [intersect]⟩
    · exact ⟨(⟨400, 100⟩, ⟨650, 300⟩), by simp, 1, by simp, by norm_num [intersect]⟩

/-! ## The normaliser -/

theorem toVertices_flatten (P : List (Vertex α)) : toVertices (flatten P) = some P := by
  induction P with
  | nil => rfl
  | cons v vs ih => simp [flatten, toVertices, ih]

theorem SutherlandHodgeman_flatten (P : List (Vertex α)) (xmin ymin xmax ymax : α)
    (width height : Int) :
    SutherlandHodgeman (flatten P) xmin ymin xmax ymax width height
      = some (toNDC width height (fourPassClip P xmin ymin xmax ymax)) := by
  simp [SutherlandHodgeman, toVertices_flatten]

theorem length_toNDC (width height : Int) (l : List (Vertex α)) :
    (toNDC width height l : List α).length = 2 * l.length := by
  induction l with
  | nil => rfl
  | cons v vs ih => simp [toNDC, ih]; ring

theorem toNDC_getElem? (width height : Int) (l : List (Vertex α)) (k : Nat) (v : Vertex α)
    (hk : l[k]? = some v) :
    (toNDC width height l : List α)[2 * k]? = some (ndcX v width)
    ∧ (toNDC width height l : List α)[2 * k + 1]? = some (ndcY v height) := by
  induction l generalizing k with
  | nil => simp at hk
  | cons a as ih =>
    cases k with
    | zero => simp at hk; subst hk; simp [toNDC]
    | succ k =>
      simp at hk
      have := ih k hk
      have e : 2 * (k + 1) = (2 * k + 1) + 1 := by ring
      simp only [toNDC, e, List.getElem?_cons_succ]
      exact this

theorem mem_toNDC (width height : Int) (l : List (Vertex α)) (z : α)
    (hz : z ∈ (toNDC width height l : List α)) :
    ∃ v ∈ l, z = ndcX v width ∨ z = ndcY v height := by
  induction l with
  | nil => simp [toNDC] at hz
  | cons a as ih =>
    simp only [toNDC, List.mem_cons] at hz
    rcases hz with h | h | h
    · exact ⟨a, by simp, Or.inl h⟩
    · exact ⟨a, by simp, Or.inr h⟩
    · obtain ⟨v, hv, hd⟩ := ih h
      exact ⟨v, List.mem_cons_of_mem _ hv, hd⟩

/-! ## The instrumented program agrees with the program -/

section Checked

variable (b : Int) (xmin ymin xmax ymax : α)

theorem readAt_of_lt (input : List (Vertex α)) (i : Nat) (h : i < input.length) :
    readAt input i = .ok (input.getD i default) := by
  simp [readAt, List.getD_eq_getElem?_getD, List.getElem?_eq_getElem h]

theorem divisor_ne_zero_of_straddle (u v : Vertex α)
    (h : inside u b xmin ymin xmax ymax ≠ inside v b xmin ymin xmax ymax) :
    divisor u v b ≠ 0 := by
  have hd := straddle_divisor_ne_zero b xmin ymin xmax ymax u v h
  rcases straddle_isBoundary b xmin ymin xmax ymax u v h with rfl | rfl | rfl | rfl
  · exact hd.1 (Or.inl rfl)
  · exact hd.1 (Or.inr rfl)
  · exact hd.2 (Or.inl rfl)
  · exact hd.2 (Or.inr rfl)

theorem intersectChecked_of_divisor_ne_zero (hb : IsBoundary b) (u v : Vertex α)
    (h : divisor u v b ≠ 0) :
    intersectChecked u v b xmin ymin xmax ymax = .ok (intersect u v b xmin ymin xmax ymax) := by
  rcases hb with rfl | rfl | rfl | rfl <;> simp only [divisor] at h <;>
    simp [intersectChecked, intersect, h]

theorem intersectChecked_of_divisor_eq_zero (hb : IsBoundary b) (u v : Vertex α)
    (h : divisor u v b = 0) :
    intersectChecked u v b xmin ymin xmax ymax = .error .divisionByZero := by
  rcases hb with rfl | rfl | rfl | rfl <;> simp only [divisor] at h <;>
    simp [intersectChecked, h]

theorem intersectChecked_of_straddle (u v : Vertex α)
    (h : inside u b xmin ymin xmax ymax ≠ inside v b xmin ymin xmax ymax) :
    intersectChecked u v b xmin ymin xmax ymax = .ok (intersect u v b xmin ymin xmax ymax) :=
  intersectChecked_of_divisor_ne_zero b xmin ymin xmax ymax
    (straddle_isBoundary b xmin ymin xmax ymax u v h) u v
    (divisor_ne_zero_of_straddle b xmin ymin xmax ymax u v h)

theorem clipBodyChecked_of_lt (input : List (Vertex α)) (st : Trace α) (i : Nat)
    (h : i < input.length) :
    clipBodyChecked input b xmin ymin xmax ymax st i
      = .ok ⟨clipBody input b xmin ymin xmax ymax st.output i,
          st.calls ++ List.filter (straddles b xmin ymin xmax ymax)
            [(input.getD ((i + input.length - 1) % input.length) default,
              input.getD i default)]⟩ := by
  have hn : input.length ≠ 0 := by omega
  have hp : (i + input.length - 1) % input.length < input.length :=
    Nat.mod_lt _ (by omega)
  simp only [clipBodyChecked, clipBody, readAt_of_lt input i h, readAt_of_lt input _ hp,
    bind, Except.bind, pure, Except.pure, hn, if_false, straddles, List.filter]
  cases h1 : inside (input.getD ((i + input.length - 1) % input.length) default) b xmin ymin
      xmax ymax <;>
    cases h2 : inside (input.getD i default) b xmin ymin xmax ymax
  · simp
  · have hne : inside (input.getD ((i + input.length - 1) % input.length) default) b xmin ymin
        xmax ymax ≠ inside (input.getD i default) b xmin ymin xmax ymax := by
      rw [h1, h2]; simp
    rw [intersectChecked_of_straddle b xmin ymin xmax ymax _ _ hne]
    simp
  · have hne : inside (input.getD ((i + input.length - 1) % input.length) default) b xmin ymin
        xmax ymax ≠ inside (input.getD i default) b xmin ymin xmax ymax := by
      rw [h1, h2]; simp
    rw [intersectChecked_of_straddle b xmin ymin xmax ymax _ _ hne]
    simp
  · simp

theorem foldlM_ok {σ ι : Type} (f : σ → ι → Except Fault σ) (g : σ → ι → σ) (l : List ι)
    (h : ∀ s, ∀ i ∈ l, f s i = .ok (g s i)) (s0 : σ) :
    l.foldlM f s0 = .ok (l.foldl g s0) := by
  induction l generalizing s0 with
  | nil => rfl
  | cons a l ih =>
    rw [List.foldlM_cons, h s0 a (by simp), List.foldl_cons]
    exact ih (fun s i hi => h s i (List.mem_cons_of_mem _ hi)) _

theorem foldl_trace (body : List (Vertex α) → Nat → List (Vertex α))
    (C : Nat → List (Vertex α × Vertex α)) (l : List Nat) (st : Trace α) :
    l.foldl (fun (s : Trace α) i => (⟨body s.output i, s.calls ++ C i⟩ : Trace α)) st
      = ⟨l.foldl body st.output, st.calls ++ l.flatMap C⟩ := by
  induction l generalizing st with
  | nil => simp
  | cons a l ih => simp [List.foldl_cons, ih, List.flatMap_cons]

theorem flatMap_filter_singleton {ι β : Type} (q : β → Bool) (f : ι → β) (l : List ι) :
    l.flatMap (fun i => List.filter q [f i]) = List.filter q (l.map f) := by
  induction l with
  | nil => rfl
  | cons a l ih =>
    simp only [List.flatMap_cons, List.map_cons, ih]
    by_cases hq : q (f a) = true <;> simp [List.filter, hq]

theorem pairsFrom_eq_map (l : List (Vertex α)) (p : Vertex α) :
    pairsFrom p l
      = (List.range l.length).map (fun i =>
          (if i = 0 then p else l.getD (i - 1) default, l.getD i default)) := by
  induction l generalizing p with
  | nil => simp [pairsFrom]
  | cons c rest ih =>
    simp only [pairsFrom, List.length_cons, List.range_succ_eq_map, List.map_cons,
      List.map_map]
    rw [ih c]
    simp only [if_true, List.getD_cons_zero]
    congr 1
    apply List.map_congr_left
    intro i _
    cases i with
    | zero => simp
    | succ k => simp

theorem cyclicPairs_eq_map (input : List (Vertex α)) :
    cyclicPairs input
      = (List.range input.length).map (fun i =>
          (input.getD ((i + input.length - 1) % input.length) default,
            input.getD i default)) := by
  unfold cyclicPairs
  rcases List.eq_nil_or_concat input with h | ⟨l, a, h⟩
  · subst h; simp
  · have hlast : input.getLast? = some a := by rw [h]; simp
    rw [hlast]
    simp only
    rw [pairsFrom_eq_map]
    apply List.map_congr_left
    intro i hi
    have hi2 : i < input.length := List.mem_range.mp hi
    rw [prev_index _ _ hi2]
    split
    · have : input.getD (input.length - 1) default = a := by
        rw [h]; simp [List.getD_eq_getElem?_getD]
      rw [this]
    · rfl

/-- The instrumented pass never faults: it returns the output of the pass, and
the calls it makes to `intersect` are the cyclic pairs that straddle the
boundary, in order. -/
theorem clipAgainstBoundaryChecked_eq (input : List (Vertex α)) :
    clipAgainstBoundaryChecked input b xmin ymin xmax ymax
      = .ok ⟨clipAgainstBoundary input b xmin ymin xmax ymax,
          List.filter (straddles b xmin ymin xmax ymax) (cyclicPairs input)⟩ := by
  unfold clipAgainstBoundaryChecked
  rw [foldlM_ok _ _ _ (fun s i hi =>
    clipBodyChecked_of_lt b xmin ymin xmax ymax input s i (List.mem_range.mp hi))]
  rw [foldl_trace (clipBody input b xmin ymin xmax ymax)
    (fun i => List.filter (straddles b xmin ymin xmax ymax)
      [(input.getD ((i + input.length - 1) % input.length) default, input.getD i default)])]
  rw [flatMap_filter_singleton, ← cyclicPairs_eq_map]
  simp [clipAgainstBoundary]

theorem straddles_iff (e : Vertex α × Vertex α) :
    straddles b xmin ymin xmax ymax e = true
      ↔ inside e.1 b xmin ymin xmax ymax ≠ inside e.2 b xmin ymin xmax ymax := by
  simp [straddles]

/-- Every call recorded by a run of passes has exactly one endpoint inside the
boundary of its pass, and a non-zero divisor. -/
theorem clipSeqChecked_from (bs : List Int) (st : Trace α)
    (hst : ∀ e ∈ st.calls, ∃ c : Int,
      straddles c xmin ymin xmax ymax e = true ∧ divisor e.1 e.2 c ≠ 0) :
    ∃ calls : List (Vertex α × Vertex α),
      bs.foldlM (passChecked xmin ymin xmax ymax) st
        = .ok ⟨clipSeq bs st.output xmin ymin xmax ymax, calls⟩
      ∧ ∀ e ∈ calls, ∃ c : Int,
          straddles c xmin ymin xmax ymax e = true ∧ divisor e.1 e.2 c ≠ 0 := by
  induction bs generalizing st with
  | nil => exact ⟨st.calls, rfl, hst⟩
  | cons c bs ih =>
    have hpass : passChecked xmin ymin xmax ymax st c
        = .ok ⟨clipAgainstBoundary st.output c xmin ymin xmax ymax,
            st.calls ++ List.filter (straddles c xmin ymin xmax ymax) (cyclicPairs st.output)⟩ := by
      simp [passChecked, clipAgainstBoundaryChecked_eq, bind, Except.bind, pure, Except.pure]
    rw [List.foldlM_cons, hpass]
    apply ih
    intro e he
    rcases List.mem_append.mp he with h | h
    · exact hst e h
    · have hs := (List.mem_filter.mp h).2
      exact ⟨c, hs, divisor_ne_zero_of_straddle c xmin ymin xmax ymax e.1 e.2
        ((straddles_iff c xmin ymin xmax ymax e).mp hs)⟩

theorem clipSeqChecked_eq (bs : List Int) (P : List (Vertex α)) :
    ∃ calls : List (Vertex α × Vertex α),
      clipSeqChecked bs P xmin ymin xmax ymax
        = .ok ⟨clipSeq bs P xmin ymin xmax ymax, calls⟩
      ∧ ∀ e ∈ calls, ∃ c : Int,
          straddles c xmin ymin xmax ymax e = true ∧ divisor e.1 e.2 c ≠ 0 :=
  clipSeqChecked_from xmin ymin xmax ymax bs ⟨P, []⟩ (by simp)

theorem toVerticesChecked_flatten (P : List (Vertex α)) :
    toVerticesChecked (flatten P) = .ok P := by
  induction P with
  | nil => rfl
  | cons v vs ih => simp [flatten, toVerticesChecked, ih, bind, Except.bind, pure, Except.pure]

theorem toNDCChecked_of_ne_zero (width height : Int) (hw : width ≠ 0) (hh : height ≠ 0)
    (l : List (Vertex α)) :
    toNDCChecked width height l = .ok (toNDC width height l) := by
  induction l with
  | nil => rfl
  | cons v vs ih => simp [toNDCChecked, toNDC, hw, hh, ih, bind, Except.bind, pure, Except.pure]

theorem toNDCChecked_of_eq_zero (width height : Int) (h : width = 0 ∨ height = 0)
    (v : Vertex α) (vs : List (Vertex α)) :
    toNDCChecked width height (v :: vs) = .error .divisionByZero := by
  rcases h with h | h
  · simp [toNDCChecked, h]
  · by_cases hw : width = 0 <;> simp [toNDCChecked, h, hw]

theorem SutherlandHodgemanChecked_flatten (P : List (Vertex α)) (width height : Int) :
    SutherlandHodgemanChecked (flatten P) xmin ymin xmax ymax width height
      = toNDCChecked width height (fourPassClip P xmin ymin xmax ymax) := by
  obtain ⟨calls, h, _⟩ := clipSeqChecked_eq xmin ymin xmax ymax [0, 1, 2, 3] P
  simp only [SutherlandHodgemanChecked, toVerticesChecked_flatten, fourPassClipChecked, h,
    bind, Except.bind, fourPassClip]

theorem cyclicPairs_singleton (p : Vertex α) : cyclicPairs [p] = [(p, p)] := rfl

theorem clipAgainstBoundary_nil :
    clipAgainstBoundary ([] : List (Vertex α)) b xmin ymin xmax ymax = [] := rfl

theorem clipAgainstBoundary_singleton (p : Vertex α) :
    clipAgainstBoundary [p] b xmin ymin xmax ymax
      = if inside p b xmin ymin xmax ymax = true then [p] else [] := by
  rw [clipAgainstBoundary_eq_clipSpec]
  simp only [clipSpec, cyclicPairs_singleton, emitAll, emit]
  cases h : inside p b xmin ymin xmax ymax <;> simp [h]

theorem passChecked_nil (calls : List (Vertex α × Vertex α)) :
    passChecked xmin ymin xmax ymax ⟨[], calls⟩ b = .ok ⟨[], calls⟩ := by
  simp [passChecked, clipAgainstBoundaryChecked_eq, clipAgainstBoundary_nil, cyclicPairs,
    bind, Except.bind, pure, Except.pure]

theorem passChecked_singleton (p : Vertex α) (calls : List (Vertex α × Vertex α)) :
    passChecked xmin ymin xmax ymax ⟨[p], calls⟩ b
      = .ok ⟨if inside p b xmin ymin xmax ymax = true then [p] else [], calls⟩ := by
  simp [passChecked, clipAgainstBoundaryChecked_eq, clipAgainstBoundary_singleton,
    cyclicPairs_singleton, straddles, bind, Except.bind, pure, Except.pure]

theorem fourPassClipChecked_singleton (p : Vertex α) :
    fourPassClipChecked [p] xmin ymin xmax ymax
      = .ok ⟨if inside p 0 xmin ymin xmax ymax && inside p 1 xmin ymin xmax ymax
              && inside p 2 xmin ymin xmax ymax && inside p 3 xmin ymin xmax ymax
            then [p] else [], []⟩ := by
  simp only [fourPassClipChecked, clipSeqChecked, List.foldlM_cons, List.foldlM_nil]
  rw [passChecked_singleton]
  cases h0 : inside p 0 xmin ymin xmax ymax <;> cases h1 : inside p 1 xmin ymin xmax ymax <;>
    cases h2 : inside p 2 xmin ymin xmax ymax <;> cases h3 : inside p 3 xmin ymin xmax ymax <;>
    simp [passChecked_singleton, passChecked_nil, bind, Except.bind, pure, Except.pure, h1, h2, h3]

theorem fourPassClip_singleton (p : Vertex α) :
    fourPassClip [p] xmin ymin xmax ymax
      = if inside p 0 xmin ymin xmax ymax && inside p 1 xmin ymin xmax ymax
            && inside p 2 xmin ymin xmax ymax && inside p 3 xmin ymin xmax ymax
          then [p] else [] := by
  simp only [fourPassClip, clipSeq, List.foldl_cons, List.foldl_nil]
  rw [clipAgainstBoundary_singleton]
  cases h0 : inside p 0 xmin ymin xmax ymax <;> cases h1 : inside p 1 xmin ymin xmax ymax <;>
    cases h2 : inside p 2 xmin ymin xmax ymax <;> cases h3 : inside p 3 xmin ymin xmax ymax <;>
    simp [clipAgainstBoundary_singleton, clipAgainstBoundary_nil, h1, h2, h3]

theorem length_emit (p c : Vertex α) :
    (emit p c b xmin ymin xmax ymax).length
      = (if inside c b xmin ymin xmax ymax = true then 1 else 0)
        + (if straddles b xmin ymin xmax ymax (p, c) = true then 1 else 0) := by
  unfold emit straddles
  cases hp : inside p b xmin ymin xmax ymax <;> cases hc : inside c b xmin ymin xmax ymax <;>
    simp [hp, hc]

theorem length_emitAll_pairsFrom (l : List (Vertex α)) (p : Vertex α) :
    (emitAll b xmin ymin xmax ymax (pairsFrom p l)).length
      = l.countP (fun v => inside v b xmin ymin xmax ymax)
        + (pairsFrom p l).countP (straddles b xmin ymin xmax ymax) := by
  induction l generalizing p with
  | nil => simp [pairsFrom, emitAll]
  | cons c rest ih =>
    simp only [pairsFrom, emitAll, List.length_append, List.countP_cons, ih c,
      length_emit]
    ring

theorem length_clipAgainstBoundary (input : List (Vertex α)) :
    (clipAgainstBoundary input b xmin ymin xmax ymax).length
      = input.countP (fun v => inside v b xmin ymin xmax ymax)
        + (cyclicPairs input).countP (straddles b xmin ymin xmax ymax) := by
  rw [clipAgainstBoundary_eq_clipSpec]
  unfold clipSpec
  cases hl : input.getLast? with
  | none =>
    simp at hl
    subst hl
    simp [cyclicPairs, emitAll]
  | some a =>
    rw [cyclicPairs_eq_pairsFrom hl]
    exact length_emitAll_pairsFrom b xmin ymin xmax ymax input a

end Checked

/-! ## The order of the passes -/

section Cyc

variable (b : Int) (xmin ymin xmax ymax : α)

theorem cycRel_rot (K : Vertex α → Vertex α → Vertex α → Prop) (l1 l2 : List (Vertex α)) :
    CycRel K (l1 ++ l2) (l2 ++ l1) := CycRel.rot l1 l2

theorem cycRel_dup (K : Vertex α → Vertex α → Vertex α → Prop) (l1 l2 : List (Vertex α))
    (x : Vertex α) : CycRel K (l1 ++ x :: l2) (l1 ++ x :: x :: l2) := CycRel.dup l1 l2 x

theorem cycRel_cut (K : Vertex α → Vertex α → Vertex α → Prop) (l1 l2 : List (Vertex α))
    (u x v : Vertex α) (h : K u x v) :
    CycRel K (l1 ++ u :: v :: l2) (l1 ++ u :: x :: v :: l2) := CycRel.cut l1 l2 u x v h

theorem cycRel_mono {K K' : Vertex α → Vertex α → Vertex α → Prop}
    (h : ∀ u x v, K u x v → K' u x v) {A B : List (Vertex α)} (r : CycRel K A B) :
    CycRel K' A B := by
  induction r with
  | refl l => exact CycRel.refl l
  | symm _ ih => exact CycRel.symm ih
  | trans _ _ ih1 ih2 => exact CycRel.trans ih1 ih2
  | rot l1 l2 => exact CycRel.rot l1 l2
  | dup l1 l2 x => exact CycRel.dup l1 l2 x
  | cut l1 l2 u x v hk => exact CycRel.cut l1 l2 u x v (h u x v hk)

theorem run_nil (p : Vertex α) : run b xmin ymin xmax ymax p [] = [] := rfl

theorem run_cons (p c : Vertex α) (l : List (Vertex α)) :
    run b xmin ymin xmax ymax p (c :: l)
      = emit p c b xmin ymin xmax ymax ++ run b xmin ymin xmax ymax c l := rfl

theorem run_append (p : Vertex α) (l1 l2 : List (Vertex α)) :
    run b xmin ymin xmax ymax p (l1 ++ l2)
      = run b xmin ymin xmax ymax p l1
        ++ run b xmin ymin xmax ymax (lastFrom p l1) l2 := by
  unfold run
  rw [pairsFrom_append, emitAll_append]

theorem lastFrom_cons (p c : Vertex α) (l : List (Vertex α)) :
    lastFrom p (c :: l) = lastFrom c l := rfl

theorem lastFrom_indep (p q : Vertex α) {l : List (Vertex α)} (h : l ≠ []) :
    lastFrom p l = lastFrom q l := by
  cases l with
  | nil => exact absurd rfl h
  | cons c rest => rfl

theorem clip_eq_run (P : List (Vertex α)) (d : Vertex α) :
    clipAgainstBoundary P b xmin ymin xmax ymax
      = run b xmin ymin xmax ymax (lastFrom d P) P := by
  rw [clipAgainstBoundary_eq_clipSpec]
  unfold clipSpec run
  cases P with
  | nil => rfl
  | cons c rest =>
    rw [cyclicPairs_eq_pairsFrom (getLast?_eq_lastFrom c rest)]
    rfl

theorem emit_of_inside (p c : Vertex α) (hc : inside c b xmin ymin xmax ymax = true) :
    ∃ E, emit p c b xmin ymin xmax ymax = E ++ [c] := by
  unfold emit
  cases inside p b xmin ymin xmax ymax
  · exact ⟨[intersect p c b xmin ymin xmax ymax], by simp [hc]⟩
  · exact ⟨[], by simp [hc]⟩

theorem emit_self (x : Vertex α) :
    emit x x b xmin ymin xmax ymax
      = if inside x b xmin ymin xmax ymax = true then [x] else [] := by
  unfold emit
  cases inside x b xmin ymin xmax ymax <;> simp

theorem intersect_of_left_on_line (p c : Vertex α)
    (hp : bdist b xmin ymin xmax ymax p = 0) (hc : inside c b xmin ymin xmax ymax = false) :
    intersect p c b xmin ymin xmax ymax = p := by
  have hin : inside p b xmin ymin xmax ymax = true := by
    rw [inside_iff_bdist, hp]
  rw [intersect_eq_lerp b xmin ymin xmax ymax p c (by rw [hin, hc]; simp), hp]
  simp [lerp]

theorem intersect_of_right_on_line (p c : Vertex α)
    (hp : inside p b xmin ymin xmax ymax = false) (hc : bdist b xmin ymin xmax ymax c = 0) :
    intersect p c b xmin ymin xmax ymax = c := by
  have hin : inside c b xmin ymin xmax ymax = true := by
    rw [inside_iff_bdist, hc]
  rw [intersect_eq_lerp b xmin ymin xmax ymax p c (by rw [hin, hp]; simp), hc]
  rw [inside_false_iff_bdist] at hp
  have : bdist b xmin ymin xmax ymax p ≠ 0 := ne_of_lt hp
  rw [sub_zero, div_self this, lerp_one]

theorem clip_split (l1 : List (Vertex α)) (u : Vertex α) (rest : List (Vertex α))
    (d : Vertex α) :
    clipAgainstBoundary (l1 ++ u :: rest) b xmin ymin xmax ymax
      = (run b xmin ymin xmax ymax (lastFrom u rest) l1
          ++ emit (lastFrom (lastFrom u rest) l1) u b xmin ymin xmax ymax)
        ++ run b xmin ymin xmax ymax u rest := by
  rw [clip_eq_run b xmin ymin xmax ymax _ d, run_append, run_cons, lastFrom_append,
    lastFrom_cons, List.append_assoc]

theorem clip_rot (K : Vertex α → Vertex α → Vertex α → Prop) (l1 l2 : List (Vertex α)) :
    CycRel K (clipAgainstBoundary (l1 ++ l2) b xmin ymin xmax ymax)
      (clipAgainstBoundary (l2 ++ l1) b xmin ymin xmax ymax) := by
  cases l1 with
  | nil => simp; exact CycRel.refl _
  | cons c1 r1 =>
    cases l2 with
    | nil => simp; exact CycRel.refl _
    | cons c2 r2 =>
      rw [clip_eq_run b xmin ymin xmax ymax _ c1, clip_eq_run b xmin ymin xmax ymax _ c1,
        run_append, run_append, lastFrom_append, lastFrom_append]
      simp only [lastFrom_cons]
      exact CycRel.rot _ _

theorem clip_dup (K : Vertex α → Vertex α → Vertex α → Prop) (l1 l2 : List (Vertex α))
    (x : Vertex α) :
    CycRel K (clipAgainstBoundary (l1 ++ x :: l2) b xmin ymin xmax ymax)
      (clipAgainstBoundary (l1 ++ x :: x :: l2) b xmin ymin xmax ymax) := by
  rw [clip_split b xmin ymin xmax ymax l1 x l2 x,
    clip_split b xmin ymin xmax ymax l1 x (x :: l2) x, run_cons, lastFrom_cons, emit_self]
  by_cases hx : inside x b xmin ymin xmax ymax = true
  · obtain ⟨E, hE⟩ := emit_of_inside b xmin ymin xmax ymax
      (lastFrom (lastFrom x l2) l1) x hx
    rw [hE, if_pos hx]
    have := cycRel_dup (K) (run b xmin ymin xmax ymax (lastFrom x l2) l1 ++ E)
      (run b xmin ymin xmax ymax x l2) x
    simpa using this
  · rw [if_neg hx]
    exact CycRel.refl _

theorem clip_cut_own (K : Vertex α → Vertex α → Vertex α → Prop) (l1 l2 : List (Vertex α))
    (u x v : Vertex α) (h : CutAt b xmin ymin xmax ymax u x v) :
    CycRel K (clipAgainstBoundary (l1 ++ u :: v :: l2) b xmin ymin xmax ymax)
      (clipAgainstBoundary (l1 ++ u :: x :: v :: l2) b xmin ymin xmax ymax) := by
  obtain ⟨hne, rfl⟩ := h
  have hx0 := bdist_intersect b xmin ymin xmax ymax u v hne
  have hxin : inside (intersect u v b xmin ymin xmax ymax) b xmin ymin xmax ymax = true := by
    rw [inside_iff_bdist, hx0]
  rw [clip_split b xmin ymin xmax ymax l1 u (v :: l2) u,
    clip_split b xmin ymin xmax ymax l1 u (_ :: v :: l2) u]
  simp only [run_cons, lastFrom_cons]
  generalize run b xmin ymin xmax ymax (lastFrom v l2) l1
    ++ emit (lastFrom (lastFrom v l2) l1) u b xmin ymin xmax ymax = Pre
  generalize run b xmin ymin xmax ymax v l2 = Suf
  cases hu : inside u b xmin ymin xmax ymax <;> cases hv : inside v b xmin ymin xmax ymax
  · rw [hu, hv] at hne; exact absurd rfl hne
  · have e1 := intersect_of_right_on_line b xmin ymin xmax ymax u _ hu hx0
    have : emit u (intersect u v b xmin ymin xmax ymax) b xmin ymin xmax ymax
        = [intersect u v b xmin ymin xmax ymax, intersect u v b xmin ymin xmax ymax] := by
      simp [emit, hu, hxin, e1]
    rw [this]
    simp only [emit, hu, hv, hxin]
    have := cycRel_dup (K) Pre (v :: Suf) (intersect u v b xmin ymin xmax ymax)
    simpa using this
  · have e1 := intersect_of_left_on_line b xmin ymin xmax ymax _ v hx0 hv
    simp only [emit, hu, hv, hxin, e1]
    have := cycRel_dup (K) Pre Suf (intersect u v b xmin ymin xmax ymax)
    simpa using this
  · rw [hu, hv] at hne; exact absurd rfl hne

/-- A pass maps related lists to related lists, provided it does so for every
single insertion that the relation on the inputs allows. -/
theorem clip_cycRel (K K' : Vertex α → Vertex α → Vertex α → Prop)
    (hK : ∀ l1 l2 u x v, K u x v →
      CycRel K' (clipAgainstBoundary (l1 ++ u :: v :: l2) b xmin ymin xmax ymax)
        (clipAgainstBoundary (l1 ++ u :: x :: v :: l2) b xmin ymin xmax ymax))
    {A B : List (Vertex α)} (r : CycRel K A B) :
    CycRel K' (clipAgainstBoundary A b xmin ymin xmax ymax)
      (clipAgainstBoundary B b xmin ymin xmax ymax) := by
  induction r with
  | refl l => exact CycRel.refl _
  | symm _ ih => exact CycRel.symm ih
  | trans _ _ ih1 ih2 => exact CycRel.trans ih1 ih2
  | rot l1 l2 => exact clip_rot b xmin ymin xmax ymax K' l1 l2
  | dup l1 l2 x => exact clip_dup b xmin ymin xmax ymax K' l1 l2 x
  | cut l1 l2 u x v hk => exact hK l1 l2 u x v hk

theorem clip_sameCycle {A B : List (Vertex α)} (r : SameCycle A B) :
    SameCycle (clipAgainstBoundary A b xmin ymin xmax ymax)
      (clipAgainstBoundary B b xmin ymin xmax ymax) :=
  clip_cycRel b xmin ymin xmax ymax NoCut NoCut (fun _ _ _ _ _ h => h.elim) r

theorem clip_cutAt {A B : List (Vertex α)} (r : CycRel (CutAt b xmin ymin xmax ymax) A B) :
    SameCycle (clipAgainstBoundary A b xmin ymin xmax ymax)
      (clipAgainstBoundary B b xmin ymin xmax ymax) :=
  clip_cycRel b xmin ymin xmax ymax _ NoCut
    (fun l1 l2 u x v h => clip_cut_own b xmin ymin xmax ymax NoCut l1 l2 u x v h) r

end Cyc

section Cuts

variable (b : Int) (xmin ymin xmax ymax : α)

theorem lerp_lerp_right (u v : Vertex α) (s t : α) :
    lerp (lerp u v s) v t = lerp u v (s + t * (1 - s)) := by
  simp only [lerp, Vertex.mk.injEq]
  constructor <;> ring

/-- The boundary meets a crossing edge in one point only. -/
theorem lerp_eq_intersect (u v : Vertex α)
    (h : inside u b xmin ymin xmax ymax ≠ inside v b xmin ymin xmax ymax) (τ : α)
    (h0 : bdist b xmin ymin xmax ymax (lerp u v τ) = 0) :
    lerp u v τ = intersect u v b xmin ymin xmax ymax := by
  have hne := straddle_bdist_ne b xmin ymin xmax ymax u v h
  rw [intersect_eq_lerp b xmin ymin xmax ymax u v h]
  rw [bdist_lerp] at h0
  have : τ = bdist b xmin ymin xmax ymax u
      / (bdist b xmin ymin xmax ymax u - bdist b xmin ymin xmax ymax v) := by
    field_simp
    linarith
  rw [this]

theorem intersect_sub_right (u v : Vertex α) (s : α)
    (h : inside u b xmin ymin xmax ymax ≠ inside v b xmin ymin xmax ymax)
    (hX : inside (lerp u v s) b xmin ymin xmax ymax ≠ inside v b xmin ymin xmax ymax) :
    intersect (lerp u v s) v b xmin ymin xmax ymax = intersect u v b xmin ymin xmax ymax := by
  have h0 := bdist_intersect b xmin ymin xmax ymax (lerp u v s) v hX
  rw [intersect_eq_lerp b xmin ymin xmax ymax _ v hX, lerp_lerp_right] at h0 ⊢
  exact lerp_eq_intersect b xmin ymin xmax ymax u v h _ h0

theorem intersect_sub_left (u v : Vertex α) (s : α)
    (h : inside u b xmin ymin xmax ymax ≠ inside v b xmin ymin xmax ymax)
    (hX : inside u b xmin ymin xmax ymax ≠ inside (lerp u v s) b xmin ymin xmax ymax) :
    intersect u (lerp u v s) b xmin ymin xmax ymax = intersect u v b xmin ymin xmax ymax := by
  have h0 := bdist_intersect b xmin ymin xmax ymax u (lerp u v s) hX
  rw [intersect_eq_lerp b xmin ymin xmax ymax u _ hX, lerp_lerp_left] at h0 ⊢
  exact lerp_eq_intersect b xmin ymin xmax ymax u v h _ h0

/-- The intersection with a crossing edge is a point of the edge. -/
theorem intersect_as_lerp (u v : Vertex α)
    (h : inside u b xmin ymin xmax ymax ≠ inside v b xmin ymin xmax ymax) :
    ∃ s : α, 0 ≤ s ∧ s ≤ 1 ∧ intersect u v b xmin ymin xmax ymax = lerp u v s :=
  ⟨_, (straddle_param_mem b xmin ymin xmax ymax u v h).1,
    (straddle_param_mem b xmin ymin xmax ymax u v h).2,
    intersect_eq_lerp b xmin ymin xmax ymax u v h⟩

theorem inside_intersect (u v : Vertex α)
    (h : inside u b xmin ymin xmax ymax ≠ inside v b xmin ymin xmax ymax) :
    inside (intersect u v b xmin ymin xmax ymax) b xmin ymin xmax ymax = true := by
  rw [inside_iff_bdist, bdist_intersect b xmin ymin xmax ymax u v h]

variable (c : Int)

/-- A pass against `b` turns the insertion of a crossing point of another
boundary `c` into such an insertion, or into a repetition. -/
theorem clip_cut_other (l1 l2 : List (Vertex α)) (u x v : Vertex α)
    (h : CutAt c xmin ymin xmax ymax u x v) :
    CycRel (CutAt c xmin ymin xmax ymax)
      (clipAgainstBoundary (l1 ++ u :: v :: l2) b xmin ymin xmax ymax)
      (clipAgainstBoundary (l1 ++ u :: x :: v :: l2) b xmin ymin xmax ymax) := by
  obtain ⟨hne, hx⟩ := h
  obtain ⟨s, s0, s1, hs⟩ := intersect_as_lerp c xmin ymin xmax ymax u v hne
  have hg0 := bdist_intersect c xmin ymin xmax ymax u v hne
  rw [hs] at hx hg0
  subst hx
  rw [clip_split b xmin ymin xmax ymax l1 u (v :: l2) u,
    clip_split b xmin ymin xmax ymax l1 u (_ :: v :: l2) u]
  simp only [run_cons, lastFrom_cons]
  generalize run b xmin ymin xmax ymax (lastFrom v l2) l1 = R
  generalize lastFrom (lastFrom v l2) l1 = w
  generalize run b xmin ymin xmax ymax v l2 = Suf
  cases hu : inside u b xmin ymin xmax ymax <;> cases hv : inside v b xmin ymin xmax ymax
  · -- both outside
    have hX : inside (lerp u v s) b xmin ymin xmax ymax = false :=
      segClosed_outside b xmin ymin xmax ymax u v s hu hv s0 s1
    simp only [emit, hu, hv, hX]
    exact CycRel.refl _
  · -- entering
    have hbne : inside u b xmin ymin xmax ymax ≠ inside v b xmin ymin xmax ymax := by
      rw [hu, hv]; simp
    generalize emit w u b xmin ymin xmax ymax = Eu
    cases hX : inside (lerp u v s) b xmin ymin xmax ymax
    · have e1 := intersect_sub_right b xmin ymin xmax ymax u v s hbne (by rw [hX, hv]; simp)
      simp only [emit, hu, hv, hX, e1]
      exact CycRel.refl _
    · have e1 := intersect_sub_left b xmin ymin xmax ymax u v s hbne (by rw [hX, hu]; simp)
      simp only [emit, hu, hv, hX, e1]
      obtain ⟨r, r0, r1, hr⟩ := intersect_as_lerp b xmin ymin xmax ymax u v hbne
      have hY0 := bdist_intersect b xmin ymin xmax ymax u v hbne
      by_cases hc : inside (intersect u v b xmin ymin xmax ymax) c xmin ymin xmax ymax
          ≠ inside v c xmin ymin xmax ymax
      · have e2 : lerp u v s = intersect (intersect u v b xmin ymin xmax ymax) v c
            xmin ymin xmax ymax := by
          rw [hr] at hc ⊢
          rw [intersect_sub_right c xmin ymin xmax ymax u v r hne hc, hs]
        have := cycRel_cut (CutAt c xmin ymin xmax ymax) (R ++ Eu)
          (Suf) (intersect u v b xmin ymin xmax ymax) (lerp u v s) v ⟨hc, e2⟩
        simpa using this
      · push_neg at hc
        have hc' : inside u c xmin ymin xmax ymax
            ≠ inside (intersect u v b xmin ymin xmax ymax) c xmin ymin xmax ymax := by
          rw [hc]; exact hne
        have e2 : intersect u (intersect u v b xmin ymin xmax ymax) c xmin ymin xmax ymax
            = lerp u v s := by
          rw [hr] at hc' ⊢
          rw [intersect_sub_left c xmin ymin xmax ymax u v r hne hc', hs]
        obtain ⟨t, t0, t1, ht⟩ := intersect_as_lerp c xmin ymin xmax ymax u _ hc'
        rw [e2] at ht
        have hf := bdist_lerp b xmin ymin xmax ymax u (intersect u v b xmin ymin xmax ymax) t
        rw [← ht, hY0] at hf
        rw [inside_iff_bdist] at hX
        rw [inside_false_iff_bdist] at hu
        have ht1 : t = 1 := by
          apply le_antisymm t1
          by_contra hcon
          push_neg at hcon
          nlinarith [mul_pos (sub_pos.mpr hcon) (neg_pos.mpr hu)]
        rw [ht1, lerp_one] at ht
        rw [ht]
        have := cycRel_dup (CutAt c xmin ymin xmax ymax)
          (R ++ Eu) (v :: Suf) (intersect u v b xmin ymin xmax ymax)
        simpa using this
  · -- leaving
    have hbne : inside u b xmin ymin xmax ymax ≠ inside v b xmin ymin xmax ymax := by
      rw [hu, hv]; simp
    obtain ⟨E, hE⟩ := emit_of_inside b xmin ymin xmax ymax w u hu
    cases hX : inside (lerp u v s) b xmin ymin xmax ymax
    · have e1 := intersect_sub_left b xmin ymin xmax ymax u v s hbne (by rw [hX, hu]; simp)
      simp only [emit, hu, hv, hX, e1]
      exact CycRel.refl _
    · have e1 := intersect_sub_right b xmin ymin xmax ymax u v s hbne (by rw [hX, hv]; simp)
      rw [hE]
      simp only [emit, hu, hv, hX, e1]
      obtain ⟨r, r0, r1, hr⟩ := intersect_as_lerp b xmin ymin xmax ymax u v hbne
      have hY0 := bdist_intersect b xmin ymin xmax ymax u v hbne
      by_cases hc : inside u c xmin ymin xmax ymax
          ≠ inside (intersect u v b xmin ymin xmax ymax) c xmin ymin xmax ymax
      · have e2 : lerp u v s = intersect u (intersect u v b xmin ymin xmax ymax) c
            xmin ymin xmax ymax := by
          rw [hr] at hc ⊢
          rw [intersect_sub_left c xmin ymin xmax ymax u v r hne hc, hs]
        have := cycRel_cut (CutAt c xmin ymin xmax ymax) (R ++ E)
          (Suf) u (lerp u v s) (intersect u v b xmin ymin xmax ymax) ⟨hc, e2⟩
        simpa using this
      · push_neg at hc
        have hc' : inside (intersect u v b xmin ymin xmax ymax) c xmin ymin xmax ymax
            ≠ inside v c xmin ymin xmax ymax := by
          rw [← hc]; exact hne
        have e2 : intersect (intersect u v b xmin ymin xmax ymax) v c xmin ymin xmax ymax
            = lerp u v s := by
          rw [hr] at hc' ⊢
          rw [intersect_sub_right c xmin ymin xmax ymax u v r hne hc', hs]
        obtain ⟨t, t0, t1, ht⟩ := intersect_as_lerp c xmin ymin xmax ymax _ v hc'
        rw [e2] at ht
        have hf := bdist_lerp b xmin ymin xmax ymax (intersect u v b xmin ymin xmax ymax) v t
        rw [← ht, hY0] at hf
        rw [inside_iff_bdist] at hX
        rw [inside_false_iff_bdist] at hv
        have ht0 : t = 0 := by
          apply le_antisymm _ t0
          by_contra hcon
          push_neg at hcon
          nlinarith [mul_pos hcon (neg_pos.mpr hv)]
        rw [ht0, lerp_zero] at ht
        rw [ht]
        have := cycRel_dup (CutAt c xmin ymin xmax ymax)
          (R ++ E ++ [u]) Suf (intersect u v b xmin ymin xmax ymax)
        simpa using this
  · -- both inside
    have hX : inside (lerp u v s) b xmin ymin xmax ymax = true :=
      inside_lerp xmin ymin xmax ymax b u v s hu hv s0 s1
    obtain ⟨E, hE⟩ := emit_of_inside b xmin ymin xmax ymax w u hu
    rw [hE]
    simp only [emit, hu, hv, hX]
    have := cycRel_cut (CutAt c xmin ymin xmax ymax) (R ++ E) Suf u (lerp u v s) v
      ⟨hne, hs.symm⟩
    simpa using this

end Cuts

section Subdivide

variable (b c : Int) (xmin ymin xmax ymax : α)

theorem clip_cut2 {A B : List (Vertex α)}
    (r : CycRel (fun u x v => CutAt b xmin ymin xmax ymax u x v
      ∨ CutAt c xmin ymin xmax ymax u x v) A B) :
    CycRel (CutAt c xmin ymin xmax ymax) (clipAgainstBoundary A b xmin ymin xmax ymax)
      (clipAgainstBoundary B b xmin ymin xmax ymax) := by
  apply clip_cycRel b xmin ymin xmax ymax _ _ _ r
  intro l1 l2 u x v h
  rcases h with h | h
  · exact clip_cut_own b xmin ymin xmax ymax _ l1 l2 u x v h
  · exact clip_cut_other b xmin ymin xmax ymax c l1 l2 u x v h

/-- Two passes map lists that differ by crossing points of their two boundaries
to lists that are equal up to rotation and repetition. -/
theorem clip_clip_cut2 {A B : List (Vertex α)}
    (r : CycRel (fun u x v => CutAt b xmin ymin xmax ymax u x v
      ∨ CutAt c xmin ymin xmax ymax u x v) A B) :
    SameCycle
      (clipAgainstBoundary (clipAgainstBoundary A b xmin ymin xmax ymax) c xmin ymin xmax ymax)
      (clipAgainstBoundary (clipAgainstBoundary B b xmin ymin xmax ymax) c xmin ymin xmax ymax) :=
  clip_cutAt c xmin ymin xmax ymax (clip_cut2 b c xmin ymin xmax ymax r)

theorem cuts_cons (p d : Vertex α) (rest : List (Vertex α)) :
    cuts b xmin ymin xmax ymax p (d :: rest)
      = (if inside p b xmin ymin xmax ymax ≠ inside d b xmin ymin xmax ymax
          then [intersect p d b xmin ymin xmax ymax, d] else [d])
        ++ cuts b xmin ymin xmax ymax d rest := rfl

theorem cuts_last (p : Vertex α) (l : List (Vertex α)) (hl : l ≠ []) :
    ∃ M, cuts b xmin ymin xmax ymax p l = M ++ [lastFrom p l] := by
  induction l generalizing p with
  | nil => exact absurd rfl hl
  | cons d rest ih =>
    rw [cuts_cons, lastFrom_cons]
    cases rest with
    | nil =>
      by_cases h : inside p b xmin ymin xmax ymax ≠ inside d b xmin ymin xmax ymax
      · exact ⟨[intersect p d b xmin ymin xmax ymax], by simp [cuts, h, lastFrom]⟩
      · exact ⟨[], by simp [cuts, h, lastFrom]⟩
    | cons d2 r2 =>
      obtain ⟨M, hM⟩ := ih d (List.cons_ne_nil _ _)
      rw [hM]
      exact ⟨(if inside p b xmin ymin xmax ymax ≠ inside d b xmin ymin xmax ymax
          then [intersect p d b xmin ymin xmax ymax, d] else [d]) ++ M,
        by rw [List.append_assoc]⟩

theorem cycRel_cuts (K : Vertex α → Vertex α → Vertex α → Prop)
    (hK : ∀ u x v, CutAt b xmin ymin xmax ymax u x v → K u x v)
    (l : List (Vertex α)) : ∀ (pre : List (Vertex α)) (p : Vertex α),
    CycRel K (pre ++ p :: l) (pre ++ p :: cuts b xmin ymin xmax ymax p l) := by
  induction l with
  | nil => intro pre p; exact CycRel.refl _
  | cons d rest ih =>
    intro pre p
    rw [cuts_cons]
    by_cases h : inside p b xmin ymin xmax ymax ≠ inside d b xmin ymin xmax ymax
    · rw [if_pos h]
      have h1 := cycRel_cut (K) pre rest p (intersect p d b xmin ymin xmax ymax) d
        (hK _ _ _ ⟨h, rfl⟩)
      have h2 := ih (pre ++ [p, intersect p d b xmin ymin xmax ymax]) d
      simp only [List.append_assoc, List.cons_append, List.nil_append] at h2 ⊢
      exact CycRel.trans h1 h2
    · rw [if_neg h]
      have h2 := ih (pre ++ [p]) d
      simp only [List.append_assoc, List.cons_append, List.nil_append] at h2 ⊢
      exact h2

/-- Adding the crossing points is an insertion of crossing points. -/
theorem cycRel_subdivide (K : Vertex α → Vertex α → Vertex α → Prop)
    (hK : ∀ u x v, CutAt b xmin ymin xmax ymax u x v → K u x v) (P : List (Vertex α)) :
    CycRel K P (subdivide P b xmin ymin xmax ymax) := by
  cases P with
  | nil => exact CycRel.refl _
  | cons d rest =>
    unfold subdivide
    rw [getLast?_eq_lastFrom]
    simp only
    rw [cuts_cons]
    have h0 := cycRel_cuts b xmin ymin xmax ymax K hK rest [] d
    simp only [List.nil_append] at h0
    by_cases h : inside (lastFrom d rest) b xmin ymin xmax ymax ≠ inside d b xmin ymin xmax ymax
    · rw [if_pos h]
      have hne : rest ≠ [] := by
        intro h1; subst h1; exact h rfl
      obtain ⟨M, hM⟩ := cuts_last b xmin ymin xmax ymax d rest hne
      rw [hM] at h0 ⊢
      have h1 : CycRel K (d :: (M ++ [lastFrom d rest])) ([lastFrom d rest] ++ d :: M) := by
        have := cycRel_rot (K) (d :: M) [lastFrom d rest]
        simpa using this
      have h2 := cycRel_cut (K) [] M (lastFrom d rest)
        (intersect (lastFrom d rest) d b xmin ymin xmax ymax) d (hK _ _ _ ⟨h, rfl⟩)
      have h3 := cycRel_rot (K) [lastFrom d rest]
        (intersect (lastFrom d rest) d b xmin ymin xmax ymax :: d :: M)
      simp only [List.nil_append, List.cons_append, List.singleton_append] at h1 h2 h3 ⊢
      exact CycRel.trans h0 (CycRel.trans h1 (CycRel.trans h2 h3))
    · rw [if_neg h]
      exact h0

end Subdivide

section SubdivideProps

variable (b c : Int) (xmin ymin xmax ymax : α)

theorem bdist_mul_of_inside_eq (u v : Vertex α)
    (h : inside u b xmin ymin xmax ymax = inside v b xmin ymin xmax ymax) :
    0 ≤ bdist b xmin ymin xmax ymax u * bdist b xmin ymin xmax ymax v := by
  cases hv : inside v b xmin ymin xmax ymax
  · rw [hv] at h
    rw [inside_false_iff_bdist] at h hv
    exact (mul_pos_of_neg_of_neg h hv).le
  · rw [hv] at h
    rw [inside_iff_bdist] at h hv
    exact mul_nonneg h hv

/-- Every edge of the walk with crossing points added is a part of an edge of
the walk, and does not cross the boundary strictly. -/
theorem pairs_cuts (l : List (Vertex α)) : ∀ (p : Vertex α) (e : Vertex α × Vertex α),
    e ∈ pairsFrom p (cuts b xmin ymin xmax ymax p l) →
    ∃ e0 ∈ pairsFrom p l, ∃ t1 t2 : α, 0 ≤ t1 ∧ t1 ≤ t2 ∧ t2 ≤ 1
      ∧ e = (lerp e0.1 e0.2 t1, lerp e0.1 e0.2 t2)
      ∧ 0 ≤ bdist b xmin ymin xmax ymax e.1 * bdist b xmin ymin xmax ymax e.2 := by
  induction l with
  | nil => intro p e he; simp [cuts, pairsFrom] at he
  | cons d rest ih =>
    intro p e he
    rw [cuts_cons, pairsFrom_append] at he
    have hlast : lastFrom p (if inside p b xmin ymin xmax ymax ≠ inside d b xmin ymin xmax ymax
        then [intersect p d b xmin ymin xmax ymax, d] else [d]) = d := by
      split <;> rfl
    rw [hlast, List.mem_append] at he
    rcases he with he | he
    · refine ⟨(p, d), by simp [pairsFrom], ?_⟩
      by_cases h : inside p b xmin ymin xmax ymax ≠ inside d b xmin ymin xmax ymax
      · rw [if_pos h] at he
        obtain ⟨s, s0, s1, hs⟩ := intersect_as_lerp b xmin ymin xmax ymax p d h
        have h0 := bdist_intersect b xmin ymin xmax ymax p d h
        simp only [pairsFrom, List.mem_cons, List.not_mem_nil, or_false] at he
        rcases he with he | he
        · refine ⟨0, s, le_refl _, s0, s1, ?_, ?_⟩
          · rw [he, lerp_zero, hs]
          · rw [he]; simp only; rw [h0, mul_zero]
        · refine ⟨s, 1, s0, s1, le_refl _, ?_, ?_⟩
          · rw [he, lerp_one, hs]
          · rw [he]; simp only; rw [h0, zero_mul]
      · rw [if_neg h] at he
        simp only [pairsFrom, List.mem_cons, List.not_mem_nil, or_false] at he
        refine ⟨0, 1, le_refl _, zero_le_one, le_refl _, ?_, ?_⟩
        · rw [he, lerp_zero, lerp_one]
        · rw [he]
          push_neg at h
          exact bdist_mul_of_inside_eq b xmin ymin xmax ymax p d h
    · obtain ⟨e0, he0, t1, t2, h1, h2, h3, h4, h5⟩ := ih d e he
      exact ⟨e0, by simp [pairsFrom, he0], t1, t2, h1, h2, h3, h4, h5⟩

theorem getLast?_subdivide {P : List (Vertex α)} {a : Vertex α} (h : P.getLast? = some a) :
    (subdivide P b xmin ymin xmax ymax).getLast? = some a := by
  unfold subdivide
  rw [h]
  simp only
  have hne : P ≠ [] := by
    intro h0; subst h0; simp at h
  obtain ⟨M, hM⟩ := cuts_last b xmin ymin xmax ymax a P hne
  rw [hM, lastFrom_of_getLast? h a]
  simp

theorem cyclicPairs_subdivide {P : List (Vertex α)} {a : Vertex α} (h : P.getLast? = some a) :
    cyclicPairs (subdivide P b xmin ymin xmax ymax)
      = pairsFrom a (cuts b xmin ymin xmax ymax a P) := by
  rw [cyclicPairs_eq_pairsFrom (getLast?_subdivide b xmin ymin xmax ymax h)]
  unfold subdivide
  rw [h]

theorem pairs_subdivide (P : List (Vertex α)) (e : Vertex α × Vertex α)
    (he : e ∈ cyclicPairs (subdivide P b xmin ymin xmax ymax)) :
    ∃ e0 ∈ cyclicPairs P, ∃ t1 t2 : α, 0 ≤ t1 ∧ t1 ≤ t2 ∧ t2 ≤ 1
      ∧ e = (lerp e0.1 e0.2 t1, lerp e0.1 e0.2 t2)
      ∧ 0 ≤ bdist b xmin ymin xmax ymax e.1 * bdist b xmin ymin xmax ymax e.2 := by
  cases hl : P.getLast? with
  | none =>
    simp at hl; subst hl
    simp [subdivide, cyclicPairs] at he
  | some a =>
    rw [cyclicPairs_subdivide b xmin ymin xmax ymax hl] at he
    rw [cyclicPairs_eq_pairsFrom hl]
    exact pairs_cuts b xmin ymin xmax ymax P a e he

theorem mem_of_cyclicPairs_snd {P : List (Vertex α)} {w : Vertex α} (hw : w ∈ P) :
    ∃ e ∈ cyclicPairs P, e.2 = w := by
  have key : ∀ (l : List (Vertex α)) (p : Vertex α), w ∈ l → ∃ e ∈ pairsFrom p l, e.2 = w := by
    intro l
    induction l with
    | nil => intro p h; simp at h
    | cons d rest ih =>
      intro p h
      rcases List.mem_cons.mp h with h | h
      · exact ⟨(p, d), by simp [pairsFrom], h.symm⟩
      · obtain ⟨e, he, h2⟩ := ih d h
        exact ⟨e, by simp [pairsFrom, he], h2⟩
  cases hl : P.getLast? with
  | none => simp at hl; subst hl; simp at hw
  | some a =>
    rw [cyclicPairs_eq_pairsFrom hl]
    exact key P a hw

theorem mem_subdivide_hull (P : List (Vertex α)) (w : Vertex α)
    (hw : w ∈ subdivide P b xmin ymin xmax ymax) : w ∈ hull P := by
  obtain ⟨e, he, rfl⟩ := mem_of_cyclicPairs_snd hw
  obtain ⟨e0, he0, t1, t2, h1, h2, h3, h4, _⟩ := pairs_subdivide b xmin ymin xmax ymax P e he
  rw [h4]
  have hm := mem_cyclicPairs he0
  exact segClosed_hull P _ _ _ (subset_hull P _ hm.1) (subset_hull P _ hm.2)
    (le_trans h1 h2) h3

theorem fine_subdivide (P : List (Vertex α)) :
    Fine b xmin ymin xmax ymax (subdivide P b xmin ymin xmax ymax) := by
  intro e he
  obtain ⟨e0, _, t1, t2, _, _, _, _, h5⟩ := pairs_subdivide b xmin ymin xmax ymax P e he
  exact h5

theorem fine_subdivide_of_fine (P : List (Vertex α)) (h : Fine c xmin ymin xmax ymax P) :
    Fine c xmin ymin xmax ymax (subdivide P b xmin ymin xmax ymax) := by
  intro e he
  obtain ⟨e0, he0, t1, t2, h1, h2, h3, h4, _⟩ := pairs_subdivide b xmin ymin xmax ymax P e he
  have k := h e0 he0
  rw [h4]
  simp only
  rw [bdist_lerp, bdist_lerp]
  have t20 : 0 ≤ t2 := le_trans h1 h2
  have t11 : t1 ≤ 1 := le_trans h2 h3
  have a1 : 0 ≤ (1 - t1) * (1 - t2) := mul_nonneg (sub_nonneg.mpr t11) (sub_nonneg.mpr h3)
  have a2 : 0 ≤ (1 - t1) * t2 + t1 * (1 - t2) :=
    add_nonneg (mul_nonneg (sub_nonneg.mpr t11) t20) (mul_nonneg h1 (sub_nonneg.mpr h3))
  have a3 : 0 ≤ t1 * t2 := mul_nonneg h1 t20
  nlinarith [mul_nonneg a1 (mul_self_nonneg (bdist c xmin ymin xmax ymax e0.1)),
    mul_nonneg a2 k, mul_nonneg a3 (mul_self_nonneg (bdist c xmin ymin xmax ymax e0.2))]

theorem convexWith_subdivide {ε : α} (P : List (Vertex α)) (h : ConvexWith ε P) :
    ConvexWith ε (subdivide P b xmin ymin xmax ymax) := by
  intro e he w hw
  obtain ⟨e0, he0, t1, t2, h1, h2, h3, h4, _⟩ := pairs_subdivide b xmin ymin xmax ymax P e he
  have hwP := mem_subdivide_hull b xmin ymin xmax ymax P w hw
  have k := h.on_hull e0 he0 w hwP
  rw [h4]
  simp only
  rw [cross_lerp_lerp]
  have : ε * ((t2 - t1) * cross e0.1 e0.2 w) = (t2 - t1) * (ε * cross e0.1 e0.2 w) := by ring
  rw [this]
  exact mul_nonneg (sub_nonneg.mpr h2) k

end SubdivideProps

section Geometry

variable (b c : Int) (xmin ymin xmax ymax : α)

theorem fine_exit {N : List (Vertex α)} (hf : Fine b xmin ymin xmax ymax N)
    {e : Vertex α × Vertex α} (he : e ∈ cyclicPairs N)
    (h1 : inside e.1 b xmin ymin xmax ymax = true)
    (h2 : inside e.2 b xmin ymin xmax ymax = false) :
    bdist b xmin ymin xmax ymax e.1 = 0 := by
  have k := hf e he
  rw [inside_iff_bdist] at h1
  rw [inside_false_iff_bdist] at h2
  by_contra hne
  have hpos : 0 < bdist b xmin ymin xmax ymax e.1 := lt_of_le_of_ne h1 (Ne.symm hne)
  nlinarith [mul_pos hpos (neg_pos.mpr h2)]

theorem fine_entry {N : List (Vertex α)} (hf : Fine b xmin ymin xmax ymax N)
    {e : Vertex α × Vertex α} (he : e ∈ cyclicPairs N)
    (h1 : inside e.1 b xmin ymin xmax ymax = false)
    (h2 : inside e.2 b xmin ymin xmax ymax = true) :
    bdist b xmin ymin xmax ymax e.2 = 0 := by
  have k := hf e he
  rw [inside_iff_bdist] at h2
  rw [inside_false_iff_bdist] at h1
  by_contra hne
  have hpos : 0 < bdist b xmin ymin xmax ymax e.2 := lt_of_le_of_ne h2 (Ne.symm hne)
  nlinarith [mul_pos hpos (neg_pos.mpr h1)]

theorem fine_intersect_exit {N : List (Vertex α)} (hf : Fine b xmin ymin xmax ymax N)
    {e : Vertex α × Vertex α} (he : e ∈ cyclicPairs N)
    (h1 : inside e.1 b xmin ymin xmax ymax = true)
    (h2 : inside e.2 b xmin ymin xmax ymax = false) :
    intersect e.1 e.2 b xmin ymin xmax ymax = e.1 :=
  intersect_of_left_on_line b xmin ymin xmax ymax _ _
    (fine_exit b xmin ymin xmax ymax hf he h1 h2) h2

theorem fine_intersect_entry {N : List (Vertex α)} (hf : Fine b xmin ymin xmax ymax N)
    {e : Vertex α × Vertex α} (he : e ∈ cyclicPairs N)
    (h1 : inside e.1 b xmin ymin xmax ymax = false)
    (h2 : inside e.2 b xmin ymin xmax ymax = true) :
    intersect e.1 e.2 b xmin ymin xmax ymax = e.2 :=
  intersect_of_right_on_line b xmin ymin xmax ymax _ _ h1
    (fine_entry b xmin ymin xmax ymax hf he h1 h2)

theorem exitAt_bdist {N : List (Vertex α)} (hf : Fine b xmin ymin xmax ymax N)
    {u : Vertex α} (h : ExitAt N b xmin ymin xmax ymax u) :
    bdist b xmin ymin xmax ymax u = 0 := by
  obtain ⟨o, ho, h1, h2⟩ := h
  exact fine_exit b xmin ymin xmax ymax hf ho h1 h2

theorem entryAt_bdist {N : List (Vertex α)} (hf : Fine b xmin ymin xmax ymax N)
    {d : Vertex α} (h : EntryAt N b xmin ymin xmax ymax d) :
    bdist b xmin ymin xmax ymax d = 0 := by
  obtain ⟨o, ho, h1, h2⟩ := h
  exact fine_entry b xmin ymin xmax ymax hf ho h1 h2

/-- Along the boundary line, a point of the hull does not lie beyond a vertex
where the walk leaves the inside. -/
theorem exitAt_order (hb : IsBoundary b) {ε : α} {N : List (Vertex α)}
    (hconv : ConvexWith ε N) (hf : Fine b xmin ymin xmax ymax N) {u : Vertex α}
    (hu : ExitAt N b xmin ymin xmax ymax u) {x : Vertex α} (hx : x ∈ hull N)
    (hx0 : bdist b xmin ymin xmax ymax x = 0) :
    0 ≤ ε * (balong b u - balong b x) := by
  obtain ⟨o, ho, h1, h2⟩ := hu
  have hne : inside u b xmin ymin xmax ymax ≠ inside o b xmin ymin xmax ymax := by
    rw [h1, h2]; simp
  have k := hconv.on_hull (u, o) ho x hx
  simp only at k
  rw [cross_of_on_line b xmin ymin xmax ymax hb _ _ x hne hx0,
    fine_intersect_exit b xmin ymin xmax ymax hf ho h1 h2] at k
  simp only at k
  have hu0 := fine_exit b xmin ymin xmax ymax hf ho h1 h2
  simp only at hu0
  rw [hu0, sub_zero] at k
  rw [inside_false_iff_bdist] at h2
  by_contra hcon
  push_neg at hcon
  have : ε * (bdist b xmin ymin xmax ymax o * (balong b x - balong b u))
      = (-bdist b xmin ymin xmax ymax o) * (ε * (balong b u - balong b x)) := by ring
  rw [this] at k
  nlinarith [mul_pos (neg_pos.mpr h2) (neg_pos.mpr hcon)]

/-- Along the boundary line, a point of the hull does not lie before a vertex
where the walk comes back inside. -/
theorem entryAt_order (hb : IsBoundary b) {ε : α} {N : List (Vertex α)}
    (hconv : ConvexWith ε N) (hf : Fine b xmin ymin xmax ymax N) {d : Vertex α}
    (hd : EntryAt N b xmin ymin xmax ymax d) {x : Vertex α} (hx : x ∈ hull N)
    (hx0 : bdist b xmin ymin xmax ymax x = 0) :
    0 ≤ ε * (balong b x - balong b d) := by
  obtain ⟨o, ho, h1, h2⟩ := hd
  have hne : inside o b xmin ymin xmax ymax ≠ inside d b xmin ymin xmax ymax := by
    rw [h1, h2]; simp
  have k := hconv.on_hull (o, d) ho x hx
  simp only at k
  rw [cross_of_on_line b xmin ymin xmax ymax hb _ _ x hne hx0,
    fine_intersect_entry b xmin ymin xmax ymax hf ho h1 h2] at k
  simp only at k
  have hd0 := fine_entry b xmin ymin xmax ymax hf ho h1 h2
  simp only at hd0
  rw [hd0, zero_sub] at k
  rw [inside_false_iff_bdist] at h1
  by_contra hcon
  push_neg at hcon
  have : ε * (-bdist b xmin ymin xmax ymax o * (balong b x - balong b d))
      = (-bdist b xmin ymin xmax ymax o) * (ε * (balong b x - balong b d)) := by ring
  rw [this] at k
  nlinarith [mul_pos (neg_pos.mpr h1) (neg_pos.mpr hcon)]

end Geometry

section Geometry2

variable (b c : Int) (xmin ymin xmax ymax : α)

theorem exitAt_mem {N : List (Vertex α)} {u : Vertex α}
    (h : ExitAt N b xmin ymin xmax ymax u) : u ∈ hull N := by
  obtain ⟨o, ho, _, _⟩ := h
  exact subset_hull N u (mem_cyclicPairs ho).1

theorem entryAt_mem {N : List (Vertex α)} {d : Vertex α}
    (h : EntryAt N b xmin ymin xmax ymax d) : d ∈ hull N := by
  obtain ⟨o, ho, _, _⟩ := h
  exact subset_hull N d (mem_cyclicPairs ho).2

theorem exitAt_unique (hb : IsBoundary b) {ε : α} (hε : ε = 1 ∨ ε = -1)
    {N : List (Vertex α)} (hconv : ConvexWith ε N) (hf : Fine b xmin ymin xmax ymax N)
    {u u' : Vertex α} (hu : ExitAt N b xmin ymin xmax ymax u)
    (hu' : ExitAt N b xmin ymin xmax ymax u') : u = u' := by
  have h0 := exitAt_bdist b xmin ymin xmax ymax hf hu
  have h0' := exitAt_bdist b xmin ymin xmax ymax hf hu'
  have k1 := exitAt_order b xmin ymin xmax ymax hb hconv hf hu
    (exitAt_mem b xmin ymin xmax ymax hu') h0'
  have k2 := exitAt_order b xmin ymin xmax ymax hb hconv hf hu'
    (exitAt_mem b xmin ymin xmax ymax hu) h0
  apply eq_of_local_eq b xmin ymin xmax ymax hb u u' (by rw [h0, h0'])
  rcases hε with rfl | rfl <;> linarith

theorem entryAt_unique (hb : IsBoundary b) {ε : α} (hε : ε = 1 ∨ ε = -1)
    {N : List (Vertex α)} (hconv : ConvexWith ε N) (hf : Fine b xmin ymin xmax ymax N)
    {d d' : Vertex α} (hd : EntryAt N b xmin ymin xmax ymax d)
    (hd' : EntryAt N b xmin ymin xmax ymax d') : d = d' := by
  have h0 := entryAt_bdist b xmin ymin xmax ymax hf hd
  have h0' := entryAt_bdist b xmin ymin xmax ymax hf hd'
  have k1 := entryAt_order b xmin ymin xmax ymax hb hconv hf hd
    (entryAt_mem b xmin ymin xmax ymax hd') h0'
  have k2 := entryAt_order b xmin ymin xmax ymax hb hconv hf hd'
    (entryAt_mem b xmin ymin xmax ymax hd) h0
  apply eq_of_local_eq b xmin ymin xmax ymax hb d d' (by rw [h0, h0'])
  rcases hε with rfl | rfl <;> linarith

/-- A point of the hull on the boundary line lies between the vertex where the
walk leaves the inside and the vertex where it comes back. -/
theorem on_line_between (hb : IsBoundary b) {ε : α} (hε : ε = 1 ∨ ε = -1)
    {N : List (Vertex α)} (hconv : ConvexWith ε N) (hf : Fine b xmin ymin xmax ymax N)
    {a a' : Vertex α} (ha : ExitAt N b xmin ymin xmax ymax a)
    (ha' : EntryAt N b xmin ymin xmax ymax a') {x : Vertex α} (hx : x ∈ hull N)
    (hx0 : bdist b xmin ymin xmax ymax x = 0) :
    ∃ τ : α, 0 ≤ τ ∧ τ ≤ 1 ∧ x = lerp a a' τ := by
  have h0 := exitAt_bdist b xmin ymin xmax ymax hf ha
  have h0' := entryAt_bdist b xmin ymin xmax ymax hf ha'
  have k1 := exitAt_order b xmin ymin xmax ymax hb hconv hf ha hx hx0
  have k2 := entryAt_order b xmin ymin xmax ymax hb hconv hf ha' hx hx0
  rcases hε with rfl | rfl
  · exact between_on_line b xmin ymin xmax ymax hb a a' x h0 h0' hx0 (by linarith) (by linarith)
  · obtain ⟨τ, t0, t1, ht⟩ := between_on_line b xmin ymin xmax ymax hb a' a x h0' h0 hx0
      (by linarith) (by linarith)
    refine ⟨1 - τ, by linarith, by linarith, ?_⟩
    rw [ht, lerp_symm]

/-- Two boundary lines that cross meet in one point only. Two points of the line
of `b` on different sides of `c` show that the lines cross. -/
theorem corner_unique (hb : IsBoundary b) (hc : IsBoundary c) (u d : Vertex α)
    (hu : bdist b xmin ymin xmax ymax u = 0) (hd : bdist b xmin ymin xmax ymax d = 0)
    (hne : inside u c xmin ymin xmax ymax ≠ inside d c xmin ymin xmax ymax)
    (v w : Vertex α) (hv1 : bdist b xmin ymin xmax ymax v = 0)
    (hv2 : bdist c xmin ymin xmax ymax v = 0) (hw1 : bdist b xmin ymin xmax ymax w = 0)
    (hw2 : bdist c xmin ymin xmax ymax w = 0) : v = w := by
  cases v; cases w
  rcases hb with rfl | rfl | rfl | rfl <;> rcases hc with rfl | rfl | rfl | rfl <;>
    simp only [bdist, inside, Vertex.mk.injEq] at * <;>
    first
    | (constructor <;> linarith)
    | (exfalso; apply hne; congr 1; apply propext; constructor <;> intro h <;> linarith)

end Geometry2

section StutLemmas

theorem Stut.same (A : List (Vertex α)) : Stut A A := fun _ _ => CycRel.refl _

theorem Stut.flipS {A B : List (Vertex α)} (h : Stut A B) : Stut B A :=
  fun pre suf => CycRel.symm (h pre suf)

theorem Stut.chain {A B C : List (Vertex α)} (h1 : Stut A B) (h2 : Stut B C) : Stut A C :=
  fun pre suf => CycRel.trans (h1 pre suf) (h2 pre suf)

theorem Stut.of_eq {A B : List (Vertex α)} (h : A = B) : Stut A B := h ▸ Stut.same A

theorem Stut.dup_head (x : Vertex α) (l : List (Vertex α)) : Stut (x :: x :: l) (x :: l) := by
  intro pre suf
  have := cycRel_dup (NoCut) pre (l ++ suf) x
  simp only [List.append_assoc, List.cons_append] at this ⊢
  exact CycRel.symm this

theorem Stut.append_left (l : List (Vertex α)) {A B : List (Vertex α)} (h : Stut A B) :
    Stut (l ++ A) (l ++ B) := by
  intro pre suf
  have := h (pre ++ l) suf
  simp only [List.append_assoc] at this ⊢
  exact this

theorem Stut.consS (a : Vertex α) {A B : List (Vertex α)} (h : Stut A B) :
    Stut (a :: A) (a :: B) :=
  Stut.append_left [a] h

theorem Stut.toSameCycle {A B : List (Vertex α)} (h : Stut A B) : SameCycle A B := by
  have := h [] []
  simpa using this

/-- Two lists that end with the vertex `a` and agree, up to repetitions, once `a`
is put in front of them, are equal up to rotation and repetition. -/
theorem sameCycle_of_sentinel (a : Vertex α) (A B : List (Vertex α))
    (h : Stut (a :: (A ++ [a])) (a :: (B ++ [a]))) : SameCycle (A ++ [a]) (B ++ [a]) := by
  have key : ∀ X : List (Vertex α), SameCycle (a :: (X ++ [a])) (X ++ [a]) := by
    intro X
    have h1 := cycRel_rot (NoCut) [a] (X ++ [a])
    have h2 := cycRel_dup (NoCut) X [] a
    simp only [List.append_assoc, List.cons_append, List.nil_append] at h1 h2 ⊢
    exact CycRel.trans h1 (CycRel.symm h2)
  exact CycRel.trans (CycRel.symm (key A)) (CycRel.trans h.toSameCycle (key B))

end StutLemmas

section PassF

variable (b c : Int) (xmin ymin xmax ymax : α)

theorem passF_nil (u : Vertex α) : passF b c xmin ymin xmax ymax u [] = [] := rfl

theorem passF_cons_in (u d : Vertex α) (l : List (Vertex α))
    (h : inside d b xmin ymin xmax ymax = true) :
    passF b c xmin ymin xmax ymax u (d :: l)
      = emit u d c xmin ymin xmax ymax ++ passF b c xmin ymin xmax ymax d l := by
  unfold passF
  rw [List.filter_cons_of_pos (by simpa using h), run_cons]

theorem passF_cons_out (u d : Vertex α) (l : List (Vertex α))
    (h : inside d b xmin ymin xmax ymax = false) :
    passF b c xmin ymin xmax ymax u (d :: l) = passF b c xmin ymin xmax ymax u l := by
  unfold passF
  rw [List.filter_cons_of_neg (by simpa using h)]

theorem keep_nil (q : Vertex α) (ins : Bool) (p : Vertex α) :
    keep b c xmin ymin xmax ymax q ins p [] = [] := rfl

theorem keep_cons_both (q : Vertex α) (ins : Bool) (p d : Vertex α) (l : List (Vertex α))
    (h : inBoth b c xmin ymin xmax ymax d = true) :
    keep b c xmin ymin xmax ymax q ins p (d :: l)
      = (if (ins && !inBoth b c xmin ymin xmax ymax p) = true then [q, d] else [d])
        ++ keep b c xmin ymin xmax ymax q ins d l := by
  simp only [keep, h, if_true]

theorem keep_cons_not (q : Vertex α) (ins : Bool) (p d : Vertex α) (l : List (Vertex α))
    (h : inBoth b c xmin ymin xmax ymax d = false) :
    keep b c xmin ymin xmax ymax q ins p (d :: l) = keep b c xmin ymin xmax ymax q ins d l := by
  simp [keep, h]

end PassF

section EmitCases

variable (b : Int) (xmin ymin xmax ymax : α)

theorem emit_tt (p d : Vertex α) (hp : inside p b xmin ymin xmax ymax = true)
    (hd : inside d b xmin ymin xmax ymax = true) : emit p d b xmin ymin xmax ymax = [d] := by
  simp [emit, hp, hd]

theorem emit_tf (p d : Vertex α) (hp : inside p b xmin ymin xmax ymax = true)
    (hd : inside d b xmin ymin xmax ymax = false) :
    emit p d b xmin ymin xmax ymax = [intersect p d b xmin ymin xmax ymax] := by
  simp [emit, hp, hd]

theorem emit_ft (p d : Vertex α) (hp : inside p b xmin ymin xmax ymax = false)
    (hd : inside d b xmin ymin xmax ymax = true) :
    emit p d b xmin ymin xmax ymax = [intersect p d b xmin ymin xmax ymax, d] := by
  simp [emit, hp, hd]

theorem emit_ff (p d : Vertex α) (hp : inside p b xmin ymin xmax ymax = false)
    (hd : inside d b xmin ymin xmax ymax = false) : emit p d b xmin ymin xmax ymax = [] := by
  simp [emit, hp, hd]

end EmitCases

section ScanA

variable (b c : Int) (xmin ymin xmax ymax : α) (N : List (Vertex α)) (q : Vertex α)

theorem inBoth_true {v : Vertex α} :
    inBoth b c xmin ymin xmax ymax v = true
      ↔ inside v b xmin ymin xmax ymax = true ∧ inside v c xmin ymin xmax ymax = true := by
  simp [inBoth]

theorem inBoth_of_out_left {v : Vertex α} (h : inside v b xmin ymin xmax ymax = false) :
    inBoth b c xmin ymin xmax ymax v = false := by
  simp [inBoth, h]

theorem inBoth_of_out_right {v : Vertex α} (h : inside v c xmin ymin xmax ymax = false) :
    inBoth b c xmin ymin xmax ymax v = false := by
  simp [inBoth, h]

end ScanA

section ScanA

variable (b c : Int) (xmin ymin xmax ymax : α) (N : List (Vertex α)) (q : Vertex α)

/-- When the bridge of `b` crosses `c`: the pass against `c` along the vertices
inside `b` agrees with the list of the vertices inside both, with the corner `q`
added at the end of every run of dropped vertices. -/
theorem scanA
    (hFx : ∀ e ∈ cyclicPairs N, inside e.1 c xmin ymin xmax ymax = true →
      inside e.2 c xmin ymin xmax ymax = false → intersect e.1 e.2 c xmin ymin xmax ymax = e.1)
    (hFe : ∀ e ∈ cyclicPairs N, inside e.1 c xmin ymin xmax ymax = false →
      inside e.2 c xmin ymin xmax ymax = true → intersect e.1 e.2 c xmin ymin xmax ymax = e.2)
    (hBR : ∀ u d, ExitAt N b xmin ymin xmax ymax u → EntryAt N b xmin ymin xmax ymax d →
      inside u c xmin ymin xmax ymax ≠ inside d c xmin ymin xmax ymax
        ∧ intersect u d c xmin ymin xmax ymax = q)
    (hG4 : ∀ x y, ExitAt N c xmin ymin xmax ymax x → EntryAt N c xmin ymin xmax ymax y →
      inside x b xmin ymin xmax ymax = true → inside y b xmin ymin xmax ymax = true →
      q = x ∨ q = y)
    (l : List (Vertex α)) : ∀ p : Vertex α, (∀ e ∈ pairsFrom p l, e ∈ cyclicPairs N) →
      inBoth b c xmin ymin xmax ymax (lastFrom p l) = true →
      (inBoth b c xmin ymin xmax ymax p = true →
        Stut (p :: passF b c xmin ymin xmax ymax p l)
          (p :: keep b c xmin ymin xmax ymax q true p l))
      ∧ (inside p b xmin ymin xmax ymax = true → inside p c xmin ymin xmax ymax = false →
        ∀ x, inBoth b c xmin ymin xmax ymax x = true → ExitAt N c xmin ymin xmax ymax x →
        Stut (x :: passF b c xmin ymin xmax ymax p l)
          (x :: keep b c xmin ymin xmax ymax q true p l))
      ∧ (inside p b xmin ymin xmax ymax = false →
        ∀ u x, ExitAt N b xmin ymin xmax ymax u → inBoth b c xmin ymin xmax ymax x = true →
        (u = x ∨ inside u c xmin ymin xmax ymax = false) →
        Stut (x :: passF b c xmin ymin xmax ymax u l)
          (x :: keep b c xmin ymin xmax ymax q true p l))
      ∧ (inBoth b c xmin ymin xmax ymax p = false →
        ∀ u, (inside p b xmin ymin xmax ymax = true → u = p) →
        (inside p b xmin ymin xmax ymax = false → ExitAt N b xmin ymin xmax ymax u) →
        Stut (q :: passF b c xmin ymin xmax ymax u l)
          (keep b c xmin ymin xmax ymax q true p l)) := by
  induction l with
  | nil =>
    intro p _ hend
    refine ⟨fun _ => Stut.same _, fun _ _ _ _ _ => Stut.same _,
      fun _ _ _ _ _ _ => Stut.same _, fun hp _ _ _ => ?_⟩
    simp only [lastFrom] at hend
    rw [hend] at hp
    exact absurd hp (by simp)
  | cons d rest ih =>
    intro p hch hend
    have hpd : (p, d) ∈ cyclicPairs N := hch _ (by simp [pairsFrom])
    have hch' : ∀ e ∈ pairsFrom d rest, e ∈ cyclicPairs N :=
      fun e he => hch e (by simp [pairsFrom, he])
    obtain ⟨ihD, ihS0, ihS1, ihL⟩ := ih d hch' hend
    refine ⟨?_, ?_, ?_, ?_⟩
    · -- the previous vertex is kept
      intro hp
      obtain ⟨hpb, hpc⟩ := (inBoth_true b c xmin ymin xmax ymax).mp hp
      cases hdb : inside d b xmin ymin xmax ymax
      · rw [passF_cons_out b c xmin ymin xmax ymax p d rest hdb,
          keep_cons_not b c xmin ymin xmax ymax q true p d rest
            (inBoth_of_out_left b c xmin ymin xmax ymax hdb)]
        exact ihS1 hdb p p ⟨d, hpd, hpb, hdb⟩ hp (Or.inl rfl)
      · cases hdc : inside d c xmin ymin xmax ymax
        · rw [passF_cons_in b c xmin ymin xmax ymax p d rest hdb,
            keep_cons_not b c xmin ymin xmax ymax q true p d rest
              (inBoth_of_out_right b c xmin ymin xmax ymax hdc),
            emit_tf c xmin ymin xmax ymax p d hpc hdc, hFx (p, d) hpd hpc hdc]
          exact Stut.chain (Stut.dup_head p _) (ihS0 hdb hdc p hp ⟨d, hpd, hpc, hdc⟩)
        · have hd : inBoth b c xmin ymin xmax ymax d = true :=
            (inBoth_true b c xmin ymin xmax ymax).mpr ⟨hdb, hdc⟩
          rw [passF_cons_in b c xmin ymin xmax ymax p d rest hdb,
            keep_cons_both b c xmin ymin xmax ymax q true p d rest hd,
            emit_tt c xmin ymin xmax ymax p d hpc hdc, hp]
          exact Stut.consS p (ihD hd)
    · -- inside `b`, outside `c`, nothing dropped by `b` since the last kept vertex
      intro hpb hpc x hx hxe
      have hp : inBoth b c xmin ymin xmax ymax p = false :=
        inBoth_of_out_right b c xmin ymin xmax ymax hpc
      cases hdb : inside d b xmin ymin xmax ymax
      · rw [passF_cons_out b c xmin ymin xmax ymax p d rest hdb,
          keep_cons_not b c xmin ymin xmax ymax q true p d rest
            (inBoth_of_out_left b c xmin ymin xmax ymax hdb)]
        exact ihS1 hdb p x ⟨d, hpd, hpb, hdb⟩ hx (Or.inr hpc)
      · cases hdc : inside d c xmin ymin xmax ymax
        · rw [passF_cons_in b c xmin ymin xmax ymax p d rest hdb,
            keep_cons_not b c xmin ymin xmax ymax q true p d rest
              (inBoth_of_out_right b c xmin ymin xmax ymax hdc),
            emit_ff c xmin ymin xmax ymax p d hpc hdc]
          exact ihS0 hdb hdc x hx hxe
        · have hd : inBoth b c xmin ymin xmax ymax d = true :=
            (inBoth_true b c xmin ymin xmax ymax).mpr ⟨hdb, hdc⟩
          rw [passF_cons_in b c xmin ymin xmax ymax p d rest hdb,
            keep_cons_both b c xmin ymin xmax ymax q true p d rest hd,
            emit_ft c xmin ymin xmax ymax p d hpc hdc, hFe (p, d) hpd hpc hdc, hp]
          simp only [Bool.not_false, Bool.and_self, if_true, List.cons_append, List.nil_append]
          have hL : Stut (x :: d :: d :: passF b c xmin ymin xmax ymax d rest)
              (x :: d :: keep b c xmin ymin xmax ymax q true d rest) :=
            Stut.consS x (Stut.chain (Stut.dup_head d _) (ihD hd))
          refine Stut.chain hL (Stut.flipS ?_)
          rcases hG4 x d hxe ⟨p, hpd, hpc, hdc⟩
            ((inBoth_true b c xmin ymin xmax ymax).mp hx).1 hdb with h | h
          · rw [h]; exact Stut.dup_head x _
          · rw [h]; exact Stut.consS x (Stut.dup_head d _)
    · -- outside `b`, nothing emitted since the last kept vertex
      intro hpb u x hu hx hux
      have hp : inBoth b c xmin ymin xmax ymax p = false :=
        inBoth_of_out_left b c xmin ymin xmax ymax hpb
      cases hdb : inside d b xmin ymin xmax ymax
      · rw [passF_cons_out b c xmin ymin xmax ymax u d rest hdb,
          keep_cons_not b c xmin ymin xmax ymax q true p d rest
            (inBoth_of_out_left b c xmin ymin xmax ymax hdb)]
        exact ihS1 hdb u x hu hx hux
      · obtain ⟨hne, hq⟩ := hBR u d hu ⟨p, hpd, hpb, hdb⟩
        cases hdc : inside d c xmin ymin xmax ymax
        · have huc : inside u c xmin ymin xmax ymax = true := by
            rw [hdc] at hne
            cases h : inside u c xmin ymin xmax ymax
            · exact absurd h hne
            · rfl
          have hux' : u = x := by
            rcases hux with h | h
            · exact h
            · rw [huc] at h; exact absurd h (by simp)
          subst hux'
          rw [passF_cons_in b c xmin ymin xmax ymax u d rest hdb,
            keep_cons_not b c xmin ymin xmax ymax q true p d rest
              (inBoth_of_out_right b c xmin ymin xmax ymax hdc),
            emit_tf c xmin ymin xmax ymax u d huc hdc, hq]
          exact Stut.consS u (ihL (inBoth_of_out_right b c xmin ymin xmax ymax hdc) d
            (fun _ => rfl) (fun h => by rw [hdb] at h; exact absurd h (by simp)))
        · have huc : inside u c xmin ymin xmax ymax = false := by
            rw [hdc] at hne
            cases h : inside u c xmin ymin xmax ymax
            · rfl
            · exact absurd h hne
          have hd : inBoth b c xmin ymin xmax ymax d = true :=
            (inBoth_true b c xmin ymin xmax ymax).mpr ⟨hdb, hdc⟩
          rw [passF_cons_in b c xmin ymin xmax ymax u d rest hdb,
            keep_cons_both b c xmin ymin xmax ymax q true p d rest hd,
            emit_ft c xmin ymin xmax ymax u d huc hdc, hq, hp]
          simp only [Bool.not_false, Bool.and_self, if_true, List.cons_append, List.nil_append]
          exact Stut.consS x (Stut.consS q (ihD hd))
    · -- the corner has been emitted since the last kept vertex
      intro hp u hu1 hu2
      cases hdb : inside d b xmin ymin xmax ymax
      · rw [passF_cons_out b c xmin ymin xmax ymax u d rest hdb,
          keep_cons_not b c xmin ymin xmax ymax q true p d rest
            (inBoth_of_out_left b c xmin ymin xmax ymax hdb)]
        apply ihL (inBoth_of_out_left b c xmin ymin xmax ymax hdb) u
        · intro h; rw [hdb] at h; exact absurd h (by simp)
        · intro _
          cases hpb : inside p b xmin ymin xmax ymax
          · exact hu2 hpb
          · have := hu1 hpb
            subst this
            exact ⟨d, hpd, hpb, hdb⟩
      · cases hpb : inside p b xmin ymin xmax ymax
        · have hu := hu2 hpb
          obtain ⟨hne, hq⟩ := hBR u d hu ⟨p, hpd, hpb, hdb⟩
          cases hdc : inside d c xmin ymin xmax ymax
          · have huc : inside u c xmin ymin xmax ymax = true := by
              rw [hdc] at hne
              cases h : inside u c xmin ymin xmax ymax
              · exact absurd h hne
              · rfl
            rw [passF_cons_in b c xmin ymin xmax ymax u d rest hdb,
              keep_cons_not b c xmin ymin xmax ymax q true p d rest
                (inBoth_of_out_right b c xmin ymin xmax ymax hdc),
              emit_tf c xmin ymin xmax ymax u d huc hdc, hq]
            exact Stut.chain (Stut.dup_head q _)
              (ihL (inBoth_of_out_right b c xmin ymin xmax ymax hdc) d
                (fun _ => rfl) (fun h => by rw [hdb] at h; exact absurd h (by simp)))
          · have huc : inside u c xmin ymin xmax ymax = false := by
              rw [hdc] at hne
              cases h : inside u c xmin ymin xmax ymax
              · rfl
              · exact absurd h hne
            have hd : inBoth b c xmin ymin xmax ymax d = true :=
              (inBoth_true b c xmin ymin xmax ymax).mpr ⟨hdb, hdc⟩
            rw [passF_cons_in b c xmin ymin xmax ymax u d rest hdb,
              keep_cons_both b c xmin ymin xmax ymax q true p d rest hd,
              emit_ft c xmin ymin xmax ymax u d huc hdc, hq, hp]
            simp only [Bool.not_false, Bool.and_self, if_true, List.cons_append,
              List.nil_append]
            exact Stut.chain (Stut.dup_head q _) (Stut.consS q (ihD hd))
        · have := hu1 hpb
          subst this
          have hpc : inside u c xmin ymin xmax ymax = false := by
            cases h : inside u c xmin ymin xmax ymax
            · rfl
            · have := (inBoth_true b c xmin ymin xmax ymax).mpr ⟨hpb, h⟩
              rw [hp] at this
              exact absurd this (by simp)
          cases hdc : inside d c xmin ymin xmax ymax
          · rw [passF_cons_in b c xmin ymin xmax ymax u d rest hdb,
              keep_cons_not b c xmin ymin xmax ymax q true u d rest
                (inBoth_of_out_right b c xmin ymin xmax ymax hdc),
              emit_ff c xmin ymin xmax ymax u d hpc hdc]
            exact ihL (inBoth_of_out_right b c xmin ymin xmax ymax hdc) d
              (fun _ => rfl) (fun h => by rw [hdb] at h; exact absurd h (by simp))
          · have hd : inBoth b c xmin ymin xmax ymax d = true :=
              (inBoth_true b c xmin ymin xmax ymax).mpr ⟨hdb, hdc⟩
            rw [passF_cons_in b c xmin ymin xmax ymax u d rest hdb,
              keep_cons_both b c xmin ymin xmax ymax q true u d rest hd,
              emit_ft c xmin ymin xmax ymax u d hpc hdc, hFe (u, d) hpd hpc hdc, hp]
            simp only [Bool.not_false, Bool.and_self, if_true, List.cons_append,
              List.nil_append]
            exact Stut.consS q (Stut.chain (Stut.dup_head d _) (ihD hd))

end ScanA

section ScanB

variable (b c : Int) (xmin ymin xmax ymax : α) (N : List (Vertex α)) (q : Vertex α)

theorem inside_of_not_inBoth {v : Vertex α} (h : inBoth b c xmin ymin xmax ymax v = false)
    (hb : inside v b xmin ymin xmax ymax = true) : inside v c xmin ymin xmax ymax = false := by
  cases hc : inside v c xmin ymin xmax ymax
  · rfl
  · have := (inBoth_true b c xmin ymin xmax ymax).mpr ⟨hb, hc⟩
    rw [h] at this
    exact absurd this (by simp)

/-- When the bridge of `b` does not cross `c`: the pass against `c` along the
vertices inside `b` agrees with the list of the vertices inside both. -/
theorem scanB
    (hFx : ∀ e ∈ cyclicPairs N, inside e.1 c xmin ymin xmax ymax = true →
      inside e.2 c xmin ymin xmax ymax = false → intersect e.1 e.2 c xmin ymin xmax ymax = e.1)
    (hFe : ∀ e ∈ cyclicPairs N, inside e.1 c xmin ymin xmax ymax = false →
      inside e.2 c xmin ymin xmax ymax = true → intersect e.1 e.2 c xmin ymin xmax ymax = e.2)
    (hBR : ∀ u d, ExitAt N b xmin ymin xmax ymax u → EntryAt N b xmin ymin xmax ymax d →
      inside u c xmin ymin xmax ymax = inside d c xmin ymin xmax ymax)
    (l : List (Vertex α)) : ∀ p : Vertex α, (∀ e ∈ pairsFrom p l, e ∈ cyclicPairs N) →
      (inBoth b c xmin ymin xmax ymax p = true →
        Stut (p :: passF b c xmin ymin xmax ymax p l)
          (p :: keep b c xmin ymin xmax ymax q false p l))
      ∧ (inBoth b c xmin ymin xmax ymax p = false →
        ∀ u x, inBoth b c xmin ymin xmax ymax x = true →
        (inside p b xmin ymin xmax ymax = true → u = p) →
        (inside p b xmin ymin xmax ymax = false → ExitAt N b xmin ymin xmax ymax u
          ∧ (u = x ∨ inside u c xmin ymin xmax ymax = false)) →
        Stut (x :: passF b c xmin ymin xmax ymax u l)
          (x :: keep b c xmin ymin xmax ymax q false p l)) := by
  induction l with
  | nil =>
    intro p _
    exact ⟨fun _ => Stut.same _, fun _ _ _ _ _ _ => Stut.same _⟩
  | cons d rest ih =>
    intro p hch
    have hpd : (p, d) ∈ cyclicPairs N := hch _ (by simp [pairsFrom])
    have hch' : ∀ e ∈ pairsFrom d rest, e ∈ cyclicPairs N :=
      fun e he => hch e (by simp [pairsFrom, he])
    obtain ⟨ihD, ihS⟩ := ih d hch'
    refine ⟨?_, ?_⟩
    · intro hp
      obtain ⟨hpb, hpc⟩ := (inBoth_true b c xmin ymin xmax ymax).mp hp
      cases hdb : inside d b xmin ymin xmax ymax
      · rw [passF_cons_out b c xmin ymin xmax ymax p d rest hdb,
          keep_cons_not b c xmin ymin xmax ymax q false p d rest
            (inBoth_of_out_left b c xmin ymin xmax ymax hdb)]
        exact ihS (inBoth_of_out_left b c xmin ymin xmax ymax hdb) p p hp
          (fun h => by rw [hdb] at h; exact absurd h (by simp))
          (fun _ => ⟨⟨d, hpd, hpb, hdb⟩, Or.inl rfl⟩)
      · cases hdc : inside d c xmin ymin xmax ymax
        · rw [passF_cons_in b c xmin ymin xmax ymax p d rest hdb,
            keep_cons_not b c xmin ymin xmax ymax q false p d rest
              (inBoth_of_out_right b c xmin ymin xmax ymax hdc),
            emit_tf c xmin ymin xmax ymax p d hpc hdc, hFx (p, d) hpd hpc hdc]
          exact Stut.chain (Stut.dup_head p _)
            (ihS (inBoth_of_out_right b c xmin ymin xmax ymax hdc) d p hp (fun _ => rfl)
              (fun h => by rw [hdb] at h; exact absurd h (by simp)))
        · have hd : inBoth b c xmin ymin xmax ymax d = true :=
            (inBoth_true b c xmin ymin xmax ymax).mpr ⟨hdb, hdc⟩
          rw [passF_cons_in b c xmin ymin xmax ymax p d rest hdb,
            keep_cons_both b c xmin ymin xmax ymax q false p d rest hd,
            emit_tt c xmin ymin xmax ymax p d hpc hdc]
          exact Stut.consS p (ihD hd)
    · intro hp u x hx hu1 hu2
      cases hdb : inside d b xmin ymin xmax ymax
      · rw [passF_cons_out b c xmin ymin xmax ymax u d rest hdb,
          keep_cons_not b c xmin ymin xmax ymax q false p d rest
            (inBoth_of_out_left b c xmin ymin xmax ymax hdb)]
        apply ihS (inBoth_of_out_left b c xmin ymin xmax ymax hdb) u x hx
        · intro h; rw [hdb] at h; exact absurd h (by simp)
        · intro _
          cases hpb : inside p b xmin ymin xmax ymax
          · exact hu2 hpb
          · have := hu1 hpb
            subst this
            exact ⟨⟨d, hpd, hpb, hdb⟩,
              Or.inr (inside_of_not_inBoth b c xmin ymin xmax ymax hp hpb)⟩
      · cases hpb : inside p b xmin ymin xmax ymax
        · obtain ⟨hu, hux⟩ := hu2 hpb
          have hsame := hBR u d hu ⟨p, hpd, hpb, hdb⟩
          cases hdc : inside d c xmin ymin xmax ymax
          · rw [hdc] at hsame
            rw [passF_cons_in b c xmin ymin xmax ymax u d rest hdb,
              keep_cons_not b c xmin ymin xmax ymax q false p d rest
                (inBoth_of_out_right b c xmin ymin xmax ymax hdc),
              emit_ff c xmin ymin xmax ymax u d hsame hdc]
            exact ihS (inBoth_of_out_right b c xmin ymin xmax ymax hdc) d x hx (fun _ => rfl)
              (fun h => by rw [hdb] at h; exact absurd h (by simp))
          · rw [hdc] at hsame
            have hux' : u = x := by
              rcases hux with h | h
              · exact h
              · rw [hsame] at h; exact absurd h (by simp)
            subst hux'
            have hd : inBoth b c xmin ymin xmax ymax d = true :=
              (inBoth_true b c xmin ymin xmax ymax).mpr ⟨hdb, hdc⟩
            rw [passF_cons_in b c xmin ymin xmax ymax u d rest hdb,
              keep_cons_both b c xmin ymin xmax ymax q false p d rest hd,
              emit_tt c xmin ymin xmax ymax u d hsame hdc]
            exact Stut.consS u (ihD hd)
        · have := hu1 hpb
          subst this
          have hpc := inside_of_not_inBoth b c xmin ymin xmax ymax hp hpb
          cases hdc : inside d c xmin ymin xmax ymax
          · rw [passF_cons_in b c xmin ymin xmax ymax u d rest hdb,
              keep_cons_not b c xmin ymin xmax ymax q false u d rest
                (inBoth_of_out_right b c xmin ymin xmax ymax hdc),
              emit_ff c xmin ymin xmax ymax u d hpc hdc]
            exact ihS (inBoth_of_out_right b c xmin ymin xmax ymax hdc) d x hx (fun _ => rfl)
              (fun h => by rw [hdb] at h; exact absurd h (by simp))
          · have hd : inBoth b c xmin ymin xmax ymax d = true :=
              (inBoth_true b c xmin ymin xmax ymax).mpr ⟨hdb, hdc⟩
            rw [passF_cons_in b c xmin ymin xmax ymax u d rest hdb,
              keep_cons_both b c xmin ymin xmax ymax q false u d rest hd,
              emit_ft c xmin ymin xmax ymax u d hpc hdc, hFe (u, d) hpd hpc hdc]
            exact Stut.consS x (Stut.chain (Stut.dup_head d _) (ihD hd))

end ScanB

section ScanC

variable (b c : Int) (xmin ymin xmax ymax : α) (N : List (Vertex α)) (q : Vertex α)

/-- The added corner is a repetition when it is the vertex where the walk
leaves `c`. -/
theorem scanC_exit (hqb : inside q b xmin ymin xmax ymax = true)
    (hNB : ∀ x y, ExitAt N b xmin ymin xmax ymax x → EntryAt N b xmin ymin xmax ymax y →
      inBoth b c xmin ymin xmax ymax x = true → inBoth b c xmin ymin xmax ymax y = true → False)
    (hH : ∀ x, ExitAt N c xmin ymin xmax ymax x → x = q)
    (l : List (Vertex α)) : ∀ p : Vertex α, (∀ e ∈ pairsFrom p l, e ∈ cyclicPairs N) →
      (inBoth b c xmin ymin xmax ymax p = true →
        Stut (p :: keep b c xmin ymin xmax ymax q true p l)
          (p :: keep b c xmin ymin xmax ymax q false p l))
      ∧ (inBoth b c xmin ymin xmax ymax p = false →
        ∀ x, inBoth b c xmin ymin xmax ymax x = true →
        (q = x ∨ (ExitAt N b xmin ymin xmax ymax x ∧ inside p b xmin ymin xmax ymax = false
          ∧ inside p c xmin ymin xmax ymax = true)) →
        Stut (x :: keep b c xmin ymin xmax ymax q true p l)
          (x :: keep b c xmin ymin xmax ymax q false p l)) := by
  induction l with
  | nil =>
    intro p _
    exact ⟨fun _ => Stut.same _, fun _ _ _ _ => Stut.same _⟩
  | cons d rest ih =>
    intro p hch
    have hpd : (p, d) ∈ cyclicPairs N := hch _ (by simp [pairsFrom])
    have hch' : ∀ e ∈ pairsFrom d rest, e ∈ cyclicPairs N :=
      fun e he => hch e (by simp [pairsFrom, he])
    obtain ⟨ihD, ihS⟩ := ih d hch'
    refine ⟨?_, ?_⟩
    · intro hp
      obtain ⟨hpb, hpc⟩ := (inBoth_true b c xmin ymin xmax ymax).mp hp
      cases hd : inBoth b c xmin ymin xmax ymax d
      · rw [keep_cons_not b c xmin ymin xmax ymax q true p d rest hd,
          keep_cons_not b c xmin ymin xmax ymax q false p d rest hd]
        apply ihS hd p hp
        cases hdc : inside d c xmin ymin xmax ymax
        · exact Or.inl (hH p ⟨d, hpd, hpc, hdc⟩).symm
        · have hdb : inside d b xmin ymin xmax ymax = false := by
            cases h : inside d b xmin ymin xmax ymax
            · rfl
            · have := (inBoth_true b c xmin ymin xmax ymax).mpr ⟨h, hdc⟩
              rw [hd] at this; exact absurd this (by simp)
          exact Or.inr ⟨⟨d, hpd, hpb, hdb⟩, hdb, rfl⟩
      · rw [keep_cons_both b c xmin ymin xmax ymax q true p d rest hd,
          keep_cons_both b c xmin ymin xmax ymax q false p d rest hd, hp]
        exact Stut.consS p (ihD hd)
    · intro hp x hx hinv
      cases hd : inBoth b c xmin ymin xmax ymax d
      · rw [keep_cons_not b c xmin ymin xmax ymax q true p d rest hd,
          keep_cons_not b c xmin ymin xmax ymax q false p d rest hd]
        apply ihS hd x hx
        rcases hinv with h | ⟨hxe, hpb, hpc⟩
        · exact Or.inl h
        · cases hdc : inside d c xmin ymin xmax ymax
          · have := hH p ⟨d, hpd, hpc, hdc⟩
            rw [this, hqb] at hpb
            exact absurd hpb (by simp)
          · have hdb : inside d b xmin ymin xmax ymax = false := by
              cases h : inside d b xmin ymin xmax ymax
              · rfl
              · have := (inBoth_true b c xmin ymin xmax ymax).mpr ⟨h, hdc⟩
                rw [hd] at this; exact absurd this (by simp)
            exact Or.inr ⟨hxe, hdb, rfl⟩
      · rw [keep_cons_both b c xmin ymin xmax ymax q true p d rest hd,
          keep_cons_both b c xmin ymin xmax ymax q false p d rest hd, hp]
        simp only [Bool.not_false, Bool.and_self, Bool.false_and, if_true, List.cons_append,
          List.nil_append, Bool.false_eq_true, if_false]
        have key := ihD hd
        generalize keep b c xmin ymin xmax ymax q true d rest = K1 at key ⊢
        generalize keep b c xmin ymin xmax ymax q false d rest = K0 at key ⊢
        rcases hinv with h | ⟨hxe, hpb, _⟩
        · rw [h]
          exact Stut.chain (Stut.dup_head x _) (Stut.consS x key)
        · exact (hNB x d hxe ⟨p, hpd, hpb, ((inBoth_true b c xmin ymin xmax ymax).mp hd).1⟩
            hx hd).elim

/-- The added corner is a repetition when it is the vertex where the walk
comes back inside `c`. -/
theorem scanC_entry (hqb : inside q b xmin ymin xmax ymax = true)
    (hNB : ∀ x y, ExitAt N b xmin ymin xmax ymax x → EntryAt N b xmin ymin xmax ymax y →
      inBoth b c xmin ymin xmax ymax x = true → inBoth b c xmin ymin xmax ymax y = true → False)
    (hH : ∀ y, EntryAt N c xmin ymin xmax ymax y → y = q)
    (l : List (Vertex α)) : ∀ p : Vertex α, (∀ e ∈ pairsFrom p l, e ∈ cyclicPairs N) →
      (inBoth b c xmin ymin xmax ymax p = true →
        Stut (p :: keep b c xmin ymin xmax ymax q true p l)
          (p :: keep b c xmin ymin xmax ymax q false p l))
      ∧ (inBoth b c xmin ymin xmax ymax p = false →
        ∀ x, inBoth b c xmin ymin xmax ymax x = true →
        (inside p c xmin ymin xmax ymax = false
          ∨ (ExitAt N b xmin ymin xmax ymax x ∧ inside p b xmin ymin xmax ymax = false)) →
        Stut (x :: keep b c xmin ymin xmax ymax q true p l)
          (x :: keep b c xmin ymin xmax ymax q false p l)) := by
  induction l with
  | nil =>
    intro p _
    exact ⟨fun _ => Stut.same _, fun _ _ _ _ => Stut.same _⟩
  | cons d rest ih =>
    intro p hch
    have hpd : (p, d) ∈ cyclicPairs N := hch _ (by simp [pairsFrom])
    have hch' : ∀ e ∈ pairsFrom d rest, e ∈ cyclicPairs N :=
      fun e he => hch e (by simp [pairsFrom, he])
    obtain ⟨ihD, ihS⟩ := ih d hch'
    refine ⟨?_, ?_⟩
    · intro hp
      obtain ⟨hpb, hpc⟩ := (inBoth_true b c xmin ymin xmax ymax).mp hp
      cases hd : inBoth b c xmin ymin xmax ymax d
      · rw [keep_cons_not b c xmin ymin xmax ymax q true p d rest hd,
          keep_cons_not b c xmin ymin xmax ymax q false p d rest hd]
        apply ihS hd p hp
        cases hdc : inside d c xmin ymin xmax ymax
        · exact Or.inl rfl
        · have hdb : inside d b xmin ymin xmax ymax = false := by
            cases h : inside d b xmin ymin xmax ymax
            · rfl
            · have := (inBoth_true b c xmin ymin xmax ymax).mpr ⟨h, hdc⟩
              rw [hd] at this; exact absurd this (by simp)
          exact Or.inr ⟨⟨d, hpd, hpb, hdb⟩, hdb⟩
      · rw [keep_cons_both b c xmin ymin xmax ymax q true p d rest hd,
          keep_cons_both b c xmin ymin xmax ymax q false p d rest hd, hp]
        exact Stut.consS p (ihD hd)
    · intro hp x hx hinv
      cases hd : inBoth b c xmin ymin xmax ymax d
      · rw [keep_cons_not b c xmin ymin xmax ymax q true p d rest hd,
          keep_cons_not b c xmin ymin xmax ymax q false p d rest hd]
        apply ihS hd x hx
        cases hdc : inside d c xmin ymin xmax ymax
        · exact Or.inl rfl
        · have hdb : inside d b xmin ymin xmax ymax = false := by
            cases h : inside d b xmin ymin xmax ymax
            · rfl
            · have := (inBoth_true b c xmin ymin xmax ymax).mpr ⟨h, hdc⟩
              rw [hd] at this; exact absurd this (by simp)
          rcases hinv with hpc | ⟨hxe, _⟩
          · have := hH d ⟨p, hpd, hpc, hdc⟩
            rw [this, hqb] at hdb
            exact absurd hdb (by simp)
          · exact Or.inr ⟨hxe, hdb⟩
      · rw [keep_cons_both b c xmin ymin xmax ymax q true p d rest hd,
          keep_cons_both b c xmin ymin xmax ymax q false p d rest hd, hp]
        simp only [Bool.not_false, Bool.and_self, Bool.false_and, if_true, List.cons_append,
          List.nil_append, Bool.false_eq_true, if_false]
        obtain ⟨hdb, hdc⟩ := (inBoth_true b c xmin ymin xmax ymax).mp hd
        have key := ihD hd
        generalize keep b c xmin ymin xmax ymax q true d rest = K1 at key ⊢
        generalize keep b c xmin ymin xmax ymax q false d rest = K0 at key ⊢
        rcases hinv with hpc | ⟨hxe, hpb⟩
        · have := hH d ⟨p, hpd, hpc, hdc⟩
          rw [← this]
          exact Stut.consS x (Stut.chain (Stut.dup_head d _) key)
        · exact (hNB x d hxe ⟨p, hpd, hpb, hdb⟩ hx hd).elim

end ScanC

section FineFilter

variable (b c : Int) (xmin ymin xmax ymax : α)

/-- On a walk without strict crossings the pass only drops the vertices
outside, up to repetitions. -/
theorem run_fine (N : List (Vertex α)) (hf : Fine b xmin ymin xmax ymax N)
    (l : List (Vertex α)) : ∀ p : Vertex α, (∀ e ∈ pairsFrom p l, e ∈ cyclicPairs N) →
      (inside p b xmin ymin xmax ymax = true →
        Stut (p :: run b xmin ymin xmax ymax p l)
          (p :: l.filter (fun v => inside v b xmin ymin xmax ymax)))
      ∧ (inside p b xmin ymin xmax ymax = false →
        Stut (run b xmin ymin xmax ymax p l)
          (l.filter (fun v => inside v b xmin ymin xmax ymax))) := by
  induction l with
  | nil => intro p _; exact ⟨fun _ => Stut.same _, fun _ => Stut.same _⟩
  | cons d rest ih =>
    intro p hch
    have hpd : (p, d) ∈ cyclicPairs N := hch _ (by simp [pairsFrom])
    have hch' : ∀ e ∈ pairsFrom d rest, e ∈ cyclicPairs N :=
      fun e he => hch e (by simp [pairsFrom, he])
    obtain ⟨ihI, ihO⟩ := ih d hch'
    refine ⟨?_, ?_⟩
    · intro hp
      cases hd : inside d b xmin ymin xmax ymax
      · rw [run_cons, emit_tf b xmin ymin xmax ymax p d hp hd,
          fine_intersect_exit b xmin ymin xmax ymax hf hpd hp hd,
          List.filter_cons_of_neg (by simpa using hd)]
        exact Stut.chain (Stut.dup_head p _) (Stut.consS p (ihO hd))
      · rw [run_cons, emit_tt b xmin ymin xmax ymax p d hp hd,
          List.filter_cons_of_pos (by simpa using hd)]
        exact Stut.consS p (ihI hd)
    · intro hp
      cases hd : inside d b xmin ymin xmax ymax
      · rw [run_cons, emit_ff b xmin ymin xmax ymax p d hp hd,
          List.filter_cons_of_neg (by simpa using hd)]
        exact ihO hd
      · rw [run_cons, emit_ft b xmin ymin xmax ymax p d hp hd,
          fine_intersect_entry b xmin ymin xmax ymax hf hpd hp hd,
          List.filter_cons_of_pos (by simpa using hd)]
        exact Stut.chain (Stut.dup_head d _) (ihI hd)

theorem run_ends (p a : Vertex α) (M : List (Vertex α))
    (ha : inside a b xmin ymin xmax ymax = true) :
    ∃ E, run b xmin ymin xmax ymax p (M ++ [a]) = E ++ [a] := by
  rw [run_append, run_cons, run_nil, List.append_nil]
  obtain ⟨E, hE⟩ := emit_of_inside b xmin ymin xmax ymax (lastFrom p M) a ha
  exact ⟨run b xmin ymin xmax ymax p M ++ E, by rw [hE, List.append_assoc]⟩

theorem lastFrom_concat (p a : Vertex α) (M : List (Vertex α)) : lastFrom p (M ++ [a]) = a := by
  rw [lastFrom_append]; rfl

theorem cyclicPairs_concat (M : List (Vertex α)) (a : Vertex α) :
    cyclicPairs (M ++ [a]) = pairsFrom a (M ++ [a]) := by
  apply cyclicPairs_eq_pairsFrom
  simp

/-- On a closed walk without strict crossings the pass returns the vertices
inside, up to rotation and repetition. -/
theorem clip_fine (N : List (Vertex α)) (hf : Fine b xmin ymin xmax ymax N) :
    SameCycle (clipAgainstBoundary N b xmin ymin xmax ymax)
      (N.filter (fun v => inside v b xmin ymin xmax ymax)) := by
  rcases List.eq_nil_or_concat N with h | ⟨M, a, h⟩
  · subst h
    rw [clipAgainstBoundary_nil]
    exact CycRel.refl _
  · rw [List.concat_eq_append] at h
    subst h
    rw [clip_eq_run b xmin ymin xmax ymax _ a, lastFrom_concat]
    have k := run_fine b xmin ymin xmax ymax (M ++ [a]) hf (M ++ [a]) a
      (fun e he => by rw [cyclicPairs_concat]; exact he)
    cases ha : inside a b xmin ymin xmax ymax
    · exact (k.2 ha).toSameCycle
    · obtain ⟨E, hE⟩ := run_ends b xmin ymin xmax ymax a a M ha
      have hF : (M ++ [a]).filter (fun v => inside v b xmin ymin xmax ymax)
          = M.filter (fun v => inside v b xmin ymin xmax ymax) ++ [a] := by
        rw [List.filter_append, List.filter_cons_of_pos (by simpa using ha), List.filter_nil]
      have k1 := k.1 ha
      rw [hE, hF] at k1 ⊢
      exact sameCycle_of_sentinel a _ _ k1

end FineFilter

section Corner

variable (b c : Int) (xmin ymin xmax ymax : α)

theorem corner_bdist_left {N : List (Vertex α)} (hf : Fine b xmin ymin xmax ymax N)
    {u d : Vertex α} (h : BridgeCrosses N b c xmin ymin xmax ymax u d) :
    bdist b xmin ymin xmax ymax (intersect u d c xmin ymin xmax ymax) = 0 := by
  obtain ⟨hu, hd, hne⟩ := h
  rw [intersect_eq_lerp c xmin ymin xmax ymax u d hne, bdist_lerp,
    exitAt_bdist b xmin ymin xmax ymax hf hu, entryAt_bdist b xmin ymin xmax ymax hf hd]
  ring

theorem corner_bdist_right {N : List (Vertex α)}
    {u d : Vertex α} (h : BridgeCrosses N b c xmin ymin xmax ymax u d) :
    bdist c xmin ymin xmax ymax (intersect u d c xmin ymin xmax ymax) = 0 :=
  bdist_intersect c xmin ymin xmax ymax u d h.2.2

theorem corner_mem_hull {N : List (Vertex α)}
    {u d : Vertex α} (h : BridgeCrosses N b c xmin ymin xmax ymax u d) :
    intersect u d c xmin ymin xmax ymax ∈ hull N := by
  obtain ⟨hu, hd, hne⟩ := h
  obtain ⟨s, s0, s1, hs⟩ := intersect_as_lerp c xmin ymin xmax ymax u d hne
  rw [hs]
  exact segClosed_hull N _ _ _ (exitAt_mem b xmin ymin xmax ymax hu)
    (entryAt_mem b xmin ymin xmax ymax hd) s0 s1

/-- Any point on both boundary lines is the corner. -/
theorem eq_corner (hb : IsBoundary b) (hc : IsBoundary c) {N : List (Vertex α)}
    (hf : Fine b xmin ymin xmax ymax N)
    {u d : Vertex α} (h : BridgeCrosses N b c xmin ymin xmax ymax u d) (v : Vertex α)
    (hv1 : bdist b xmin ymin xmax ymax v = 0) (hv2 : bdist c xmin ymin xmax ymax v = 0) :
    v = intersect u d c xmin ymin xmax ymax :=
  corner_unique b c xmin ymin xmax ymax hb hc u d
    (exitAt_bdist b xmin ymin xmax ymax hf h.1) (entryAt_bdist b xmin ymin xmax ymax hf h.2.1)
    h.2.2 v _ hv1 hv2 (corner_bdist_left b c xmin ymin xmax ymax hf h)
    (corner_bdist_right b c xmin ymin xmax ymax h)

/-- The corner lies between the vertices where the walk leaves and re-enters
`c`; when both are inside `b` it is one of them. -/
theorem corner_is_end (hb : IsBoundary b) (hc : IsBoundary c) {ε : α} (hε : ε = 1 ∨ ε = -1)
    {N : List (Vertex α)} (hconv : ConvexWith ε N)
    (hfb : Fine b xmin ymin xmax ymax N) (hfc : Fine c xmin ymin xmax ymax N)
    {u d : Vertex α} (h : BridgeCrosses N b c xmin ymin xmax ymax u d)
    {x y : Vertex α} (hx : ExitAt N c xmin ymin xmax ymax x)
    (hy : EntryAt N c xmin ymin xmax ymax y)
    (hxb : inside x b xmin ymin xmax ymax = true) (hyb : inside y b xmin ymin xmax ymax = true) :
    intersect u d c xmin ymin xmax ymax = x ∨ intersect u d c xmin ymin xmax ymax = y := by
  have q1 := corner_bdist_left b c xmin ymin xmax ymax hfb h
  have q2 := corner_bdist_right b c xmin ymin xmax ymax h
  obtain ⟨τ, t0, t1, ht⟩ := on_line_between c xmin ymin xmax ymax hc hε hconv hfc hx hy
    (corner_mem_hull b c xmin ymin xmax ymax h) q2
  have hx0 := exitAt_bdist c xmin ymin xmax ymax hfc hx
  have hy0 := entryAt_bdist c xmin ymin xmax ymax hfc hy
  rw [inside_iff_bdist] at hxb hyb
  by_cases hxz : bdist b xmin ymin xmax ymax x = 0
  · exact Or.inl (eq_corner b c xmin ymin xmax ymax hb hc hfb h x hxz hx0).symm
  · by_cases hyz : bdist b xmin ymin xmax ymax y = 0
    · exact Or.inr (eq_corner b c xmin ymin xmax ymax hb hc hfb h y hyz hy0).symm
    · exfalso
      have px : 0 < bdist b xmin ymin xmax ymax x := lt_of_le_of_ne hxb (Ne.symm hxz)
      have py : 0 < bdist b xmin ymin xmax ymax y := lt_of_le_of_ne hyb (Ne.symm hyz)
      rw [ht, bdist_lerp] at q1
      nlinarith [mul_nonneg t0 py.le, mul_nonneg (sub_nonneg.mpr t1) px.le,
        mul_pos px py]

end Corner

section Closure

variable (b c : Int) (xmin ymin xmax ymax : α)

theorem inBoth_comm (v : Vertex α) :
    inBoth b c xmin ymin xmax ymax v = inBoth c b xmin ymin xmax ymax v := by
  unfold inBoth
  exact Bool.and_comm _ _

theorem keep_comm (q : Vertex α) (ins : Bool) (l : List (Vertex α)) : ∀ p : Vertex α,
    keep b c xmin ymin xmax ymax q ins p l = keep c b xmin ymin xmax ymax q ins p l := by
  induction l with
  | nil => intro p; rfl
  | cons d rest ih =>
    intro p
    simp only [keep]
    rw [ih d, inBoth_comm b c xmin ymin xmax ymax d, inBoth_comm b c xmin ymin xmax ymax p]

theorem keep_false_irrel (q q' : Vertex α) (l : List (Vertex α)) : ∀ p : Vertex α,
    keep b c xmin ymin xmax ymax q false p l = keep b c xmin ymin xmax ymax q' false p l := by
  induction l with
  | nil => intro p; rfl
  | cons d rest ih =>
    intro p
    simp only [keep, Bool.false_and, Bool.false_eq_true, if_false]
    rw [ih d]

theorem keep_append (q : Vertex α) (ins : Bool) (l1 l2 : List (Vertex α)) : ∀ p : Vertex α,
    keep b c xmin ymin xmax ymax q ins p (l1 ++ l2)
      = keep b c xmin ymin xmax ymax q ins p l1
        ++ keep b c xmin ymin xmax ymax q ins (lastFrom p l1) l2 := by
  induction l1 with
  | nil => intro p; rfl
  | cons d rest ih =>
    intro p
    show _ ++ keep b c xmin ymin xmax ymax q ins d (rest ++ l2) = _
    rw [ih d]
    simp only [keep, lastFrom_cons, List.append_assoc]

theorem keep_ends (q : Vertex α) (ins : Bool) (p a : Vertex α) (M : List (Vertex α))
    (ha : inBoth b c xmin ymin xmax ymax a = true) :
    ∃ E, keep b c xmin ymin xmax ymax q ins p (M ++ [a]) = E ++ [a] := by
  rw [keep_append, keep_cons_both b c xmin ymin xmax ymax q ins _ a [] ha, keep_nil,
    List.append_nil]
  split
  · exact ⟨keep b c xmin ymin xmax ymax q ins p M ++ [q], by simp⟩
  · exact ⟨keep b c xmin ymin xmax ymax q ins p M, rfl⟩

theorem filter_concat_in (M : List (Vertex α)) (a : Vertex α)
    (ha : inside a b xmin ymin xmax ymax = true) :
    (M ++ [a]).filter (fun v => inside v b xmin ymin xmax ymax)
      = M.filter (fun v => inside v b xmin ymin xmax ymax) ++ [a] := by
  rw [List.filter_append, List.filter_cons_of_pos (by simpa using ha), List.filter_nil]

theorem clip_filter_eq_passF (M : List (Vertex α)) (a : Vertex α)
    (ha : inside a b xmin ymin xmax ymax = true) :
    clipAgainstBoundary ((M ++ [a]).filter (fun v => inside v b xmin ymin xmax ymax))
        c xmin ymin xmax ymax
      = passF b c xmin ymin xmax ymax a (M ++ [a]) := by
  unfold passF
  rw [clip_eq_run c xmin ymin xmax ymax _ a, filter_concat_in b xmin ymin xmax ymax M a ha,
    lastFrom_concat]

theorem passF_ends (p a : Vertex α) (M : List (Vertex α))
    (ha : inBoth b c xmin ymin xmax ymax a = true) :
    ∃ E, passF b c xmin ymin xmax ymax p (M ++ [a]) = E ++ [a] := by
  obtain ⟨hab, hac⟩ := (inBoth_true b c xmin ymin xmax ymax).mp ha
  unfold passF
  rw [filter_concat_in b xmin ymin xmax ymax M a hab]
  exact run_ends c xmin ymin xmax ymax p a _ hac

/-- Closing the walk: a comparison of the pass with the list of kept vertices
along the whole walk, entered from its last vertex, is a comparison of closed
walks. -/
theorem sameCycle_clip_keep (q : Vertex α) (ins : Bool) (M : List (Vertex α)) (a : Vertex α)
    (ha : inBoth b c xmin ymin xmax ymax a = true)
    (h : Stut (a :: passF b c xmin ymin xmax ymax a (M ++ [a]))
      (a :: keep b c xmin ymin xmax ymax q ins a (M ++ [a]))) :
    SameCycle
      (clipAgainstBoundary ((M ++ [a]).filter (fun v => inside v b xmin ymin xmax ymax))
        c xmin ymin xmax ymax)
      (keep b c xmin ymin xmax ymax q ins a (M ++ [a])) := by
  rw [clip_filter_eq_passF b c xmin ymin xmax ymax M a
    ((inBoth_true b c xmin ymin xmax ymax).mp ha).1]
  obtain ⟨E1, h1⟩ := passF_ends b c xmin ymin xmax ymax a a M ha
  obtain ⟨E2, h2⟩ := keep_ends b c xmin ymin xmax ymax q ins a a M ha
  rw [h1, h2] at h ⊢
  exact sameCycle_of_sentinel a E1 E2 h

theorem sameCycle_keep_keep (q : Vertex α) (M : List (Vertex α)) (a : Vertex α)
    (ha : inBoth b c xmin ymin xmax ymax a = true)
    (h : Stut (a :: keep b c xmin ymin xmax ymax q true a (M ++ [a]))
      (a :: keep b c xmin ymin xmax ymax q false a (M ++ [a]))) :
    SameCycle (keep b c xmin ymin xmax ymax q true a (M ++ [a]))
      (keep b c xmin ymin xmax ymax q false a (M ++ [a])) := by
  obtain ⟨E1, h1⟩ := keep_ends b c xmin ymin xmax ymax q true a a M ha
  obtain ⟨E2, h2⟩ := keep_ends b c xmin ymin xmax ymax q false a a M ha
  rw [h1, h2] at h ⊢
  exact sameCycle_of_sentinel a E1 E2 h

end Closure

section Core

variable (b c : Int) (xmin ymin xmax ymax : α)

theorem clip_filter_crossing (hb : IsBoundary b) (hc : IsBoundary c) {ε : α}
    (hε : ε = 1 ∨ ε = -1) (M : List (Vertex α)) (a : Vertex α)
    (hconv : ConvexWith ε (M ++ [a]))
    (hfb : Fine b xmin ymin xmax ymax (M ++ [a])) (hfc : Fine c xmin ymin xmax ymax (M ++ [a]))
    (ha : inBoth b c xmin ymin xmax ymax a = true) (u d : Vertex α)
    (h : BridgeCrosses (M ++ [a]) b c xmin ymin xmax ymax u d) :
    SameCycle
      (clipAgainstBoundary ((M ++ [a]).filter (fun v => inside v b xmin ymin xmax ymax))
        c xmin ymin xmax ymax)
      (keep b c xmin ymin xmax ymax (intersect u d c xmin ymin xmax ymax) true a (M ++ [a])) := by
  apply sameCycle_clip_keep b c xmin ymin xmax ymax _ true M a ha
  refine (scanA b c xmin ymin xmax ymax (M ++ [a]) _ ?_ ?_ ?_ ?_ (M ++ [a]) a ?_ ?_).1 ha
  · exact fun e he h1 h2 => fine_intersect_exit c xmin ymin xmax ymax hfc he h1 h2
  · exact fun e he h1 h2 => fine_intersect_entry c xmin ymin xmax ymax hfc he h1 h2
  · intro u' d' hu' hd'
    have e1 := exitAt_unique b xmin ymin xmax ymax hb hε hconv hfb hu' h.1
    have e2 := entryAt_unique b xmin ymin xmax ymax hb hε hconv hfb hd' h.2.1
    subst e1; subst e2
    exact ⟨h.2.2, rfl⟩
  · intro x y hx hy hxb hyb
    exact corner_is_end b c xmin ymin xmax ymax hb hc hε hconv hfb hfc h hx hy hxb hyb
  · intro e he; rw [cyclicPairs_concat]; exact he
  · rw [lastFrom_concat]; exact ha

theorem clip_filter_no_crossing (M : List (Vertex α)) (a : Vertex α)
    (hfc : Fine c xmin ymin xmax ymax (M ++ [a]))
    (ha : inBoth b c xmin ymin xmax ymax a = true)
    (h : ¬ ∃ u d, BridgeCrosses (M ++ [a]) b c xmin ymin xmax ymax u d) (q : Vertex α) :
    SameCycle
      (clipAgainstBoundary ((M ++ [a]).filter (fun v => inside v b xmin ymin xmax ymax))
        c xmin ymin xmax ymax)
      (keep b c xmin ymin xmax ymax q false a (M ++ [a])) := by
  apply sameCycle_clip_keep b c xmin ymin xmax ymax _ false M a ha
  refine (scanB b c xmin ymin xmax ymax (M ++ [a]) q ?_ ?_ ?_ (M ++ [a]) a ?_).1 ha
  · exact fun e he h1 h2 => fine_intersect_exit c xmin ymin xmax ymax hfc he h1 h2
  · exact fun e he h1 h2 => fine_intersect_entry c xmin ymin xmax ymax hfc he h1 h2
  · intro u d hu hd
    by_contra hne
    exact h ⟨u, d, hu, hd, hne⟩
  · intro e he; rw [cyclicPairs_concat]; exact he

theorem keep_corner_repeats (hb : IsBoundary b) (hc : IsBoundary c) {ε : α}
    (hε : ε = 1 ∨ ε = -1) (M : List (Vertex α)) (a : Vertex α)
    (hconv : ConvexWith ε (M ++ [a]))
    (hfb : Fine b xmin ymin xmax ymax (M ++ [a])) (hfc : Fine c xmin ymin xmax ymax (M ++ [a]))
    (ha : inBoth b c xmin ymin xmax ymax a = true) (u d : Vertex α)
    (h : BridgeCrosses (M ++ [a]) b c xmin ymin xmax ymax u d)
    (hn : ¬ ∃ x y, BridgeCrosses (M ++ [a]) c b xmin ymin xmax ymax x y) :
    SameCycle
      (keep b c xmin ymin xmax ymax (intersect u d c xmin ymin xmax ymax) true a (M ++ [a]))
      (keep b c xmin ymin xmax ymax (intersect u d c xmin ymin xmax ymax) false a (M ++ [a])) := by
  apply sameCycle_keep_keep b c xmin ymin xmax ymax _ M a ha
  have q1 := corner_bdist_left b c xmin ymin xmax ymax hfb h
  have q2 := corner_bdist_right b c xmin ymin xmax ymax h
  have hqb : inside (intersect u d c xmin ymin xmax ymax) b xmin ymin xmax ymax = true := by
    rw [inside_iff_bdist, q1]
  have hNB : ∀ x y, ExitAt (M ++ [a]) b xmin ymin xmax ymax x →
      EntryAt (M ++ [a]) b xmin ymin xmax ymax y →
      inBoth b c xmin ymin xmax ymax x = true → inBoth b c xmin ymin xmax ymax y = true →
      False := by
    intro x y hx hy hxD hyD
    have e1 := exitAt_unique b xmin ymin xmax ymax hb hε hconv hfb hx h.1
    have e2 := entryAt_unique b xmin ymin xmax ymax hb hε hconv hfb hy h.2.1
    subst e1; subst e2
    apply h.2.2
    rw [((inBoth_true b c xmin ymin xmax ymax).mp hxD).2,
      ((inBoth_true b c xmin ymin xmax ymax).mp hyD).2]
  have hchain : ∀ e ∈ pairsFrom a (M ++ [a]), e ∈ cyclicPairs (M ++ [a]) := by
    intro e he; rw [cyclicPairs_concat]; exact he
  by_cases hex : ∃ x, ExitAt (M ++ [a]) c xmin ymin xmax ymax x
  · obtain ⟨x, hx⟩ := hex
    by_cases hen : ∃ y, EntryAt (M ++ [a]) c xmin ymin xmax ymax y
    · obtain ⟨y, hy⟩ := hen
      have hsame : inside x b xmin ymin xmax ymax = inside y b xmin ymin xmax ymax := by
        by_contra hne
        exact hn ⟨x, y, hx, hy, hne⟩
      cases hxb : inside x b xmin ymin xmax ymax
      · exfalso
        have hyb : inside y b xmin ymin xmax ymax = false := by rw [← hsame]; exact hxb
        obtain ⟨τ, t0, t1, ht⟩ := on_line_between c xmin ymin xmax ymax hc hε hconv hfc hx hy
          (corner_mem_hull b c xmin ymin xmax ymax h) q2
        rw [inside_false_iff_bdist] at hxb hyb
        rw [ht, bdist_lerp] at q1
        nlinarith [mul_nonneg t0 (neg_pos.mpr hyb).le,
          mul_nonneg (sub_nonneg.mpr t1) (neg_pos.mpr hxb).le]
      · have hyb : inside y b xmin ymin xmax ymax = true := by rw [← hsame]; exact hxb
        rcases corner_is_end b c xmin ymin xmax ymax hb hc hε hconv hfb hfc h hx hy hxb hyb
          with hq | hq
        · refine (scanC_exit b c xmin ymin xmax ymax (M ++ [a]) _ hqb hNB ?_ (M ++ [a]) a
            hchain).1 ha
          intro x' hx'
          rw [hq]
          exact exitAt_unique c xmin ymin xmax ymax hc hε hconv hfc hx' hx
        · refine (scanC_entry b c xmin ymin xmax ymax (M ++ [a]) _ hqb hNB ?_ (M ++ [a]) a
            hchain).1 ha
          intro y' hy'
          rw [hq]
          exact entryAt_unique c xmin ymin xmax ymax hc hε hconv hfc hy' hy
    · refine (scanC_entry b c xmin ymin xmax ymax (M ++ [a]) _ hqb hNB ?_ (M ++ [a]) a
        hchain).1 ha
      intro y' hy'
      exact (hen ⟨y', hy'⟩).elim
  · refine (scanC_exit b c xmin ymin xmax ymax (M ++ [a]) _ hqb hNB ?_ (M ++ [a]) a
      hchain).1 ha
    intro x' hx'
    exact (hex ⟨x', hx'⟩).elim

end Core

section Commute

variable (b c : Int) (xmin ymin xmax ymax : α)

theorem SameCycle.flip {A B : List (Vertex α)} (h : SameCycle A B) : SameCycle B A :=
  CycRel.symm h

theorem SameCycle.andThen {A B C : List (Vertex α)} (h1 : SameCycle A B) (h2 : SameCycle B C) :
    SameCycle A C :=
  CycRel.trans h1 h2

/-- On a closed walk without strict crossings that ends with a vertex inside
both boundaries, the two orders of the two passes agree. -/
theorem comm_filter (hb : IsBoundary b) (hc : IsBoundary c) {ε : α}
    (hε : ε = 1 ∨ ε = -1) (M : List (Vertex α)) (a : Vertex α)
    (hconv : ConvexWith ε (M ++ [a]))
    (hfb : Fine b xmin ymin xmax ymax (M ++ [a])) (hfc : Fine c xmin ymin xmax ymax (M ++ [a]))
    (ha : inBoth b c xmin ymin xmax ymax a = true) :
    SameCycle
      (clipAgainstBoundary ((M ++ [a]).filter (fun v => inside v b xmin ymin xmax ymax))
        c xmin ymin xmax ymax)
      (clipAgainstBoundary ((M ++ [a]).filter (fun v => inside v c xmin ymin xmax ymax))
        b xmin ymin xmax ymax) := by
  have ha' : inBoth c b xmin ymin xmax ymax a = true := by
    rw [← inBoth_comm]; exact ha
  by_cases s1 : ∃ u d, BridgeCrosses (M ++ [a]) b c xmin ymin xmax ymax u d
  · obtain ⟨u, d, h1⟩ := s1
    have k1 := clip_filter_crossing b c xmin ymin xmax ymax hb hc hε M a hconv hfb hfc ha u d h1
    by_cases s2 : ∃ x y, BridgeCrosses (M ++ [a]) c b xmin ymin xmax ymax x y
    · obtain ⟨x, y, h2⟩ := s2
      have k2 := clip_filter_crossing c b xmin ymin xmax ymax hc hb hε M a hconv hfc hfb ha'
        x y h2
      have hq : intersect x y b xmin ymin xmax ymax = intersect u d c xmin ymin xmax ymax :=
        eq_corner b c xmin ymin xmax ymax hb hc hfb h1 _
          (corner_bdist_right c b xmin ymin xmax ymax h2)
          (corner_bdist_left c b xmin ymin xmax ymax hfc h2)
      rw [hq, ← keep_comm] at k2
      exact k1.andThen k2.flip
    · have k2 := clip_filter_no_crossing c b xmin ymin xmax ymax M a hfb ha' s2
        (intersect u d c xmin ymin xmax ymax)
      rw [← keep_comm] at k2
      have k3 := keep_corner_repeats b c xmin ymin xmax ymax hb hc hε M a hconv hfb hfc ha
        u d h1 s2
      exact k1.andThen (k3.andThen k2.flip)
  · by_cases s2 : ∃ x y, BridgeCrosses (M ++ [a]) c b xmin ymin xmax ymax x y
    · obtain ⟨x, y, h2⟩ := s2
      have k2 := clip_filter_crossing c b xmin ymin xmax ymax hc hb hε M a hconv hfc hfb ha'
        x y h2
      have k1 := clip_filter_no_crossing b c xmin ymin xmax ymax M a hfc ha s1
        (intersect x y b xmin ymin xmax ymax)
      have k3 := keep_corner_repeats c b xmin ymin xmax ymax hc hb hε M a hconv hfc hfb ha'
        x y h2 s1
      rw [← keep_comm] at k2 k3
      rw [← keep_comm b c] at k3
      exact k1.andThen (k3.flip.andThen k2.flip)
    · have k1 := clip_filter_no_crossing b c xmin ymin xmax ymax M a hfc ha s1 a
      have k2 := clip_filter_no_crossing c b xmin ymin xmax ymax M a hfb ha' s2 a
      rw [← keep_comm] at k2
      exact k1.andThen k2.flip

end Commute

section Rotate

variable (b c : Int) (xmin ymin xmax ymax : α)

theorem cyclicPairs_append (c1 : Vertex α) (r1 : List (Vertex α)) (c2 : Vertex α)
    (r2 : List (Vertex α)) :
    cyclicPairs ((c1 :: r1) ++ (c2 :: r2))
      = pairsFrom (lastFrom c2 r2) (c1 :: r1) ++ pairsFrom (lastFrom c1 r1) (c2 :: r2) := by
  have h : ((c1 :: r1) ++ (c2 :: r2)).getLast? = some (lastFrom c2 r2) := by
    rw [List.cons_append, getLast?_eq_lastFrom, lastFrom_append]
    rfl
  rw [cyclicPairs_eq_pairsFrom h, pairsFrom_append]
  rfl

theorem mem_cyclicPairs_rot (l1 l2 : List (Vertex α)) (e : Vertex α × Vertex α) :
    e ∈ cyclicPairs (l1 ++ l2) ↔ e ∈ cyclicPairs (l2 ++ l1) := by
  cases l1 with
  | nil => simp
  | cons c1 r1 =>
    cases l2 with
    | nil => simp
    | cons c2 r2 =>
      rw [cyclicPairs_append, cyclicPairs_append, List.mem_append, List.mem_append]
      exact Or.comm

theorem fine_rot (l1 l2 : List (Vertex α)) (h : Fine b xmin ymin xmax ymax (l1 ++ l2)) :
    Fine b xmin ymin xmax ymax (l2 ++ l1) :=
  fun e he => h e ((mem_cyclicPairs_rot l2 l1 e).mp he)

theorem convexWith_rot {ε : α} (l1 l2 : List (Vertex α)) (h : ConvexWith ε (l1 ++ l2)) :
    ConvexWith ε (l2 ++ l1) := by
  intro e he w hw
  apply h e ((mem_cyclicPairs_rot l2 l1 e).mp he) w
  rw [List.mem_append] at hw ⊢
  exact hw.symm

theorem run_all_outside (l : List (Vertex α)) : ∀ p : Vertex α,
    inside p b xmin ymin xmax ymax = false →
    (∀ v ∈ l, inside v b xmin ymin xmax ymax = false) →
    run b xmin ymin xmax ymax p l = [] := by
  induction l with
  | nil => intro p _ _; rfl
  | cons d rest ih =>
    intro p hp hl
    have hd := hl d (by simp)
    rw [run_cons, emit_ff b xmin ymin xmax ymax p d hp hd, List.nil_append]
    exact ih d hd (fun v hv => hl v (List.mem_cons_of_mem _ hv))

theorem clip_all_outside (A : List (Vertex α))
    (h : ∀ v ∈ A, inside v b xmin ymin xmax ymax = false) :
    clipAgainstBoundary A b xmin ymin xmax ymax = [] := by
  rcases List.eq_nil_or_concat A with h0 | ⟨M, a, h0⟩
  · subst h0; rfl
  · rw [List.concat_eq_append] at h0
    subst h0
    rw [clip_eq_run b xmin ymin xmax ymax _ a, lastFrom_concat]
    exact run_all_outside b xmin ymin xmax ymax _ a (h a (by simp)) h

end Rotate

section CommuteAll

variable (b c : Int) (xmin ymin xmax ymax : α)

theorem clip_clip_fine (N : List (Vertex α)) (hfb : Fine b xmin ymin xmax ymax N) :
    SameCycle
      (clipAgainstBoundary (clipAgainstBoundary N b xmin ymin xmax ymax) c xmin ymin xmax ymax)
      (clipAgainstBoundary (N.filter (fun v => inside v b xmin ymin xmax ymax))
        c xmin ymin xmax ymax) :=
  clip_sameCycle c xmin ymin xmax ymax (clip_fine b xmin ymin xmax ymax N hfb)

theorem clip_filter_nil (N : List (Vertex α))
    (h : ∀ v ∈ N, inBoth b c xmin ymin xmax ymax v = false) :
    clipAgainstBoundary (N.filter (fun v => inside v b xmin ymin xmax ymax))
      c xmin ymin xmax ymax = [] := by
  apply clip_all_outside
  intro v hv
  rw [List.mem_filter] at hv
  exact inside_of_not_inBoth b c xmin ymin xmax ymax (h v hv.1) (by simpa using hv.2)

/-- On a convex closed walk without strict crossings, the two orders of the two
passes agree. -/
theorem comm_fine (hb : IsBoundary b) (hc : IsBoundary c) {ε : α}
    (hε : ε = 1 ∨ ε = -1) (N : List (Vertex α)) (hconv : ConvexWith ε N)
    (hfb : Fine b xmin ymin xmax ymax N) (hfc : Fine c xmin ymin xmax ymax N) :
    SameCycle
      (clipAgainstBoundary (clipAgainstBoundary N b xmin ymin xmax ymax) c xmin ymin xmax ymax)
      (clipAgainstBoundary (clipAgainstBoundary N c xmin ymin xmax ymax) b xmin ymin xmax ymax) := by
  by_cases hD : ∃ d0 ∈ N, inBoth b c xmin ymin xmax ymax d0 = true
  · obtain ⟨d0, hd0, hin⟩ := hD
    obtain ⟨l1, l2, rfl⟩ := List.append_of_mem hd0
    have r1 : SameCycle (l1 ++ d0 :: l2) ((l2 ++ l1) ++ [d0]) := by
      have h1 := cycRel_rot (NoCut) l1 (d0 :: l2)
      have h2 := cycRel_rot (NoCut) [d0] (l2 ++ l1)
      simp only [List.cons_append, List.nil_append, List.singleton_append,
        List.append_assoc] at h1 h2 ⊢
      exact CycRel.trans h1 h2
    have hconv' : ConvexWith ε ((l2 ++ l1) ++ [d0]) := by
      have h1 := convexWith_rot l1 (d0 :: l2) hconv
      have h2 := convexWith_rot [d0] (l2 ++ l1) (by simpa using h1)
      exact h2
    have hfb' : Fine b xmin ymin xmax ymax ((l2 ++ l1) ++ [d0]) := by
      have h1 := fine_rot b xmin ymin xmax ymax l1 (d0 :: l2) hfb
      exact fine_rot b xmin ymin xmax ymax [d0] (l2 ++ l1) (by simpa using h1)
    have hfc' : Fine c xmin ymin xmax ymax ((l2 ++ l1) ++ [d0]) := by
      have h1 := fine_rot c xmin ymin xmax ymax l1 (d0 :: l2) hfc
      exact fine_rot c xmin ymin xmax ymax [d0] (l2 ++ l1) (by simpa using h1)
    have k1 := clip_sameCycle c xmin ymin xmax ymax (clip_sameCycle b xmin ymin xmax ymax r1)
    have k2 := clip_sameCycle b xmin ymin xmax ymax (clip_sameCycle c xmin ymin xmax ymax r1)
    have k3 := clip_clip_fine b c xmin ymin xmax ymax _ hfb'
    have k4 := clip_clip_fine c b xmin ymin xmax ymax _ hfc'
    have k5 := comm_filter b c xmin ymin xmax ymax hb hc hε (l2 ++ l1) d0 hconv' hfb' hfc' hin
    exact k1.andThen (k3.andThen (k5.andThen (k4.flip.andThen k2.flip)))
  · push_neg at hD
    have hD' : ∀ v ∈ N, inBoth b c xmin ymin xmax ymax v = false := by
      intro v hv
      have := hD v hv
      cases h : inBoth b c xmin ymin xmax ymax v
      · rfl
      · exact absurd h this
    have hD'' : ∀ v ∈ N, inBoth c b xmin ymin xmax ymax v = false := by
      intro v hv; rw [← inBoth_comm]; exact hD' v hv
    have k3 := clip_clip_fine b c xmin ymin xmax ymax N hfb
    have k4 := clip_clip_fine c b xmin ymin xmax ymax N hfc
    rw [clip_filter_nil b c xmin ymin xmax ymax N hD'] at k3
    rw [clip_filter_nil c b xmin ymin xmax ymax N hD''] at k4
    exact k3.andThen k4.flip

/-- On a convex polygon, the two orders of two passes return the same closed
walk, up to rotation and repetition of vertices. -/
theorem comm_convex (hb : IsBoundary b) (hc : IsBoundary c) {ε : α}
    (hε : ε = 1 ∨ ε = -1) (P : List (Vertex α)) (hconv : ConvexWith ε P) :
    SameCycle
      (clipAgainstBoundary (clipAgainstBoundary P b xmin ymin xmax ymax) c xmin ymin xmax ymax)
      (clipAgainstBoundary (clipAgainstBoundary P c xmin ymin xmax ymax) b xmin ymin xmax ymax) := by
  have r : CycRel (fun u x v => CutAt b xmin ymin xmax ymax u x v
      ∨ CutAt c xmin ymin xmax ymax u x v) P
      (subdivide (subdivide P b xmin ymin xmax ymax) c xmin ymin xmax ymax) :=
    CycRel.trans
      (cycRel_subdivide b xmin ymin xmax ymax _ (fun _ _ _ h => Or.inl h) P)
      (cycRel_subdivide c xmin ymin xmax ymax _ (fun _ _ _ h => Or.inr h) _)
  have r' : CycRel (fun u x v => CutAt c xmin ymin xmax ymax u x v
      ∨ CutAt b xmin ymin xmax ymax u x v) P
      (subdivide (subdivide P b xmin ymin xmax ymax) c xmin ymin xmax ymax) :=
    cycRel_mono (fun _ _ _ h => h.symm) r
  have k1 := clip_clip_cut2 b c xmin ymin xmax ymax r
  have k2 := clip_clip_cut2 c b xmin ymin xmax ymax r'
  have hfc := fine_subdivide c xmin ymin xmax ymax (subdivide P b xmin ymin xmax ymax)
  have hfb := fine_subdivide_of_fine c b xmin ymin xmax ymax _
    (fine_subdivide b xmin ymin xmax ymax P)
  have hcv := convexWith_subdivide c xmin ymin xmax ymax _
    (convexWith_subdivide b xmin ymin xmax ymax P hconv)
  have k3 := comm_fine b c xmin ymin xmax ymax hb hc hε _ hcv hfb hfc
  exact k1.andThen (k3.andThen k2.flip)

end CommuteAll

section Orders

variable (xmin ymin xmax ymax : α)

theorem clipSeq_sameCycle (s : List Int) : ∀ {A B : List (Vertex α)}, SameCycle A B →
    SameCycle (clipSeq s A xmin ymin xmax ymax) (clipSeq s B xmin ymin xmax ymax) := by
  induction s with
  | nil => intro A B h; exact h
  | cons c rest ih =>
    intro A B h
    rw [clipSeq_cons, clipSeq_cons]
    exact ih (clip_sameCycle c xmin ymin xmax ymax h)

/-- On a convex polygon, two orders of the same passes return the same closed
walk, up to rotation and repetition of vertices. -/
theorem clipSeq_perm {ε : α} (hε : ε = 1 ∨ ε = -1) {s s' : List Int} (h : List.Perm s s') :
    (∀ c ∈ s, IsBoundary c) → ∀ P : List (Vertex α), ConvexWith ε P →
    SameCycle (clipSeq s P xmin ymin xmax ymax) (clipSeq s' P xmin ymin xmax ymax) := by
  induction h with
  | nil => intro _ P _; exact CycRel.refl _
  | cons x _ ih =>
    intro hs P hP
    rw [clipSeq_cons, clipSeq_cons]
    exact ih (fun c hc => hs c (List.mem_cons_of_mem _ hc)) _
      (convexWith_clipAgainstBoundary x xmin ymin xmax ymax (hs x (by simp)) hε hP)
  | swap x y l =>
    intro hs P hP
    rw [clipSeq_cons, clipSeq_cons, clipSeq_cons, clipSeq_cons]
    exact clipSeq_sameCycle xmin ymin xmax ymax l
      (comm_convex y x xmin ymin xmax ymax (hs y (by simp)) (hs x (by simp)) hε P hP)
  | trans h1 _ ih1 ih2 =>
    intro hs P hP
    exact (ih1 hs P hP).andThen (ih2 (fun c hc => hs c (h1.mem_iff.mpr hc)) P hP)

end Orders

section Collapse

theorem dropRepeats_append (l1 l2 : List (Vertex α)) : ∀ p : Vertex α,
    dropRepeats p (l1 ++ l2) = dropRepeats p l1 ++ dropRepeats (lastFrom p l1) l2 := by
  induction l1 with
  | nil => intro p; rfl
  | cons d rest ih =>
    intro p
    show _ ++ dropRepeats d (rest ++ l2) = _
    rw [ih d]
    simp only [dropRepeats, lastFrom_cons, List.append_assoc]

theorem dropRepeats_eq_nil (l : List (Vertex α)) : ∀ p : Vertex α,
    dropRepeats p l = [] → ∀ v ∈ l, v = p := by
  induction l with
  | nil => intro p _ v hv; simp at hv
  | cons d rest ih =>
    intro p h v hv
    simp only [dropRepeats, List.append_eq_nil] at h
    have hd : d = p := by
      by_contra hne
      rw [if_neg hne] at h
      exact absurd h.1 (by simp)
    rcases List.mem_cons.mp hv with h1 | h1
    · rw [h1, hd]
    · rw [← hd]; exact ih d h.2 v h1

theorem collapse_cons (c : Vertex α) (r : List (Vertex α)) :
    collapse (c :: r)
      = if dropRepeats (lastFrom c r) (c :: r) = [] then [lastFrom c r]
        else dropRepeats (lastFrom c r) (c :: r) := by
  unfold collapse
  rw [getLast?_eq_lastFrom]

theorem lastFrom_mem (c : Vertex α) (r : List (Vertex α)) : lastFrom c r ∈ c :: r := by
  induction r generalizing c with
  | nil => simp [lastFrom]
  | cons d rest ih =>
    rw [lastFrom_cons]
    exact List.mem_cons_of_mem _ (ih d)

theorem collapse_rot (l1 l2 : List (Vertex α)) :
    List.IsRotated (collapse (l1 ++ l2)) (collapse (l2 ++ l1)) := by
  cases l1 with
  | nil => simp only [List.nil_append, List.append_nil]; exact List.IsRotated.refl _
  | cons c1 r1 =>
    cases l2 with
    | nil => simp only [List.nil_append, List.append_nil]; exact List.IsRotated.refl _
    | cons c2 r2 =>
      have e1 : collapse ((c1 :: r1) ++ (c2 :: r2))
          = if dropRepeats (lastFrom c2 r2) (c1 :: r1)
                ++ dropRepeats (lastFrom c1 r1) (c2 :: r2) = [] then [lastFrom c2 r2]
            else dropRepeats (lastFrom c2 r2) (c1 :: r1)
                ++ dropRepeats (lastFrom c1 r1) (c2 :: r2) := by
        rw [List.cons_append, collapse_cons, lastFrom_append, ← List.cons_append,
          dropRepeats_append]
        rfl
      have e2 : collapse ((c2 :: r2) ++ (c1 :: r1))
          = if dropRepeats (lastFrom c1 r1) (c2 :: r2)
                ++ dropRepeats (lastFrom c2 r2) (c1 :: r1) = [] then [lastFrom c1 r1]
            else dropRepeats (lastFrom c1 r1) (c2 :: r2)
                ++ dropRepeats (lastFrom c2 r2) (c1 :: r1) := by
        rw [List.cons_append, collapse_cons, lastFrom_append, ← List.cons_append,
          dropRepeats_append]
        rfl
      rw [e1, e2]
      by_cases h : dropRepeats (lastFrom c2 r2) (c1 :: r1)
          ++ dropRepeats (lastFrom c1 r1) (c2 :: r2) = []
      · have h' : dropRepeats (lastFrom c1 r1) (c2 :: r2)
            ++ dropRepeats (lastFrom c2 r2) (c1 :: r1) = [] := by
          rw [List.append_eq_nil] at h ⊢
          exact ⟨h.2, h.1⟩
        rw [if_pos h, if_pos h']
        rw [List.append_eq_nil] at h
        have := dropRepeats_eq_nil _ _ h.1 (lastFrom c1 r1) (lastFrom_mem c1 r1)
        rw [this]
      · have h' : ¬ dropRepeats (lastFrom c1 r1) (c2 :: r2)
            ++ dropRepeats (lastFrom c2 r2) (c1 :: r1) = [] := by
          intro h0
          apply h
          rw [List.append_eq_nil] at h0 ⊢
          exact ⟨h0.2, h0.1⟩
        rw [if_neg h, if_neg h']
        exact List.isRotated_append

theorem collapse_dup (l1 l2 : List (Vertex α)) (x : Vertex α) :
    collapse (l1 ++ x :: l2) = collapse (l1 ++ x :: x :: l2) := by
  have hl : (l1 ++ x :: l2).getLast? = (l1 ++ x :: x :: l2).getLast? := by
    rw [List.getLast?_append_of_ne_nil _ (List.cons_ne_nil _ _),
      List.getLast?_append_of_ne_nil _ (List.cons_ne_nil _ _), List.getLast?_cons_cons]
  have hd : ∀ z, dropRepeats z (l1 ++ x :: l2) = dropRepeats z (l1 ++ x :: x :: l2) := by
    intro z
    rw [dropRepeats_append, dropRepeats_append]
    simp [dropRepeats]
  unfold collapse
  rw [hl]
  cases (l1 ++ x :: x :: l2).getLast? with
  | none => rfl
  | some z => simp only [hd z]

/-- Lists that are equal up to rotation and repetition collapse to rotations of
each other. -/
theorem sameCycle_collapse {A B : List (Vertex α)} (h : SameCycle A B) :
    List.IsRotated (collapse A) (collapse B) := by
  induction h with
  | refl l => exact List.IsRotated.refl _
  | symm _ ih => exact ih.symm
  | trans _ _ ih1 ih2 => exact ih1.trans ih2
  | rot l1 l2 => exact collapse_rot l1 l2
  | dup l1 l2 x => rw [collapse_dup]
  | cut l1 l2 u x v hk => exact hk.elim

end Collapse

/-! ## Claims -/

/-- C2. Containment identity: when every vertex of `P` passes all four inside
tests of the rectangle, the four-pass clip returns `P` itself, the same vertices
in the same order; in particular the result is `P` up to a rotation of the start
point. -/
theorem fourPassClip_containment_identity (P : List (Vertex α)) (xmin ymin xmax ymax : α)
    (h : ∀ v ∈ P, xmin ≤ v.x ∧ v.x ≤ xmax ∧ ymin ≤ v.y ∧ v.y ≤ ymax) :
    fourPassClip P xmin ymin xmax ymax = P
    ∧ List.IsRotated (fourPassClip P xmin ymin xmax ymax) P := by
  have h1 : fourPassClip P xmin ymin xmax ymax = P := by
    apply fourPassClip_of_all_inside
    intro v hv
    obtain ⟨a, b, c, d⟩ := h v hv
    simp [insideAll, inside, a, b, c, d]
  exact ⟨h1, by rw [h1]⟩

theorem fourPassClip_containment_identity_witness :
    (∀ v ∈ ([⟨1, 1⟩, ⟨3, 1⟩, ⟨2, 3⟩] : List (Vertex ℚ)),
        (0 : ℚ) ≤ v.x ∧ v.x ≤ 4 ∧ (0 : ℚ) ≤ v.y ∧ v.y ≤ 4)
    ∧ fourPassClip ([⟨1, 1⟩, ⟨3, 1⟩, ⟨2, 3⟩] : List (Vertex ℚ)) 0 0 4 4
        = [⟨1, 1⟩, ⟨3, 1⟩, ⟨2, 3⟩] :=
  ⟨by intro v hv; simp at hv; rcases hv with h | h | h <;> subst h <;> norm_num,
   (fourPassClip_containment_identity _ 0 0 4 4
      (by intro v hv; simp at hv; rcases hv with h | h | h <;> subst h <;> norm_num)).1⟩

/-- C7. Single-pass rule: the index loop of `clipAgainstBoundary` returns the
concatenation, for `i = 0, ..., n-1` in that order, of the vertices emitted for
the pair `(input[(i-1) mod n], input[i])` by the four-case rule `emit`; it is
therefore equal to the list definition `clipSpec` that pairs each vertex with
its cyclic predecessor. -/
theorem clipAgainstBoundary_single_pass_rule (input : List (Vertex α)) (b : Int)
    (xmin ymin xmax ymax : α) :
    clipAgainstBoundary input b xmin ymin xmax ymax
      = ((List.range input.length).map (fun (i : Nat) =>
          emit (input.getD (((i : Int) - 1) % (input.length : Int)).toNat default)
            (input.getD i default) b xmin ymin xmax ymax)).flatten
    ∧ clipAgainstBoundary input b xmin ymin xmax ymax
      = clipSpec input b xmin ymin xmax ymax := by
  refine ⟨?_, clipAgainstBoundary_eq_clipSpec b xmin ymin xmax ymax input⟩
  rw [clipAgainstBoundary_eq_flatMap, List.flatMap_def]
  congr 1
  apply List.map_congr_left
  intro i hi
  have hi2 : i < input.length := List.mem_range.mp hi
  have e : (((i : Int) - 1) % (input.length : Int)).toNat = (i + input.length - 1) % input.length := by
    have h1 : ((i : Int) - 1) % (input.length : Int)
        = (((i + input.length - 1 : Nat) : Int)) % (input.length : Int) := by
      have : ((i + input.length - 1 : Nat) : Int) = ((i : Int) - 1) + (input.length : Int) := by
        omega
      rw [this, Int.add_emod_self]
    rw [h1, ← Int.natCast_mod, Int.toNat_natCast]
  rw [e]

/-- C8. Edge intersector: when exactly one of `p1`, `p2` is inside the boundary,
`intersect p1 p2` lies on the line of that boundary (`x = xmin` for Left,
`x = xmax` for Right, `y = ymin` for Bottom, `y = ymax` for Top) and on the
closed segment from `p1` to `p2`: it is `p1 + t (p2 - p1)` for some `0 ≤ t ≤ 1`. -/
theorem intersect_on_line_and_segment (p1 p2 : Vertex α) (b : Int) (xmin ymin xmax ymax : α)
    (h : (inside p1 b xmin ymin xmax ymax = true ∧ inside p2 b xmin ymin xmax ymax = false)
      ∨ (inside p1 b xmin ymin xmax ymax = false ∧ inside p2 b xmin ymin xmax ymax = true)) :
    ((b = 0 ∧ (intersect p1 p2 b xmin ymin xmax ymax).x = xmin)
      ∨ (b = 1 ∧ (intersect p1 p2 b xmin ymin xmax ymax).x = xmax)
      ∨ (b = 2 ∧ (intersect p1 p2 b xmin ymin xmax ymax).y = ymin)
      ∨ (b = 3 ∧ (intersect p1 p2 b xmin ymin xmax ymax).y = ymax))
    ∧ ∃ t : α, 0 ≤ t ∧ t ≤ 1
        ∧ (intersect p1 p2 b xmin ymin xmax ymax).x = p1.x + t * (p2.x - p1.x)
        ∧ (intersect p1 p2 b xmin ymin xmax ymax).y = p1.y + t * (p2.y - p1.y) := by
  have hne : inside p1 b xmin ymin xmax ymax ≠ inside p2 b xmin ymin xmax ymax := by
    rcases h with ⟨h1, h2⟩ | ⟨h1, h2⟩ <;> rw [h1, h2] <;> simp
  constructor
  · rcases straddle_isBoundary b xmin ymin xmax ymax p1 p2 hne with rfl | rfl | rfl | rfl
    · exact Or.inl ⟨rfl, rfl⟩
    · exact Or.inr (Or.inl ⟨rfl, rfl⟩)
    · exact Or.inr (Or.inr (Or.inl ⟨rfl, rfl⟩))
    · exact Or.inr (Or.inr (Or.inr ⟨rfl, rfl⟩))
  · obtain ⟨t0, t1⟩ := straddle_param_mem b xmin ymin xmax ymax p1 p2 hne
    refine ⟨_, t0, t1, ?_, ?_⟩ <;> rw [intersect_eq_lerp b xmin ymin xmax ymax p1 p2 hne] <;> rfl

theorem intersect_on_line_and_segment_witness :
    (inside (⟨3, 1⟩ : Vertex ℚ) 0 2 0 6 6 = true ∧ inside (⟨1, 5⟩ : Vertex ℚ) 0 2 0 6 6 = false)
    ∧ (intersect (⟨3, 1⟩ : Vertex ℚ) ⟨1, 5⟩ 0 2 0 6 6).x = 2
    ∧ ∃ t : ℚ, 0 ≤ t ∧ t ≤ 1
        ∧ (intersect (⟨3, 1⟩ : Vertex ℚ) ⟨1, 5⟩ 0 2 0 6 6).x = 3 + t * (1 - 3)
        ∧ (intersect (⟨3, 1⟩ : Vertex ℚ) ⟨1, 5⟩ 0 2 0 6 6).y = 1 + t * (5 - 1) :=
  ⟨by norm_num [inside], by norm_num [intersect],
   (intersect_on_line_and_segment (⟨3, 1⟩ : Vertex ℚ) ⟨1, 5⟩ 0 2 0 6 6
      (Or.inl (by norm_num [inside]))).2⟩

/-- C9. Normaliser: for a polygon `P` handed over as its flat array and a
viewport with positive width and height, `SutherlandHodgeman` returns a sequence
with exactly twice as many elements as the four-pass clip of `P` has vertices,
and its elements `2k` and `2k+1` are `2*x_k/width - 1` and `2*y_k/height - 1`
for the `k`-th vertex `(x_k, y_k)` of the clip. -/
theorem SutherlandHodgeman_normalises (P : List (Vertex α)) (xmin ymin xmax ymax : α)
    (width height : Int) (hw : 0 < width) (hh : 0 < height) :
    ∃ out : List α,
      SutherlandHodgeman (flatten P) xmin ymin xmax ymax width height = some out
      ∧ (width : α) ≠ 0 ∧ (height : α) ≠ 0
      ∧ out.length = 2 * (fourPassClip P xmin ymin xmax ymax).length
      ∧ ∀ (k : Nat) (v : Vertex α), (fourPassClip P xmin ymin xmax ymax)[k]? = some v →
          out[2 * k]? = some (2 * v.x / (width : α) - 1)
          ∧ out[2 * k + 1]? = some (2 * v.y / (height : α) - 1) := by
  refine ⟨_, SutherlandHodgeman_flatten P xmin ymin xmax ymax width height, ?_, ?_,
    length_toNDC _ _ _, ?_⟩
  · exact_mod_cast hw.ne'
  · exact_mod_cast hh.ne'
  · intro k v hk
    exact toNDC_getElem? width height _ k v hk

theorem SutherlandHodgeman_normalises_witness :
    ∃ out : List ℚ,
      SutherlandHodgeman (flatten diamond) 200 150 600 450 800 600 = some out
      ∧ ((800 : Int) : ℚ) ≠ 0 ∧ ((600 : Int) : ℚ) ≠ 0
      ∧ out.length = 2 * (fourPassClip diamond 200 150 600 450).length
      ∧ ∀ (k : Nat) (v : Vertex ℚ), (fourPassClip diamond 200 150 600 450)[k]? = some v →
          out[2 * k]? = some (2 * v.x / ((800 : Int) : ℚ) - 1)
          ∧ out[2 * k + 1]? = some (2 * v.y / ((600 : Int) : ℚ) - 1) :=
  SutherlandHodgeman_normalises diamond 200 150 600 450 800 600 (by decide) (by decide)

/-- C3. Idempotence: for every vertex list and every rectangle, clipping the
result of the four-pass clip again leaves it unchanged, as a vertex sequence. -/
theorem fourPassClip_idempotent (P : List (Vertex α)) (xmin ymin xmax ymax : α) :
    fourPassClip (fourPassClip P xmin ymin xmax ymax) xmin ymin xmax ymax
      = fourPassClip P xmin ymin xmax ymax :=
  fourPassClip_of_all_inside xmin ymin xmax ymax _
    (insideAll_of_mem_fourPassClip xmin ymin xmax ymax P)

/-- C10. Normalised range: for a viewport of positive width and height and a
rectangle lying inside it, `SutherlandHodgeman` returns a sequence for every
polygon handed over as its flat array, every number of any returned sequence
lies in `[-1, 1]`, and the four corners of the rectangle are returned
normalised by the formula `2*x/width - 1`, `2*y/height - 1`, inside the
`[-1, 1]` square. -/
theorem SutherlandHodgeman_range (xmin ymin xmax ymax : α) (width height : Int)
    (hw : 0 < width) (hh : 0 < height)
    (hx0 : 0 ≤ xmin) (hx : xmin ≤ xmax) (hx1 : xmax ≤ (width : α))
    (hy0 : 0 ≤ ymin) (hy : ymin ≤ ymax) (hy1 : ymax ≤ (height : α)) :
    (∀ P : List (Vertex α), ∃ out,
        SutherlandHodgeman (flatten P) xmin ymin xmax ymax width height = some out)
    ∧ (∀ (polygon out : List α),
        SutherlandHodgeman polygon xmin ymin xmax ymax width height = some out →
        ∀ z ∈ out, -1 ≤ z ∧ z ≤ 1)
    ∧ SutherlandHodgeman
        (flatten [⟨xmin, ymin⟩, ⟨xmax, ymin⟩, ⟨xmax, ymax⟩, ⟨xmin, ymax⟩])
        xmin ymin xmax ymax width height
      = some [2 * xmin / (width : α) - 1, 2 * ymin / (height : α) - 1,
              2 * xmax / (width : α) - 1, 2 * ymin / (height : α) - 1,
              2 * xmax / (width : α) - 1, 2 * ymax / (height : α) - 1,
              2 * xmin / (width : α) - 1, 2 * ymax / (height : α) - 1] := by
  have hw' : (0 : α) < (width : α) := by exact_mod_cast hw
  have hh' : (0 : α) < (height : α) := by exact_mod_cast hh
  refine ⟨fun P => ⟨_, SutherlandHodgeman_flatten P xmin ymin xmax ymax width height⟩, ?_, ?_⟩
  · intro polygon out hout z hz
    unfold SutherlandHodgeman at hout
    rw [Option.map_eq_some'] at hout
    obtain ⟨P, _, rfl⟩ := hout
    obtain ⟨v, hv, hd⟩ := mem_toNDC width height _ z hz
    have hin := insideAll_of_mem_fourPassClip xmin ymin xmax ymax P v hv
    rw [insideAll_iff] at hin
    obtain ⟨a, b, c, d⟩ := hin
    rcases hd with rfl | rfl
    · unfold ndcX
      constructor
      · have : 0 ≤ 2 * v.x / (width : α) := div_nonneg (by linarith) hw'.le
        linarith
      · have : 2 * v.x / (width : α) ≤ 2 := by rw [div_le_iff₀ hw']; linarith
        linarith
    · unfold ndcY
      constructor
      · have : 0 ≤ 2 * v.y / (height : α) := div_nonneg (by linarith) hh'.le
        linarith
      · have : 2 * v.y / (height : α) ≤ 2 := by rw [div_le_iff₀ hh']; linarith
        linarith
  · rw [SutherlandHodgeman_flatten, fourPassClip_of_all_inside]
    · rfl
    · intro v hv
      rw [insideAll_iff]
      simp only [List.mem_cons, List.mem_singleton, List.not_mem_nil, or_false] at hv
      rcases hv with h | h | h | h <;> subst h <;> simp [hx, hy]

theorem SutherlandHodgeman_range_witness :
    (∀ P : List (Vertex ℚ), ∃ out,
        SutherlandHodgeman (flatten P) 200 150 600 450 800 600 = some out)
    ∧ (∀ (polygon out : List ℚ),
        SutherlandHodgeman polygon 200 150 600 450 800 600 = some out →
        ∀ z ∈ out, -1 ≤ z ∧ z ≤ 1)
    ∧ SutherlandHodgeman
        (flatten ([⟨200, 150⟩, ⟨600, 150⟩, ⟨600, 450⟩, ⟨200, 450⟩] : List (Vertex ℚ)))
        200 150 600 450 800 600
      = some [2 * 200 / ((800 : Int) : ℚ) - 1, 2 * 150 / ((600 : Int) : ℚ) - 1,
              2 * 600 / ((800 : Int) : ℚ) - 1, 2 * 150 / ((600 : Int) : ℚ) - 1,
              2 * 600 / ((800 : Int) : ℚ) - 1, 2 * 450 / ((600 : Int) : ℚ) - 1,
              2 * 200 / ((800 : Int) : ℚ) - 1, 2 * 450 / ((600 : Int) : ℚ) - 1] :=
  SutherlandHodgeman_range (200 : ℚ) 150 600 450 800 600 (by decide) (by decide)
    (by norm_num) (by norm_num) (by norm_num) (by norm_num) (by norm_num) (by norm_num)

/-- C4, as stated, fails. The chevron `(3,6), (0,3), (3,0), (1,3)` has no vertex
in the rectangle `(2,2)-(4,4)` and none of its four edges contains a point of
it, yet its four-pass clip is a non-empty sliver on the line `x = 2`; likewise
the square `(0,0), (6,0), (6,6), (0,6)` around the rectangle has no vertex in it
and no edge meeting it, and its clip is the rectangle. -/
theorem total_exclusion_counterexample :
    ((∀ v ∈ ([⟨3, 6⟩, ⟨0, 3⟩, ⟨3, 0⟩, ⟨1, 3⟩] : List (Vertex ℚ)), ¬ insideAll v 2 2 4 4)
      ∧ (∀ e ∈ cyclicPairs ([⟨3, 6⟩, ⟨0, 3⟩, ⟨3, 0⟩, ⟨1, 3⟩] : List (Vertex ℚ)),
          ∀ t : ℚ, 0 ≤ t → t ≤ 1 → ¬ insideAll (lerp e.1 e.2 t) 2 2 4 4)
      ∧ fourPassClip ([⟨3, 6⟩, ⟨0, 3⟩, ⟨3, 0⟩, ⟨1, 3⟩] : List (Vertex ℚ)) 2 2 4 4
          = [⟨2, 2⟩, ⟨2, 4⟩, ⟨2, 4⟩, ⟨2, 2⟩])
    ∧ ((∀ v ∈ ([⟨0, 0⟩, ⟨6, 0⟩, ⟨6, 6⟩, ⟨0, 6⟩] : List (Vertex ℚ)), ¬ insideAll v 2 2 4 4)
      ∧ (∀ e ∈ cyclicPairs ([⟨0, 0⟩, ⟨6, 0⟩, ⟨6, 6⟩, ⟨0, 6⟩] : List (Vertex ℚ)),
          ∀ t : ℚ, 0 ≤ t → t ≤ 1 → ¬ insideAll (lerp e.1 e.2 t) 2 2 4 4)
      ∧ fourPassClip ([⟨0, 0⟩, ⟨6, 0⟩, ⟨6, 6⟩, ⟨0, 6⟩] : List (Vertex ℚ)) 2 2 4 4
          = [⟨2, 4⟩, ⟨2, 2⟩, ⟨4, 2⟩, ⟨4, 4⟩]) := by
  refine ⟨⟨?_, ?_, ?_⟩, ⟨?_, ?_, ?_⟩⟩
  · intro v hv
    simp only [List.mem_cons, List.mem_singleton, List.not_mem_nil, or_false] at hv
    rcases hv with h | h | h | h <;> subst h <;> norm_num [insideAll_iff]
  · intro e he t t0 t1
    simp only [cyclicPairs, pairsFrom, List.getLast?, List.getLast, List.mem_cons,
      List.not_mem_nil, or_false] at he
    rw [insideAll_iff]
    rcases he with h | h | h | h <;> subst h <;> simp only [lerp] <;> intro ⟨a, b, c, d⟩ <;>
      linarith
  · simp only [fourPassClip, clipSeq, List.foldl_cons, List.foldl_nil,
      clipAgainstBoundary_eq_clipSpec]
    norm_num [clipSpec, cyclicPairs, pairsFrom, emitAll, emit, inside, intersect]
  · intro v hv
    simp only [List.mem_cons, List.mem_singleton, List.not_mem_nil, or_false] at hv
    rcases hv with h | h | h | h <;> subst h <;> norm_num [insideAll_iff]
  · intro e he t t0 t1
    simp only [cyclicPairs, pairsFrom, List.getLast?, List.getLast, List.mem_cons,
      List.not_mem_nil, or_false] at he
    rw [insideAll_iff]
    rcases he with h | h | h | h <;> subst h <;> simp only [lerp] <;> intro ⟨a, b, c, d⟩ <;>
      linarith
  · simp only [fourPassClip, clipSeq, List.foldl_cons, List.foldl_nil,
      clipAgainstBoundary_eq_clipSpec]
    norm_num [clipSpec, cyclicPairs, pairsFrom, emitAll, emit, inside, intersect]

/-- C4, amended. Total exclusion, over exact coordinates (the coordinates
range over an ordered field such as the reals, and `intersect` divides
exactly): when no point of the convex hull of the vertices of `P` passes all
four inside tests of the rectangle, the four-pass clip of `P` is the empty
sequence. The binary32 quotients of the program are not modelled here; with
them a hull that misses the rectangle by less than the rounding error can
leave vertices. -/
theorem fourPassClip_total_exclusion (P : List (Vertex α)) (xmin ymin xmax ymax : α)
    (h : ∀ q : Vertex α, toPoint q ∈ convexHull α (pointSet P) →
      ¬ insideAll q xmin ymin xmax ymax) :
    fourPassClip P xmin ymin xmax ymax = [] :=
  fourPassClip_eq_nil_of_forall_not xmin ymin xmax ymax P
    (fun q hq => h q ((mem_hull_iff_convexHull P q).mp hq))

theorem fourPassClip_total_exclusion_witness :
    (∀ q : Vertex ℚ,
        toPoint q ∈ convexHull ℚ (pointSet ([⟨0, 0⟩, ⟨1, 0⟩, ⟨0, 1⟩] : List (Vertex ℚ))) →
        ¬ insideAll q 2 2 4 4)
    ∧ fourPassClip ([⟨0, 0⟩, ⟨1, 0⟩, ⟨0, 1⟩] : List (Vertex ℚ)) 2 2 4 4 = [] := by
  have hyp : ∀ q : Vertex ℚ,
      toPoint q ∈ convexHull ℚ (pointSet ([⟨0, 0⟩, ⟨1, 0⟩, ⟨0, 1⟩] : List (Vertex ℚ))) →
      ¬ insideAll q 2 2 4 4 := by
    intro q hq hin
    rw [← mem_hull_iff_convexHull] at hq
    have hout : inside q 0 2 2 4 4 = false := by
      apply hull_min _ _ (segClosed_outside 0 2 2 4 4) _ hq
      intro v hv
      simp only [List.mem_cons, List.mem_singleton, List.not_mem_nil, or_false] at hv
      rcases hv with h | h | h <;> subst h <;> norm_num [inside]
    rw [hin.1] at hout
    exact absurd hout (by simp)
  exact ⟨hyp, fourPassClip_total_exclusion _ 2 2 4 4 hyp⟩

/-- C1. For a rectangle and a convex polygon `P` listed in cyclic boundary
order, the four-pass clip returns a vertex list that represents the
intersection of `P` with the rectangle: a point lies in the convex hull of the
output vertices exactly when it lies in the convex hull of the vertices of `P`
and passes all four inside tests; and the output is empty exactly when that
intersection is empty. The statement holds for every rectangle, in particular
for those with `xmin ≤ xmax` and `ymin ≤ ymax`. -/
theorem fourPassClip_is_intersection (P : List (Vertex α)) (xmin ymin xmax ymax : α)
    (hP : IsConvexPolygon P) :
    (∀ q : α × α,
        q ∈ convexHull α (pointSet (fourPassClip P xmin ymin xmax ymax))
          ↔ q ∈ convexHull α (pointSet P) ∧ insideAll ⟨q.1, q.2⟩ xmin ymin xmax ymax)
    ∧ (fourPassClip P xmin ymin xmax ymax = []
        ↔ ¬ ∃ q : α × α,
            q ∈ convexHull α (pointSet P) ∧ insideAll ⟨q.1, q.2⟩ xmin ymin xmax ymax) := by
  have main : ∀ q : α × α,
      q ∈ convexHull α (pointSet (fourPassClip P xmin ymin xmax ymax))
        ↔ q ∈ convexHull α (pointSet P) ∧ insideAll ⟨q.1, q.2⟩ xmin ymin xmax ymax := by
    intro q
    have h := hull_fourPassClip xmin ymin xmax ymax P hP ⟨q.1, q.2⟩
    rw [mem_hull_iff_convexHull, mem_hull_iff_convexHull] at h
    exact h
  refine ⟨main, ?_⟩
  constructor
  · intro h0 ⟨q, hq⟩
    have := (main q).mpr hq
    rw [h0] at this
    have hnil : pointSet ([] : List (Vertex α)) = ∅ := by
      ext p; simp [pointSet]
    rw [hnil, convexHull_empty] at this
    exact this
  · intro hne
    rw [List.eq_nil_iff_forall_not_mem]
    intro v hv
    apply hne
    refine ⟨toPoint v, (main (toPoint v)).mp ?_⟩
    exact subset_convexHull α _ ⟨v, hv, rfl⟩

theorem diamond_isConvexPolygon : IsConvexPolygon diamond := by
  left
  intro e he w hw
  simp only [cyclicPairs, pairsFrom, diamond, List.getLast?, List.getLast, List.mem_cons,
    List.not_mem_nil, or_false] at he hw
  rcases he with h | h | h | h <;> subst h <;> rcases hw with h | h | h | h <;> subst h <;>
    norm_num [cross]

theorem fourPassClip_is_intersection_witness :
    IsConvexPolygon diamond
    ∧ (∀ q : ℚ × ℚ,
        q ∈ convexHull ℚ (pointSet (fourPassClip diamond 200 150 600 450))
          ↔ q ∈ convexHull ℚ (pointSet diamond) ∧ insideAll ⟨q.1, q.2⟩ 200 150 600 450)
    ∧ (fourPassClip diamond 200 150 600 450 = []
        ↔ ¬ ∃ q : ℚ × ℚ,
            q ∈ convexHull ℚ (pointSet diamond) ∧ insideAll ⟨q.1, q.2⟩ 200 150 600 450) :=
  ⟨diamond_isConvexPolygon,
   fourPassClip_is_intersection diamond 200 150 600 450 diamond_isConvexPolygon⟩

/-- C5, as stated, fails. The clockwise triangle `(5,3), (6,-3), (4,0)` touches
the rectangle `(0,0)-(4,4)` at one corner: the order Left, Right, Bottom, Top
returns that corner three times and the order Left, Bottom, Right, Top four
times, so the two vertex lists are not rotations of each other. For the
non-convex polygon `(1,1), (-2,2), (0,7), (-3,1)` the order Right, Bottom, Top,
Left does not even cover the same region: `(0,4)` is a vertex of the result in
the order of the program and is outside the hull of the other result. -/
theorem order_independence_counterexample :
    (IsConvexPolygon ([⟨5, 3⟩, ⟨6, -3⟩, ⟨4, 0⟩] : List (Vertex ℚ))
      ∧ List.Perm ([0, 2, 1, 3] : List Int) [0, 1, 2, 3]
      ∧ ¬ List.IsRotated
          (clipSeq [0, 2, 1, 3] ([⟨5, 3⟩, ⟨6, -3⟩, ⟨4, 0⟩] : List (Vertex ℚ)) 0 0 4 4)
          (fourPassClip ([⟨5, 3⟩, ⟨6, -3⟩, ⟨4, 0⟩] : List (Vertex ℚ)) 0 0 4 4))
    ∧ (List.Perm ([1, 2, 3, 0] : List Int) [0, 1, 2, 3]
      ∧ ¬ List.IsRotated
          (clipSeq [1, 2, 3, 0] ([⟨1, 1⟩, ⟨-2, 2⟩, ⟨0, 7⟩, ⟨-3, 1⟩] : List (Vertex ℚ)) 0 0 4 4)
          (fourPassClip ([⟨1, 1⟩, ⟨-2, 2⟩, ⟨0, 7⟩, ⟨-3, 1⟩] : List (Vertex ℚ)) 0 0 4 4)
      ∧ (⟨0, 4⟩ : Vertex ℚ)
          ∈ fourPassClip ([⟨1, 1⟩, ⟨-2, 2⟩, ⟨0, 7⟩, ⟨-3, 1⟩] : List (Vertex ℚ)) 0 0 4 4
      ∧ ((0, 4) : ℚ × ℚ) ∉ convexHull ℚ (pointSet
          (clipSeq [1, 2, 3, 0] ([⟨1, 1⟩, ⟨-2, 2⟩, ⟨0, 7⟩, ⟨-3, 1⟩] : List (Vertex ℚ))
            0 0 4 4))) := by
  have e1 : clipSeq [0, 2, 1, 3] ([⟨5, 3⟩, ⟨6, -3⟩, ⟨4, 0⟩] : List (Vertex ℚ)) 0 0 4 4
      = [⟨4, 0⟩, ⟨4, 0⟩, ⟨4, 0⟩, ⟨4, 0⟩] := by
    simp only [clipSeq, List.foldl_cons, List.foldl_nil, clipAgainstBoundary_eq_clipSpec]
    norm_num [clipSpec, cyclicPairs, pairsFrom, emitAll, emit, inside, intersect]
  have e2 : fourPassClip ([⟨5, 3⟩, ⟨6, -3⟩, ⟨4, 0⟩] : List (Vertex ℚ)) 0 0 4 4
      = [⟨4, 0⟩, ⟨4, 0⟩, ⟨4, 0⟩] := by
    simp only [fourPassClip, clipSeq, List.foldl_cons, List.foldl_nil,
      clipAgainstBoundary_eq_clipSpec]
    norm_num [clipSpec, cyclicPairs, pairsFrom, emitAll, emit, inside, intersect]
  have e3 : clipSeq [1, 2, 3, 0] ([⟨1, 1⟩, ⟨-2, 2⟩, ⟨0, 7⟩, ⟨-3, 1⟩] : List (Vertex ℚ)) 0 0 4 4
      = [⟨0, 1⟩, ⟨1, 1⟩, ⟨0, 4 / 3⟩] := by
    simp only [clipSeq, List.foldl_cons, List.foldl_nil, clipAgainstBoundary_eq_clipSpec]
    norm_num [clipSpec, cyclicPairs, pairsFrom, emitAll, emit, inside, intersect]
  have e4 : fourPassClip ([⟨1, 1⟩, ⟨-2, 2⟩, ⟨0, 7⟩, ⟨-3, 1⟩] : List (Vertex ℚ)) 0 0 4 4
      = [⟨0, 4⟩, ⟨0, 1⟩, ⟨1, 1⟩, ⟨0, 4 / 3⟩, ⟨0, 4⟩] := by
    simp only [fourPassClip, clipSeq, List.foldl_cons, List.foldl_nil,
      clipAgainstBoundary_eq_clipSpec]
    norm_num [clipSpec, cyclicPairs, pairsFrom, emitAll, emit, inside, intersect]
  refine ⟨⟨?_, by decide, ?_⟩, ⟨by decide, ?_, ?_, ?_⟩⟩
  · right
    intro e he w hw
    simp only [cyclicPairs, pairsFrom, List.getLast?, List.getLast, List.mem_cons,
      List.not_mem_nil, or_false] at he hw
    rcases he with h | h | h <;> subst h <;> rcases hw with h | h | h <;> subst h <;>
      norm_num [cross]
  · rw [e1, e2]
    intro h
    have := h.perm.length_eq
    simp at this
  · rw [e3, e4]
    intro h
    have := h.perm.length_eq
    simp at this
  · rw [e4]; simp
  · rw [e3]
    intro h
    have h' : (⟨0, 4⟩ : Vertex ℚ) ∈ hull ([⟨0, 1⟩, ⟨1, 1⟩, ⟨0, 4 / 3⟩] : List (Vertex ℚ)) :=
      (mem_hull_iff_convexHull _ _).mpr h
    have hin : inside (⟨0, 4⟩ : Vertex ℚ) 3 0 0 4 2 = true := by
      apply hull_min _ _ (segClosed_inside 3 0 0 4 2) _ h'
      intro v hv
      simp only [List.mem_cons, List.mem_singleton, List.not_mem_nil, or_false] at hv
      rcases hv with h | h | h <;> subst h <;> norm_num [inside]
    norm_num [inside] at hin

/-- For a convex polygon the passes in any order return a vertex list whose
convex hull is the intersection of the polygon with the rectangle. -/
theorem clipSeq_hull_eq (P : List (Vertex α)) (xmin ymin xmax ymax : α)
    (s : List Int) (hs : List.Perm s [0, 1, 2, 3]) (hP : IsConvexPolygon P) :
    ∀ q : α × α,
      (q ∈ convexHull α (pointSet (clipSeq s P xmin ymin xmax ymax))
        ↔ q ∈ convexHull α (pointSet (fourPassClip P xmin ymin xmax ymax)))
      ∧ (q ∈ convexHull α (pointSet (clipSeq s P xmin ymin xmax ymax))
        ↔ q ∈ convexHull α (pointSet P) ∧ insideAll ⟨q.1, q.2⟩ xmin ymin xmax ymax) := by
  intro q
  have hbs : ∀ c ∈ s, IsBoundary c := fun c hc => isBoundary_of_mem c (hs.mem_iff.mp hc)
  have h1 := hull_clipSeq_of_isConvexPolygon xmin ymin xmax ymax s hbs P hP ⟨q.1, q.2⟩
  have h2 := hull_fourPassClip xmin ymin xmax ymax P hP ⟨q.1, q.2⟩
  have h3 : (∀ c ∈ s, inside (⟨q.1, q.2⟩ : Vertex α) c xmin ymin xmax ymax = true)
      ↔ insideAll ⟨q.1, q.2⟩ xmin ymin xmax ymax := by
    have : (∀ c ∈ s, inside (⟨q.1, q.2⟩ : Vertex α) c xmin ymin xmax ymax = true)
        ↔ ∀ c ∈ ([0, 1, 2, 3] : List Int),
            inside (⟨q.1, q.2⟩ : Vertex α) c xmin ymin xmax ymax = true :=
      ⟨fun h c hc => h c (hs.mem_iff.mpr hc), fun h c hc => h c (hs.mem_iff.mp hc)⟩
    rw [this]
    simp [insideAll]
  rw [h3] at h1
  rw [mem_hull_iff_convexHull] at h1 h2
  rw [mem_hull_iff_convexHull] at h1 h2
  exact ⟨h1.trans h2.symm, h1⟩


/-- The octagon cut from the diamond has no repeated vertex: collapsing leaves
the list as it is. -/
theorem collapse_fourPassClip_diamond :
    collapse (fourPassClip diamond 200 150 600 450) = fourPassClip diamond 200 150 600 450 := by
  rw [diamond_fourPassClip]
  simp only [collapse, dropRepeats, List.getLast?, List.getLast]
  norm_num
  exact List.cons_ne_nil _ _

/-- C5, amended. Order independence, over exact coordinates (the coordinates
range over an ordered field such as the reals, and `intersect` divides exactly):
for a convex polygon `P` listed in cyclic boundary order, every rectangle and
every order `s` of the four boundaries, the vertex list returned by the passes in
the order `s` and the list returned in the order Left, Right, Bottom, Top are
equal up to a rotation of the vertex list once repeated vertices are collapsed
(`collapse` drops every vertex equal to its cyclic predecessor). The binary32
quotients of the program are not modelled here. -/
theorem clipSeq_order_independent (P : List (Vertex α)) (xmin ymin xmax ymax : α)
    (s : List Int) (hs : List.Perm s [0, 1, 2, 3]) (hP : IsConvexPolygon P) :
    List.IsRotated (collapse (clipSeq s P xmin ymin xmax ymax))
      (collapse (fourPassClip P xmin ymin xmax ymax)) := by
  have hbs : ∀ c ∈ s, IsBoundary c := fun c hc => isBoundary_of_mem c (hs.mem_iff.mp hc)
  apply sameCycle_collapse
  rcases hP with h | h
  · exact clipSeq_perm xmin ymin xmax ymax (Or.inl rfl) hs hbs P h
  · exact clipSeq_perm xmin ymin xmax ymax (Or.inr rfl) hs hbs P h

theorem clipSeq_order_independent_witness :
    List.Perm ([0, 2, 1, 3] : List Int) [0, 1, 2, 3]
    ∧ IsConvexPolygon ([⟨5, 3⟩, ⟨6, -3⟩, ⟨4, 0⟩] : List (Vertex ℚ))
    ∧ List.IsRotated
        (collapse (clipSeq [0, 2, 1, 3] ([⟨5, 3⟩, ⟨6, -3⟩, ⟨4, 0⟩] : List (Vertex ℚ)) 0 0 4 4))
        (collapse (fourPassClip ([⟨5, 3⟩, ⟨6, -3⟩, ⟨4, 0⟩] : List (Vertex ℚ)) 0 0 4 4))
    ∧ collapse (clipSeq [0, 2, 1, 3] ([⟨5, 3⟩, ⟨6, -3⟩, ⟨4, 0⟩] : List (Vertex ℚ)) 0 0 4 4)
        = [⟨4, 0⟩]
    ∧ collapse (fourPassClip ([⟨5, 3⟩, ⟨6, -3⟩, ⟨4, 0⟩] : List (Vertex ℚ)) 0 0 4 4)
        = [⟨4, 0⟩] := by
  have hconv : IsConvexPolygon ([⟨5, 3⟩, ⟨6, -3⟩, ⟨4, 0⟩] : List (Vertex ℚ)) := by
    right
    intro e he w hw
    simp only [cyclicPairs, pairsFrom, List.getLast?, List.getLast, List.mem_cons,
      List.not_mem_nil, or_false] at he hw
    rcases he with h | h | h <;> subst h <;> rcases hw with h | h | h <;> subst h <;>
      norm_num [cross]
  have e1 : clipSeq [0, 2, 1, 3] ([⟨5, 3⟩, ⟨6, -3⟩, ⟨4, 0⟩] : List (Vertex ℚ)) 0 0 4 4
      = [⟨4, 0⟩, ⟨4, 0⟩, ⟨4, 0⟩, ⟨4, 0⟩] := by
    simp only [clipSeq, List.foldl_cons, List.foldl_nil, clipAgainstBoundary_eq_clipSpec]
    norm_num [clipSpec, cyclicPairs, pairsFrom, emitAll, emit, inside, intersect]
  have e2 : fourPassClip ([⟨5, 3⟩, ⟨6, -3⟩, ⟨4, 0⟩] : List (Vertex ℚ)) 0 0 4 4
      = [⟨4, 0⟩, ⟨4, 0⟩, ⟨4, 0⟩] := by
    simp only [fourPassClip, clipSeq, List.foldl_cons, List.foldl_nil,
      clipAgainstBoundary_eq_clipSpec]
    norm_num [clipSpec, cyclicPairs, pairsFrom, emitAll, emit, inside, intersect]
  refine ⟨by decide, hconv,
    clipSeq_order_independent _ 0 0 4 4 [0, 2, 1, 3] (by decide) hconv, ?_, ?_⟩
  · rw [e1]; simp [collapse, dropRepeats]
  · rw [e2]; simp [collapse, dropRepeats]

/-- C11. Empty input: for every boundary and rectangle the pass on the empty
vertex list returns the empty list, and the instrumented pass shows that it
does so without reading an index or evaluating a modulo by zero; for every
rectangle and viewport `SutherlandHodgeman` of the empty flat array returns the
empty sequence, again without any undefined operation. -/
theorem empty_input_gives_empty_output (b : Int) (xmin ymin xmax ymax : α)
    (width height : Int) :
    clipAgainstBoundary ([] : List (Vertex α)) b xmin ymin xmax ymax = []
    ∧ clipAgainstBoundaryChecked ([] : List (Vertex α)) b xmin ymin xmax ymax = .ok ⟨[], []⟩
    ∧ fourPassClip ([] : List (Vertex α)) xmin ymin xmax ymax = []
    ∧ fourPassClipChecked ([] : List (Vertex α)) xmin ymin xmax ymax = .ok ⟨[], []⟩
    ∧ SutherlandHodgeman ([] : List α) xmin ymin xmax ymax width height = some []
    ∧ SutherlandHodgemanChecked ([] : List α) xmin ymin xmax ymax width height = .ok [] := by
  refine ⟨rfl, rfl, rfl, ?_, rfl, ?_⟩
  · simp [fourPassClipChecked, clipSeqChecked, passChecked_nil, bind, Except.bind, pure,
      Except.pure]
  · have h := SutherlandHodgemanChecked_flatten xmin ymin xmax ymax ([] : List (Vertex α))
      width height
    simpa [flatten, fourPassClip, clipSeq, clipAgainstBoundary_nil, toNDCChecked] using h

/-- C12. One-point polygon: the four-pass clip of `[p]` runs without reading an
index out of bounds and without any call to `intersect` (the record of calls is
empty), and returns `[p]` when `p` passes all four inside tests and the empty
list otherwise. -/
theorem one_point_polygon (p : Vertex α) (xmin ymin xmax ymax : α) :
    (∃ out, fourPassClipChecked [p] xmin ymin xmax ymax = .ok ⟨out, []⟩
      ∧ out = fourPassClip [p] xmin ymin xmax ymax)
    ∧ (fourPassClip [p] xmin ymin xmax ymax = [p] ↔ insideAll p xmin ymin xmax ymax)
    ∧ (fourPassClip [p] xmin ymin xmax ymax = [] ↔ ¬ insideAll p xmin ymin xmax ymax) := by
  refine ⟨⟨_, fourPassClipChecked_singleton xmin ymin xmax ymax p,
    (fourPassClip_singleton xmin ymin xmax ymax p).symm⟩, ?_, ?_⟩
  · rw [fourPassClip_singleton]
    unfold insideAll
    cases h0 : inside p 0 xmin ymin xmax ymax <;> cases h1 : inside p 1 xmin ymin xmax ymax <;>
      cases h2 : inside p 2 xmin ymin xmax ymax <;> cases h3 : inside p 3 xmin ymin xmax ymax <;>
      simp
  · rw [fourPassClip_singleton]
    unfold insideAll
    cases h0 : inside p 0 xmin ymin xmax ymax <;> cases h1 : inside p 1 xmin ymin xmax ymax <;>
      cases h2 : inside p 2 xmin ymin xmax ymax <;> cases h3 : inside p 3 xmin ymin xmax ymax <;>
      simp

/-- C13, as stated, fails: there is no validation of the viewport. For the
viewport `(-800, 600)` the run of `main`'s diamond is not rejected: it returns
the sixteen coordinates obtained by dividing by `-800` and by `600`, and no
undefined operation occurs. For the viewport `(0, 600)` a sequence of sixteen
elements is returned as well, and the run does evaluate the division by the
zero width. -/
theorem invalid_viewport_counterexample :
    SutherlandHodgeman (flatten diamond) 200 150 600 450 (-800) 600
      = some [-5 / 2, 2 / 15, -69 / 32, 1 / 2, -59 / 32, 1 / 2, -3 / 2, 2 / 15,
              -3 / 2, -2 / 15, -59 / 32, -1 / 2, -69 / 32, -1 / 2, -5 / 2, -2 / 15]
    ∧ SutherlandHodgemanChecked (flatten diamond) 200 150 600 450 (-800) 600
      = .ok [-5 / 2, 2 / 15, -69 / 32, 1 / 2, -59 / 32, 1 / 2, -3 / 2, 2 / 15,
              -3 / 2, -2 / 15, -59 / 32, -1 / 2, -69 / 32, -1 / 2, -5 / 2, -2 / 15]
    ∧ (∃ out, SutherlandHodgeman (flatten diamond) 200 150 600 450 0 600 = some out
        ∧ out.length = 16)
    ∧ SutherlandHodgemanChecked (flatten diamond) 200 150 600 450 0 600
      = .error .divisionByZero := by
  have hv : toNDC (-800) 600 (fourPassClip diamond 200 150 600 450)
      = [-5 / 2, 2 / 15, -69 / 32, 1 / 2, -59 / 32, 1 / 2, -3 / 2, 2 / 15,
          -3 / 2, -2 / 15, -59 / 32, -1 / 2, -69 / 32, -1 / 2, -5 / 2, -2 / 15] := by
    rw [diamond_fourPassClip]
    norm_num [toNDC, ndcX, ndcY]
  refine ⟨?_, ?_, ?_, ?_⟩
  · rw [SutherlandHodgeman_flatten, hv]
  · rw [SutherlandHodgemanChecked_flatten,
      toNDCChecked_of_ne_zero (-800) 600 (by decide) (by decide), hv]
  · refine ⟨_, SutherlandHodgeman_flatten _ _ _ _ _ _ _, ?_⟩
    rw [length_toNDC, diamond_fourPassClip]
    rfl
  · rw [SutherlandHodgemanChecked_flatten, diamond_fourPassClip]
    exact toNDCChecked_of_eq_zero 0 600 (Or.inl rfl) _ _

/-- C13, amended. The viewport is not validated: for every polygon, rectangle
and viewport `SutherlandHodgeman` returns a sequence with two elements per
vertex of the clip, and when the width and the height are non-zero, negative
values included, the run evaluates no undefined operation and the elements are
`2*x_k/width - 1` and `2*y_k/height - 1`, the quotients being taken by the
dimensions as they are. -/
theorem SutherlandHodgeman_viewport_not_validated (P : List (Vertex α))
    (xmin ymin xmax ymax : α) (width height : Int) (hw : width ≠ 0) (hh : height ≠ 0) :
    (∀ w h : Int, ∃ out : List α,
        SutherlandHodgeman (flatten P) xmin ymin xmax ymax w h = some out
        ∧ out.length = 2 * (fourPassClip P xmin ymin xmax ymax).length)
    ∧ ∃ out : List α,
        SutherlandHodgeman (flatten P) xmin ymin xmax ymax width height = some out
        ∧ SutherlandHodgemanChecked (flatten P) xmin ymin xmax ymax width height = .ok out
        ∧ (width : α) ≠ 0 ∧ (height : α) ≠ 0
        ∧ ∀ (k : Nat) (v : Vertex α), (fourPassClip P xmin ymin xmax ymax)[k]? = some v →
            out[2 * k]? = some (2 * v.x / (width : α) - 1)
            ∧ out[2 * k + 1]? = some (2 * v.y / (height : α) - 1) := by
  refine ⟨fun w h => ⟨_, SutherlandHodgeman_flatten P xmin ymin xmax ymax w h,
    length_toNDC _ _ _⟩, _, SutherlandHodgeman_flatten P xmin ymin xmax ymax width height,
    ?_, ?_, ?_, ?_⟩
  · rw [SutherlandHodgemanChecked_flatten, toNDCChecked_of_ne_zero width height hw hh]
  · exact_mod_cast hw
  · exact_mod_cast hh
  · intro k v hk
    exact toNDC_getElem? width height _ k v hk

theorem SutherlandHodgeman_viewport_not_validated_witness :
    ((-800 : Int) ≠ 0 ∧ (600 : Int) ≠ 0)
    ∧ ∃ out : List ℚ,
        SutherlandHodgeman (flatten diamond) 200 150 600 450 (-800) 600 = some out
        ∧ SutherlandHodgemanChecked (flatten diamond) 200 150 600 450 (-800) 600 = .ok out
        ∧ (((-800 : Int) : ℚ)) ≠ 0 ∧ (((600 : Int) : ℚ)) ≠ 0
        ∧ ∀ (k : Nat) (v : Vertex ℚ), (fourPassClip diamond 200 150 600 450)[k]? = some v →
            out[2 * k]? = some (2 * v.x / (((-800 : Int) : ℚ)) - 1)
            ∧ out[2 * k + 1]? = some (2 * v.y / (((600 : Int) : ℚ)) - 1) :=
  ⟨⟨by decide, by decide⟩,
   (SutherlandHodgeman_viewport_not_validated diamond 200 150 600 450 (-800) 600
      (by decide) (by decide)).2⟩

/-- C14, as stated, fails: `intersect` has no guard and no fallback. For the
Left boundary `x = 2` and the points `(1,0)`, `(1,5)` the divisor `dx` is zero
and the division is evaluated; the result has `x = 2`, the value assigned
before the division, so whatever the quotient is the result is neither of the
two endpoints, whose `x` is `1`. -/
theorem zero_divisor_counterexample :
    divisor (⟨1, 0⟩ : Vertex ℚ) ⟨1, 5⟩ 0 = 0
    ∧ intersectChecked (⟨1, 0⟩ : Vertex ℚ) ⟨1, 5⟩ 0 2 0 6 6 = .error .divisionByZero
    ∧ (intersect (⟨1, 0⟩ : Vertex ℚ) ⟨1, 5⟩ 0 2 0 6 6).x = 2
    ∧ intersect (⟨1, 0⟩ : Vertex ℚ) ⟨1, 5⟩ 0 2 0 6 6 ≠ ⟨1, 0⟩
    ∧ intersect (⟨1, 0⟩ : Vertex ℚ) ⟨1, 5⟩ 0 2 0 6 6 ≠ ⟨1, 5⟩ := by
  refine ⟨by norm_num [divisor], by norm_num [intersectChecked], rfl, ?_, ?_⟩
  · intro h
    have := congrArg Vertex.x h
    norm_num [intersect] at this
  · intro h
    have := congrArg Vertex.x h
    norm_num [intersect] at this

/-- C14, amended. Zero divisor: for a boundary in `0..3` and two points whose
interpolation divisor is zero (`p2.x = p1.x` for Left and Right, `p2.y = p1.y`
for Bottom and Top), `intersect` does not guard the division: the division by
zero is evaluated and no endpoint is substituted; the coordinate it assigns
before the division is that of the boundary line. The two points are then on
the same side of the boundary, so `clipAgainstBoundary` makes no such call. -/
theorem intersect_zero_divisor_unguarded (p1 p2 : Vertex α) (b : Int)
    (xmin ymin xmax ymax : α)
    (h0 : ((b = 0 ∨ b = 1) ∧ p2.x = p1.x) ∨ ((b = 2 ∨ b = 3) ∧ p2.y = p1.y)) :
    divisor p1 p2 b = 0
    ∧ intersectChecked p1 p2 b xmin ymin xmax ymax = .error .divisionByZero
    ∧ bdist b xmin ymin xmax ymax (intersect p1 p2 b xmin ymin xmax ymax) = 0
    ∧ inside p1 b xmin ymin xmax ymax = inside p2 b xmin ymin xmax ymax
    ∧ (p1, p2) ∉ List.filter (straddles b xmin ymin xmax ymax) [(p1, p2)] := by
  have hb : IsBoundary b := by
    rcases h0 with ⟨h | h, _⟩ | ⟨h | h, _⟩ <;> simp [IsBoundary, h]
  have hd : divisor p1 p2 b = 0 := by
    rcases h0 with ⟨h | h, e⟩ | ⟨h | h, e⟩ <;> subst h <;> simp [divisor, e]
  have hin : inside p1 b xmin ymin xmax ymax = inside p2 b xmin ymin xmax ymax := by
    by_contra hne
    exact divisor_ne_zero_of_straddle b xmin ymin xmax ymax p1 p2 hne hd
  refine ⟨hd, intersectChecked_of_divisor_eq_zero b xmin ymin xmax ymax hb p1 p2 hd, ?_, hin, ?_⟩
  · rcases hb with rfl | rfl | rfl | rfl <;> simp [bdist, intersect]
  · simp [straddles, hin]

theorem intersect_zero_divisor_unguarded_witness :
    (((0 : Int) = 0 ∨ (0 : Int) = 1) ∧ (⟨1, 5⟩ : Vertex ℚ).x = (⟨1, 0⟩ : Vertex ℚ).x)
    ∧ intersectChecked (⟨1, 0⟩ : Vertex ℚ) ⟨1, 5⟩ 0 2 0 6 6 = .error .divisionByZero
    ∧ bdist 0 2 0 6 6 (intersect (⟨1, 0⟩ : Vertex ℚ) ⟨1, 5⟩ 0 2 0 6 6) = 0 :=
  ⟨⟨Or.inl rfl, rfl⟩,
   (intersect_zero_divisor_unguarded (⟨1, 0⟩ : Vertex ℚ) ⟨1, 5⟩ 0 2 0 6 6
      (Or.inl ⟨Or.inl rfl, rfl⟩)).2.1,
   (intersect_zero_divisor_unguarded (⟨1, 0⟩ : Vertex ℚ) ⟨1, 5⟩ 0 2 0 6 6
      (Or.inl ⟨Or.inl rfl, rfl⟩)).2.2.1⟩

/-- C15. Division safety: the instrumented pass returns the output of
`clipAgainstBoundary` without any fault, and every call it makes to `intersect`
has exactly one of `prev`, `current` inside the boundary and a non-zero divisor
(`prev.x ≠ current.x` for Left and Right, `prev.y ≠ current.y` for Bottom and
Top); hence, with the division guarded, the four-pass clip returns its result
and never reaches the division by zero. -/
theorem division_safety (input : List (Vertex α)) (b : Int) (xmin ymin xmax ymax : α) :
    (∃ calls : List (Vertex α × Vertex α),
      clipAgainstBoundaryChecked input b xmin ymin xmax ymax
        = .ok ⟨clipAgainstBoundary input b xmin ymin xmax ymax, calls⟩
      ∧ ∀ e ∈ calls,
          ((inside e.1 b xmin ymin xmax ymax = true ∧ inside e.2 b xmin ymin xmax ymax = false)
            ∨ (inside e.1 b xmin ymin xmax ymax = false
                ∧ inside e.2 b xmin ymin xmax ymax = true))
          ∧ (((b = 0 ∨ b = 1) ∧ e.1.x ≠ e.2.x) ∨ ((b = 2 ∨ b = 3) ∧ e.1.y ≠ e.2.y))
          ∧ intersectChecked e.1 e.2 b xmin ymin xmax ymax
              = .ok (intersect e.1 e.2 b xmin ymin xmax ymax))
    ∧ (∃ calls : List (Vertex α × Vertex α),
      fourPassClipChecked input xmin ymin xmax ymax
        = .ok ⟨fourPassClip input xmin ymin xmax ymax, calls⟩
      ∧ ∀ e ∈ calls, ∃ c : Int,
          straddles c xmin ymin xmax ymax e = true ∧ divisor e.1 e.2 c ≠ 0)
    ∧ fourPassClipChecked input xmin ymin xmax ymax ≠ .error .divisionByZero := by
  refine ⟨⟨_, clipAgainstBoundaryChecked_eq b xmin ymin xmax ymax input, ?_⟩,
    clipSeqChecked_eq xmin ymin xmax ymax [0, 1, 2, 3] input, ?_⟩
  · intro e he
    have hs := (straddles_iff b xmin ymin xmax ymax e).mp (List.mem_filter.mp he).2
    have hd := straddle_divisor_ne_zero b xmin ymin xmax ymax e.1 e.2 hs
    refine ⟨?_, ?_, intersectChecked_of_straddle b xmin ymin xmax ymax e.1 e.2 hs⟩
    · cases h1 : inside e.1 b xmin ymin xmax ymax <;>
        cases h2 : inside e.2 b xmin ymin xmax ymax <;> simp_all
    · rcases straddle_isBoundary b xmin ymin xmax ymax e.1 e.2 hs with h | h | h | h
      · exact Or.inl ⟨Or.inl h, fun h0 => hd.1 (Or.inl h) (by rw [h0]; ring)⟩
      · exact Or.inl ⟨Or.inr h, fun h0 => hd.1 (Or.inr h) (by rw [h0]; ring)⟩
      · exact Or.inr ⟨Or.inl h, fun h0 => hd.2 (Or.inl h) (by rw [h0]; ring)⟩
      · exact Or.inr ⟨Or.inr h, fun h0 => hd.2 (Or.inr h) (by rw [h0]; ring)⟩
  · obtain ⟨calls, h, _⟩ := clipSeqChecked_eq xmin ymin xmax ymax [0, 1, 2, 3] input
    unfold fourPassClipChecked
    rw [h]
    simp

/-- C16. Output size of one pass: the length of the output equals the number of
vertices of the input that are inside the boundary plus the number of cyclic
consecutive pairs that straddle it; so the output is at most one vertex longer
than the input per straddling pair. -/
theorem clipAgainstBoundary_output_size (input : List (Vertex α)) (b : Int)
    (xmin ymin xmax ymax : α) :
    (clipAgainstBoundary input b xmin ymin xmax ymax).length
      = input.countP (fun v => inside v b xmin ymin xmax ymax)
        + (cyclicPairs input).countP
            (fun e => inside e.1 b xmin ymin xmax ymax != inside e.2 b xmin ymin xmax ymax)
    ∧ (clipAgainstBoundary input b xmin ymin xmax ymax).length
      ≤ input.length + (cyclicPairs input).countP
            (fun e => inside e.1 b xmin ymin xmax ymax != inside e.2 b xmin ymin xmax ymax) := by
  have h := length_clipAgainstBoundary b xmin ymin xmax ymax input
  have e : (fun e : Vertex α × Vertex α =>
      inside e.1 b xmin ymin xmax ymax != inside e.2 b xmin ymin xmax ymax)
      = straddles b xmin ymin xmax ymax := rfl
  rw [e]
  refine ⟨h, ?_⟩
  rw [h]
  exact Nat.add_le_add_right (List.countP_le_length _) _

/-- C17. Output lies in the window: for every vertex list and every rectangle,
ordered or not, every vertex of the four-pass clip satisfies
`xmin ≤ x ≤ xmax` and `ymin ≤ y ≤ ymax`; more generally, after the passes for
the boundaries of `bs` every vertex of the working polygon is inside each
boundary of `bs`, the last one and those already processed. -/
theorem fourPassClip_output_in_window (P : List (Vertex α)) (xmin ymin xmax ymax : α) :
    (∀ v ∈ fourPassClip P xmin ymin xmax ymax,
        xmin ≤ v.x ∧ v.x ≤ xmax ∧ ymin ≤ v.y ∧ v.y ≤ ymax)
    ∧ (∀ v ∈ fourPassClip P xmin ymin xmax ymax, insideAll v xmin ymin xmax ymax)
    ∧ (∀ (bs : List Int) (c : Int), c ∈ bs →
        ∀ v ∈ clipSeq bs P xmin ymin xmax ymax, inside v c xmin ymin xmax ymax = true) := by
  refine ⟨?_, insideAll_of_mem_fourPassClip xmin ymin xmax ymax P, ?_⟩
  · intro v hv
    exact (insideAll_iff xmin ymin xmax ymax v).mp
      (insideAll_of_mem_fourPassClip xmin ymin xmax ymax P v hv)
  · intro bs c hc
    exact inside_of_mem_clipSeq xmin ymin xmax ymax bs P c hc

/-- C18. Exclusion by one boundary: when all the vertices of `P` are outside one
and the same boundary of the rectangle (all `x < xmin`, or all `x > xmax`, or
all `y < ymin`, or all `y > ymax`), the four-pass clip of `P` is empty. -/
theorem fourPassClip_excluded_by_one_boundary (P : List (Vertex α))
    (xmin ymin xmax ymax : α)
    (h : (∀ v ∈ P, v.x < xmin) ∨ (∀ v ∈ P, xmax < v.x) ∨ (∀ v ∈ P, v.y < ymin)
      ∨ (∀ v ∈ P, ymax < v.y)) :
    fourPassClip P xmin ymin xmax ymax = [] := by
  have key : ∃ c ∈ ([0, 1, 2, 3] : List Int), ∀ v ∈ P, inside v c xmin ymin xmax ymax = false := by
    rcases h with h | h | h | h
    · exact ⟨0, by simp, fun v hv => by simpa [inside] using h v hv⟩
    · exact ⟨1, by simp, fun v hv => by simpa [inside] using h v hv⟩
    · exact ⟨2, by simp, fun v hv => by simpa [inside] using h v hv⟩
    · exact ⟨3, by simp, fun v hv => by simpa [inside] using h v hv⟩
  obtain ⟨c, hc, hout⟩ := key
  rw [List.eq_nil_iff_forall_not_mem]
  intro v hv
  have h1 : inside v c xmin ymin xmax ymax = true :=
    inside_of_mem_clipSeq xmin ymin xmax ymax _ P c hc v hv
  have h2 : inside v c xmin ymin xmax ymax = false :=
    hull_min P _ (segClosed_outside c xmin ymin xmax ymax) hout
      (clipSeq_subset_hull xmin ymin xmax ymax _ P v hv)
  rw [h1] at h2
  exact absurd h2 (by simp)

theorem fourPassClip_excluded_by_one_boundary_witness :
    (∀ v ∈ ([⟨0, 3⟩, ⟨1, 5⟩, ⟨-1, 7⟩] : List (Vertex ℚ)), v.x < 2)
    ∧ fourPassClip ([⟨0, 3⟩, ⟨1, 5⟩, ⟨-1, 7⟩] : List (Vertex ℚ)) 2 2 4 4 = [] :=
  ⟨by intro v hv; simp at hv; rcases hv with h | h | h <;> subst h <;> norm_num,
   fourPassClip_excluded_by_one_boundary _ 2 2 4 4
     (Or.inl (by intro v hv; simp at hv; rcases hv with h | h | h <;> subst h <;> norm_num))⟩

/-- C19. No vertex outside the subject: every vertex of the four-pass clip of
`P` lies in the convex hull of the vertices of `P`; and each vertex produced by
one pass is a vertex of the input of that pass or a point `p + t (c - p)`,
`0 ≤ t ≤ 1`, of one of its edges `(p, c)`. -/
theorem fourPassClip_within_subject (P : List (Vertex α)) (xmin ymin xmax ymax : α) :
    (∀ v ∈ fourPassClip P xmin ymin xmax ymax, toPoint v ∈ convexHull α (pointSet P))
    ∧ (∀ (input : List (Vertex α)) (b : Int),
        ∀ v ∈ clipAgainstBoundary input b xmin ymin xmax ymax,
          v ∈ input
          ∨ ∃ e ∈ cyclicPairs input, ∃ t : α, 0 ≤ t ∧ t ≤ 1 ∧ v = lerp e.1 e.2 t) := by
  constructor
  · intro v hv
    exact (mem_hull_iff_convexHull P v).mp (clipSeq_subset_hull xmin ymin xmax ymax _ P v hv)
  · intro input b v hv
    rcases mem_clipAgainstBoundary b xmin ymin xmax ymax hv with ⟨h1, _⟩ | ⟨e, he, hne, rfl⟩
    · exact Or.inl h1
    · obtain ⟨t0, t1⟩ := straddle_param_mem b xmin ymin xmax ymax e.1 e.2 hne
      exact Or.inr ⟨e, he, _, t0, t1, intersect_eq_lerp b xmin ymin xmax ymax e.1 e.2 hne⟩

end Clip
